import Mathlib

/-!
json_viewer: token tree, visible-line projection and search index

A shallow embedding of `src/main.c` (an ncurses JSON tree viewer built on the
jsmn tokenizer) together with theorems about it.

Conventions of the embedding

* C arrays are lists.  `tokens` lists the tokens the tokenizer wrote, so a read
  of `tokens[i]` with `i` at or past their number (an entry of the buffer that
  was never initialised) is the fault `Fault.outOfBounds`, as is a read or
  write outside `collapsed`, `depths` or the match buffer.  The recursive
  functions carry a fuel argument and running out of it is the fault
  `Fault.outOfFuel`; the theorems show that the fuel the entry points pass is
  enough.
* `int` values that are array indices or counts and are never negative in the
  source are `Nat`; spans, sizes, cursors and line numbers are `Int`.  The
  tokenizer is called with room for `MAX_TOKENS` tokens, so counts and declared
  sizes stay far below `2^31` and no wrap-around is modelled.  The one product
  of the source, `children *= 2` in `skip_token`, is the `int` product for
  declared sizes from `-2^30` up to, not including, `2^30`; the theorem on
  `skip_token` over arbitrary declared sizes assumes that range.
* `visible_tokens` holds the first `visible_count` entries of the C buffer
  (every read of that buffer in the source is below `visible_count`), so
  `visible_count` is its length.  `search_matches` is read at
  `current_match_idx`, which the source does not bound by
  `search_match_count`, so the model keeps the buffer beyond
  `search_match_count`.
* A JSON document is a `Forest` with one root; its token array is
  `Forest.flatten`, and `Forest.wellFormed` says that declared sizes agree with
  the children and that spans are nested as in invariant I1.
-/

namespace JView

/-! ## Tokens (jsmn.h) -/

/-- Modelled from the spec: the header `jsmn.h` is not part of the sources; a
token kind is one of Object, Array, String, Primitive. -/
inductive jsmntype_t where
  | JSMN_OBJECT
  | JSMN_ARRAY
  | JSMN_STRING
  | JSMN_PRIMITIVE
  deriving DecidableEq, Repr

open jsmntype_t

/-- Modelled from the spec: `jsmntok_t` of `jsmn.h`, a kind, the byte span
`[start, end)` and the declared child count.  The field `end` is written
`end_`. -/
structure jsmntok_t where
  type : jsmntype_t
  start : Int
  end_ : Int
  size : Int
  deriving DecidableEq, Repr

/-- Ways in which a run of the C code can leave defined behaviour (or, for
`outOfFuel`, in which the bounded recursion of the model gave up). -/
inductive Fault where
  | outOfBounds
  | outOfFuel
  deriving DecidableEq, Repr

def MAX_TOKENS : Nat := 2048
def INDENT_SIZE : Nat := 4
def MAX_SEARCH_LEN : Nat := 256

/-- The read `tokens[i]`. -/
def readTok (tokens : List jsmntok_t) (i : Nat) : Except Fault jsmntok_t :=
  match tokens[i]? with
  | some t => .ok t
  | none => .error .outOfBounds

/-- The read `a[i]` of an `int` array. -/
def readInt (a : List Int) (i : Nat) : Except Fault Int :=
  match a[i]? with
  | some t => .ok t
  | none => .error .outOfBounds

/-- The write `a[i] = v` of an `int` array. -/
def writeInt (a : List Int) (i : Nat) (v : Int) : Except Fault (List Int) :=
  if i < a.length then .ok (a.set i v) else .error .outOfBounds

/-! ## skip_token (main.c 61-77) -/

/-- The loop `for (i = 0; i < children && next < count; i++) next = skip_token(tokens, next, count);`
with `n` the number of iterations still allowed by `i < children` and `f` the
recursive call. -/
def skipLoop (f : Nat → Except Fault Nat) (count : Nat) : Nat → Nat → Except Fault Nat
  | 0, next => .ok next
  | n + 1, next =>
    if next < count then
      match f next with
      | .ok next' => skipLoop f count n next'
      | .error e => .error e
    else .ok next

/-- Body of `skip_token` with a bound on the recursion depth.  The product
`children *= 2` is taken in `Int`: it is the `int` product of the source when
the declared size lies from `-2^30` up to, not including, `2^30`, as it does
for every token the tokenizer writes into `MAX_TOKENS` slots. -/
def skipFuel (tokens : List jsmntok_t) (count : Nat) : Nat → Nat → Except Fault Nat
  | 0, _ => .error .outOfFuel
  | fuel + 1, token_idx =>
    match readTok tokens token_idx with
    | .error e => .error e
    | .ok tok =>
      let next := token_idx + 1
      if tok.type = JSMN_OBJECT ∨ tok.type = JSMN_ARRAY then
        let children := if tok.type = JSMN_OBJECT then tok.size * 2 else tok.size
        skipLoop (skipFuel tokens count fuel) count children.toNat next
      else .ok next

/-- The function `skip_token(tokens, token_idx, count)`.  Every nested call is on a larger
index below `count`, so `count + 1` levels always suffice
(`skipFuel_total`). -/
def skip_token (tokens : List jsmntok_t) (token_idx count : Nat) : Except Fault Nat :=
  skipFuel tokens count (count + 1) token_idx

/-! ## calculate_depths (main.c 80-94) -/

/-- The inner loop `for (j = ...; j < i; j++) if (tokens[j].start < pos && tokens[j].end > pos) depth++;`
with `n = i - j` iterations left. -/
def depthInner (tokens : List jsmntok_t) (pos : Int) : Nat → Nat → Int → Except Fault Int
  | 0, _, depth => .ok depth
  | n + 1, j, depth =>
    match readTok tokens j with
    | .error e => .error e
    | .ok tj =>
      depthInner tokens pos n (j + 1)
        (if tj.start < pos ∧ tj.end_ > pos then depth + 1 else depth)

/-- The outer loop `for (i = ...; i < count; i++)` with `n = count - i`
iterations left. -/
def depthOuter (tokens : List jsmntok_t) : Nat → Nat → List Int → Except Fault (List Int)
  | 0, _, depths => .ok depths
  | n + 1, i, depths =>
    match readTok tokens i with
    | .error e => .error e
    | .ok ti =>
      match depthInner tokens ti.start i 0 0 with
      | .error e => .error e
      | .ok depth =>
        match writeInt depths i depth with
        | .error e => .error e
        | .ok depths' => depthOuter tokens n (i + 1) depths'

/-- The function `calculate_depths(tokens, count, depths)`; the result is the `depths`
array after the call. -/
def calculate_depths (tokens : List jsmntok_t) (count : Nat) (depths : List Int) :
    Except Fault (List Int) :=
  match writeInt depths 0 0 with
  | .error e => .error e
  | .ok depths' => depthOuter tokens (count - 1) 1 depths'

/-! ## is_object_key (main.c 97-117) -/

/-- The session state, `JsonViewer` of main.c.  `visible_count` is the length
of `visible_tokens`; `json_str` and `search_term` are the bytes of the C
strings before the terminating NUL; `search_matches` lists the buffer up to the
highest entry ever written, the entries after it being the zeros of
`calloc`. -/
structure JsonViewer where
  tokens : List jsmntok_t
  token_count : Nat
  json_str : List Nat
  current_line : Int
  scroll_offset : Int
  visible_tokens : List Nat
  collapsed : List Int
  depths : List Int
  max_y : Int
  max_x : Int
  search_term : List Nat
  search_matches : List Nat
  search_match_count : Nat
  current_match_idx : Int
  search_mode : Int
  deriving DecidableEq, Repr

/-- The field `visible_count`. -/
def JsonViewer.visible_count (viewer : JsonViewer) : Nat := viewer.visible_tokens.length

/-- The loop `while (child_idx < tok_idx) { count++; child_idx = skip_token(...); }`
of `is_object_key`; the result is the final `count`. -/
def keyWalk (tokens : List jsmntok_t) (token_count tok_idx : Nat) :
    Nat → Nat → Nat → Except Fault Nat
  | 0, _, _ => .error .outOfFuel
  | fuel + 1, child_idx, count =>
    if child_idx < tok_idx then
      match skip_token tokens child_idx token_count with
      | .error e => .error e
      | .ok child' => keyWalk tokens token_count tok_idx fuel child' (count + 1)
    else .ok count

/-- The loop `for (i = tok_idx - 1; i >= 0; i--)` of `is_object_key`;
`keyScan .. (i + 1)` runs the body at index `i`, and `keyScan .. 0` is the exit
of the loop followed by `return 0`. -/
def keyScan (tokens : List jsmntok_t) (token_count tok_idx : Nat) (pos : Int) :
    Nat → Except Fault Bool
  | 0 => .ok false
  | i + 1 =>
    match readTok tokens i with
    | .error e => .error e
    | .ok parent =>
      if parent.start < pos ∧ parent.end_ > pos then
        if parent.type = JSMN_OBJECT then
          match keyWalk tokens token_count tok_idx (tok_idx + 1) (i + 1) 0 with
          | .error e => .error e
          | .ok count => .ok (count % 2 == 0)
        else .ok false
      else keyScan tokens token_count tok_idx pos i

/-- The function `is_object_key(viewer, tok_idx)`; `true` is the C result 1. -/
def is_object_key (viewer : JsonViewer) (tok_idx : Nat) : Except Fault Bool :=
  if tok_idx = 0 then .ok false
  else
    match readTok viewer.tokens tok_idx with
    | .error e => .error e
    | .ok tok => keyScan viewer.tokens viewer.token_count tok_idx tok.start tok_idx

/-- The function `get_token_for_line(viewer, line)` (main.c 120-123). -/
def get_token_for_line (viewer : JsonViewer) (line : Int) : Int :=
  if line < 0 ∨ line ≥ viewer.visible_count then -1
  else (viewer.visible_tokens.getD line.toNat 0 : Nat)

/-! ## Search (main.c 42-58, 126-183) -/

/-- The function `tolower` of the C locale on an `unsigned char`. -/
def tolower (c : Nat) : Nat := if 65 ≤ c ∧ c ≤ 90 then c + 32 else c

/-- The inner `while` of `stristr` followed by the test `!*n`: does the needle
match, ignoring case, at the head of the haystack. -/
def stristrAt : List Nat → List Nat → Bool
  | _, [] => true
  | [], _ :: _ => false
  | h :: hs, n :: ns => if tolower h = tolower n then stristrAt hs ns else false

/-- The loop `for (; *haystack; haystack++)` of `stristr`; `off` is the offset
of the current position in the original haystack. -/
def stristrLoop (needle : List Nat) : List Nat → Nat → Option Nat
  | [], _ => none
  | h :: hs, off =>
    if stristrAt (h :: hs) needle then some off else stristrLoop needle hs (off + 1)

/-- The function `stristr(haystack, needle)`: the offset of the returned pointer in the
haystack, `none` for `NULL`. -/
def stristr (haystack needle : List Nat) : Option Nat :=
  if needle = [] then some 0 else stristrLoop needle haystack 0

/-- The bytes of a C string held in a buffer: everything before the first
NUL. -/
def cstr (buf : List Nat) : List Nat := buf.takeWhile (fun c => c ≠ 0)

/-- The function `token_matches_search(viewer, tok_idx)`.  `malloc` is taken to succeed.
The `memcpy` reads `len` bytes of the memory of `json_str` (its bytes and the
terminating NUL) from `tok->start`. -/
def token_matches_search (viewer : JsonViewer) (tok_idx : Nat) : Except Fault Bool :=
  if viewer.search_term = [] then .ok false
  else
    match readTok viewer.tokens tok_idx with
    | .error e => .error e
    | .ok tok =>
      if tok.type = JSMN_OBJECT ∨ tok.type = JSMN_ARRAY then .ok false
      else
        let len := tok.end_ - tok.start
        if len ≤ 0 then .ok false
        else if tok.start < 0 ∨ tok.end_ > viewer.json_str.length + 1 then .error .outOfBounds
        else
          let token_str := ((viewer.json_str ++ [0]).drop tok.start.toNat).take len.toNat
          .ok (stristr (cstr token_str) viewer.search_term).isSome

/-- The read `search_matches[i]` of the buffer of `MAX_TOKENS` entries. -/
def readMatch (buf : List Nat) (i : Int) : Except Fault Nat :=
  if 0 ≤ i ∧ i < MAX_TOKENS then .ok (buf.getD i.toNat 0) else .error .outOfBounds

/-- The write `search_matches[i] = v` of the buffer of `MAX_TOKENS` entries. -/
def writeMatch (buf : List Nat) (i : Nat) (v : Nat) : Except Fault (List Nat) :=
  if i < MAX_TOKENS then
    .ok (if i < buf.length then buf.set i v
         else buf ++ List.replicate (i - buf.length) 0 ++ [v])
  else .error .outOfBounds

/-- The loop `for (i = ...; i < viewer->visible_count; i++)` of
`build_search_matches` over the rest of the visible list; the result is the
buffer and `search_match_count`. -/
def matchLoop (viewer : JsonViewer) :
    List Nat → Nat → List Nat → Nat → Except Fault (List Nat × Nat)
  | [], _, buf, count => .ok (buf, count)
  | tok_idx :: rest, i, buf, count =>
    match token_matches_search viewer tok_idx with
    | .error e => .error e
    | .ok true =>
      match writeMatch buf count i with
      | .error e => .error e
      | .ok buf' => matchLoop viewer rest (i + 1) buf' (count + 1)
    | .ok false => matchLoop viewer rest (i + 1) buf count

/-- The function `build_search_matches(viewer)`. -/
def build_search_matches (viewer : JsonViewer) : Except Fault JsonViewer :=
  let viewer := { viewer with search_match_count := 0 }
  if viewer.search_term = [] then .ok viewer
  else
    match matchLoop viewer viewer.visible_tokens 0 viewer.search_matches 0 with
    | .error e => .error e
    | .ok (buf, count) =>
      .ok { viewer with search_matches := buf, search_match_count := count }

/-- The function `goto_next_match(viewer)`; `%` of C is `Int.tmod`. -/
def goto_next_match (viewer : JsonViewer) : Except Fault JsonViewer :=
  if viewer.search_match_count = 0 then .ok viewer
  else
    let idx := (viewer.current_match_idx + 1).tmod viewer.search_match_count
    match readMatch viewer.search_matches idx with
    | .error e => .error e
    | .ok line => .ok { viewer with current_match_idx := idx, current_line := line }

/-- The function `goto_prev_match(viewer)`. -/
def goto_prev_match (viewer : JsonViewer) : Except Fault JsonViewer :=
  if viewer.search_match_count = 0 then .ok viewer
  else
    let idx := viewer.current_match_idx - 1
    let idx := if idx < 0 then (viewer.search_match_count : Int) - 1 else idx
    match readMatch viewer.search_matches idx with
    | .error e => .error e
    | .ok line => .ok { viewer with current_match_idx := idx, current_line := line }

/-! ## build_visible_tokens (main.c 186-228) -/

/-- The loop over the members of an Object in `build_visible_tokens`, with `n`
the iterations still allowed by `i < tok->size` and `recur` the recursive call
`build_visible_tokens(viewer, ., depth + 1)` on the visible list. -/
def objLoop (tokens : List jsmntok_t) (count : Nat)
    (recur : Nat → List Nat → Except Fault (List Nat)) :
    Nat → Nat → List Nat → Except Fault (List Nat)
  | 0, _, vis => .ok vis
  | n + 1, child_idx, vis =>
    if child_idx < count then
      match recur child_idx vis with
      | .error e => .error e
      | .ok vis1 =>
        match skip_token tokens child_idx count with
        | .error e => .error e
        | .ok child1 =>
          match readTok tokens child1 with
          | .error e => .error e
          | .ok value_tok =>
            match (if value_tok.type = JSMN_STRING ∨ value_tok.type = JSMN_PRIMITIVE
                   then .ok vis1 else recur child1 vis1) with
            | .error e => .error e
            | .ok vis2 =>
              match skip_token tokens child1 count with
              | .error e => .error e
              | .ok child2 => objLoop tokens count recur n child2 vis2
    else .ok vis

/-- The loop over the elements of an Array in `build_visible_tokens`. -/
def arrLoop (tokens : List jsmntok_t) (count : Nat)
    (recur : Nat → List Nat → Except Fault (List Nat)) :
    Nat → Nat → List Nat → Except Fault (List Nat)
  | 0, _, vis => .ok vis
  | n + 1, child_idx, vis =>
    if child_idx < count then
      match recur child_idx vis with
      | .error e => .error e
      | .ok vis1 =>
        match skip_token tokens child_idx count with
        | .error e => .error e
        | .ok child1 => arrLoop tokens count recur n child1 vis1
    else .ok vis

/-- Body of `build_visible_tokens` on the visible list, with a bound on the
recursion depth. -/
def buildFuel (tokens : List jsmntok_t) (count : Nat) (collapsed : List Int) :
    Nat → Nat → Nat → List Nat → Except Fault (List Nat)
  | 0, _, _, _ => .error .outOfFuel
  | fuel + 1, token_idx, depth, vis =>
    if token_idx ≥ count ∨ vis.length ≥ MAX_TOKENS then .ok vis
    else
      match readTok tokens token_idx with
      | .error e => .error e
      | .ok tok =>
        let vis1 := vis ++ [token_idx]
        match readInt collapsed token_idx with
        | .error e => .error e
        | .ok c =>
          if c ≠ 0 then .ok vis1
          else if tok.type = JSMN_OBJECT then
            objLoop tokens count (fun i v => buildFuel tokens count collapsed fuel i (depth + 1) v)
              tok.size.toNat (token_idx + 1) vis1
          else if tok.type = JSMN_ARRAY then
            arrLoop tokens count (fun i v => buildFuel tokens count collapsed fuel i (depth + 1) v)
              tok.size.toNat (token_idx + 1) vis1
          else .ok vis1

/-- The function `build_visible_tokens(viewer, token_idx, depth)`.  Every nested call is on
a larger index below `token_count`, so `token_count + 1` levels suffice. -/
def build_visible_tokens (viewer : JsonViewer) (token_idx depth : Nat) :
    Except Fault JsonViewer :=
  match buildFuel viewer.tokens viewer.token_count viewer.collapsed
      (viewer.token_count + 1) token_idx depth viewer.visible_tokens with
  | .error e => .error e
  | .ok vis => .ok { viewer with visible_tokens := vis }

/-! ## Session set-up, drawing and the input loop (main.c 243-608) -/

/-- The function `viewer_init(viewer, json_str)`.  The tokenizer is external: `parsed` is
the value returned by `jsmn_parse` and `tokens` the tokens it wrote.  The
result `none` is the return value -1 (no session), `some viewer` the return
value 0. -/
def viewer_init (json_str : List Nat) (parsed : Int) (tokens : List jsmntok_t) :
    Except Fault (Option JsonViewer) :=
  if parsed < 0 then .ok none
  else
    let token_count := parsed.toNat
    match calculate_depths tokens token_count (List.replicate token_count 0) with
    | .error e => .error e
    | .ok depths =>
      .ok (some
        { tokens := tokens
          token_count := token_count
          json_str := json_str
          current_line := 0
          scroll_offset := 0
          visible_tokens := []
          collapsed := List.replicate token_count 0
          depths := depths
          max_y := 0
          max_x := 0
          search_term := []
          search_matches := []
          search_match_count := 0
          current_match_idx := 0
          search_mode := 0 })

/-- The part of `display_json(viewer)` that changes the state: `getmaxyx`
stores the terminal size `rows`, `cols`, and the scroll offset is adjusted to
keep the current line in the window. -/
def display_json (viewer : JsonViewer) (rows cols : Int) : JsonViewer :=
  let viewer := { viewer with max_y := rows, max_x := cols }
  let content_start : Int := 3
  let max_lines := viewer.max_y - content_start - 2
  let viewer :=
    if viewer.current_line < viewer.scroll_offset then
      { viewer with scroll_offset := viewer.current_line }
    else viewer
  if viewer.current_line ≥ viewer.scroll_offset + max_lines then
    { viewer with scroll_offset := viewer.current_line - max_lines + 1 }
  else viewer

/-- Key codes of `ncurses.h`. -/
def KEY_DOWN : Int := 258
def KEY_UP : Int := 259
def KEY_LEFT : Int := 260
def KEY_RIGHT : Int := 261
def KEY_BACKSPACE : Int := 263
def KEY_ENTER : Int := 343

/-- The `while (1)` loop of `search_input`, reading keys from `input`; the
result is the state at the `break` and the unread input, `none` when the input
ends first (`getch` never returns). -/
def searchLoop (viewer : JsonViewer) (cursor_pos : Nat) :
    List Int → Option (JsonViewer × List Int)
  | [] => none
  | ch :: rest =>
    if ch = 10 ∨ ch = KEY_ENTER then some (viewer, rest)
    else if ch = 27 then
      some ({ viewer with search_term := [], search_match_count := 0 }, rest)
    else if ch = KEY_BACKSPACE ∨ ch = 127 ∨ ch = 8 then
      if cursor_pos > 0 then
        searchLoop { viewer with search_term := viewer.search_term.take (cursor_pos - 1) }
          (cursor_pos - 1) rest
      else searchLoop viewer cursor_pos rest
    else if ch ≥ 32 ∧ ch < 127 ∧ cursor_pos < MAX_SEARCH_LEN - 1 then
      searchLoop
        { viewer with search_term := viewer.search_term.take cursor_pos ++ [ch.toNat] }
        (cursor_pos + 1) rest
    else searchLoop viewer cursor_pos rest

/-- The function `search_input(viewer)`. -/
def search_input (viewer : JsonViewer) (input : List Int) :
    Except Fault (Option (JsonViewer × List Int)) :=
  match searchLoop viewer viewer.search_term.length input with
  | none => .ok none
  | some (viewer, rest) =>
    if viewer.search_term ≠ [] then
      match build_search_matches viewer with
      | .error e => .error e
      | .ok viewer =>
        if viewer.search_match_count > 0 then
          match readMatch viewer.search_matches 0 with
          | .error e => .error e
          | .ok line =>
            .ok (some ({ viewer with current_match_idx := 0, current_line := line }, rest))
        else .ok (some (viewer, rest))
    else .ok (some (viewer, rest))

/-- The guarded assignment `if (tok && (tok->type == JSMN_OBJECT || tok->type == JSMN_ARRAY)) viewer->collapsed[tok_idx] = f(viewer->collapsed[tok_idx]);`
of the collapse, expand and toggle commands. -/
def setCollapsed (viewer : JsonViewer) (tok_idx : Int) (f : Int → Int) :
    Except Fault JsonViewer :=
  if tok_idx < 0 then .ok viewer
  else
    match readTok viewer.tokens tok_idx.toNat with
    | .error e => .error e
    | .ok tok =>
      if tok.type = JSMN_OBJECT ∨ tok.type = JSMN_ARRAY then
        match readInt viewer.collapsed tok_idx.toNat with
        | .error e => .error e
        | .ok c =>
          match writeInt viewer.collapsed tok_idx.toNat (f c) with
          | .error e => .error e
          | .ok collapsed => .ok { viewer with collapsed := collapsed }
      else .ok viewer

/-- The part of the body of the loop of `viewer_run` after `ch = getch()`.
The result is the new state, the flag `running` and the unread input; `none`
when the input ends inside `search_input`. -/
def handle_key (viewer : JsonViewer) (ch : Int) (rest : List Int) :
    Except Fault (Option (JsonViewer × Bool × List Int)) :=
  let tok_idx := get_token_for_line viewer viewer.current_line
  if tok_idx < 0 ∧ ch ≠ 113 ∧ ch ≠ 81 ∧ ch ≠ 47 then .ok (some (viewer, true, rest))
  else
    let max_lines := viewer.max_y - 5
    if ch = 113 ∨ ch = 81 then .ok (some (viewer, false, rest))
    else if ch = 47 then
      match search_input { viewer with search_term := [], search_match_count := 0 } rest with
      | .error e => .error e
      | .ok none => .ok none
      | .ok (some (viewer, rest)) => .ok (some (viewer, true, rest))
    else if ch = 110 then
      match goto_next_match viewer with
      | .error e => .error e
      | .ok viewer => .ok (some (viewer, true, rest))
    else if ch = 78 then
      match goto_prev_match viewer with
      | .error e => .error e
      | .ok viewer => .ok (some (viewer, true, rest))
    else if ch = 27 then
      .ok (some ({ viewer with search_term := [], search_match_count := 0,
                               current_match_idx := 0 }, true, rest))
    else if ch = 106 ∨ ch = KEY_DOWN then
      if viewer.current_line < (viewer.visible_count : Int) - 1 then
        .ok (some ({ viewer with current_line := viewer.current_line + 1 }, true, rest))
      else .ok (some (viewer, true, rest))
    else if ch = 107 ∨ ch = KEY_UP then
      if viewer.current_line > 0 then
        .ok (some ({ viewer with current_line := viewer.current_line - 1 }, true, rest))
      else .ok (some (viewer, true, rest))
    else if ch = 104 ∨ ch = KEY_LEFT then
      match setCollapsed viewer tok_idx (fun _ => 1) with
      | .error e => .error e
      | .ok viewer => .ok (some (viewer, true, rest))
    else if ch = 108 ∨ ch = KEY_RIGHT then
      match setCollapsed viewer tok_idx (fun _ => 0) with
      | .error e => .error e
      | .ok viewer => .ok (some (viewer, true, rest))
    else if ch = 4 then
      let half_page := max_lines.tdiv 2
      let line := viewer.current_line + half_page
      let line := if line ≥ viewer.visible_count then (viewer.visible_count : Int) - 1 else line
      .ok (some ({ viewer with current_line := line }, true, rest))
    else if ch = 21 then
      let half_page := max_lines.tdiv 2
      let line := viewer.current_line - half_page
      let line := if line < 0 then 0 else line
      .ok (some ({ viewer with current_line := line }, true, rest))
    else if ch = 32 then
      match setCollapsed viewer tok_idx (fun c => if c = 0 then 1 else 0) with
      | .error e => .error e
      | .ok viewer => .ok (some (viewer, true, rest))
    else if ch = 103 then .ok (some ({ viewer with current_line := 0 }, true, rest))
    else if ch = 71 then
      .ok (some ({ viewer with current_line := (viewer.visible_count : Int) - 1 }, true, rest))
    else .ok (some (viewer, true, rest))

/-- The part of the body of the loop of `viewer_run` up to and including
`display_json(viewer)`: the visible list and the match list are rebuilt and the
current line is clamped.  `rows`, `cols` is the terminal size at this frame. -/
def refresh_view (viewer : JsonViewer) (rows cols : Int) : Except Fault JsonViewer :=
  match build_visible_tokens { viewer with visible_tokens := [] } 0 0 with
  | .error e => .error e
  | .ok viewer =>
    match (if viewer.search_term ≠ [] then build_search_matches viewer else .ok viewer) with
    | .error e => .error e
    | .ok viewer =>
      let viewer :=
        if viewer.current_line ≥ viewer.visible_count then
          { viewer with current_line := (viewer.visible_count : Int) - 1 }
        else viewer
      let viewer :=
        if viewer.current_line < 0 then { viewer with current_line := 0 } else viewer
      .ok (display_json viewer rows cols)

/-- One pass through the body of the `while (running)` loop of `viewer_run`,
the key being the head of `input`; `none` when the input has ended. -/
def viewer_cycle (viewer : JsonViewer) (rows cols : Int) (input : List Int) :
    Except Fault (Option (JsonViewer × Bool × List Int)) :=
  match refresh_view viewer rows cols with
  | .error e => .error e
  | .ok viewer =>
    match input with
    | [] => .ok none
    | ch :: rest => handle_key viewer ch rest

/-- The function `viewer_run(viewer)` on the keys of `input` with a terminal of fixed
size; the result is the state when the loop is left by `q`, `none` when the
input ends before that.  Each pass reads at least one key, so the length of
the input bounds the number of passes. -/
def runFuel (rows cols : Int) : Nat → JsonViewer → List Int → Except Fault (Option JsonViewer)
  | 0, _, _ => .error .outOfFuel
  | fuel + 1, viewer, input =>
    match viewer_cycle viewer rows cols input with
    | .error e => .error e
    | .ok none => .ok none
    | .ok (some (viewer, running, rest)) =>
      if running then runFuel rows cols fuel viewer rest else .ok (some viewer)

/-- The function `viewer_run(viewer)`. -/
def viewer_run (viewer : JsonViewer) (rows cols : Int) (input : List Int) :
    Except Fault (Option JsonViewer) :=
  runFuel rows cols (input.length + 1) viewer input

/-! ## JSON documents as trees and the specification-side notions -/

/-- A sequence of JSON values in first-child / next-sibling form: `cons t kids rest`
is the value with token `t` and children `kids`, followed by its later
siblings `rest`.  A document is a forest with one root. -/
inductive Forest where
  | nil
  | cons (t : jsmntok_t) (kids : Forest) (rest : Forest)
  deriving DecidableEq, Repr

namespace Forest

/-- The pre-order flattening: the token array the tokenizer produces. -/
def flatten : Forest → List jsmntok_t
  | nil => []
  | cons t k r => t :: (flatten k ++ flatten r)

/-- Number of tokens. -/
def size : Forest → Nat
  | nil => 0
  | cons _ k r => size k + size r + 1

/-- Number of top-level values. -/
def roots : Forest → Nat
  | nil => 0
  | cons _ _ r => roots r + 1

/-- Nesting height. -/
def height : Forest → Nat
  | nil => 0
  | cons _ k r => max (height k + 1) (height r)

/-- The children of an Object: key, value, key, value, ... with String keys. -/
def isMembers : Forest → Bool
  | nil => true
  | cons _ _ nil => false
  | cons key _ (cons _ _ r) => decide (key.type = JSMN_STRING) && isMembers r

/-- The declared size and the kind of a token agree with its children: an
Object has `size` key/value pairs, an Array `size` elements, a String or
Primitive no children. -/
def nodeOk (t : jsmntok_t) (kids : Forest) : Bool :=
  match t.type with
  | JSMN_OBJECT => isMembers kids && decide (t.size * 2 = kids.roots)
  | JSMN_ARRAY => decide (t.size = kids.roots)
  | _ => decide (kids = nil)

/-- Every token of the forest satisfies `nodeOk`. -/
def shape : Forest → Bool
  | nil => true
  | cons t k r => nodeOk t k && shape k && shape r

/-- Spans are nested as in invariant I1: every value lies in `[lo, hi]`, the
children of a token lie strictly inside its span, and a later sibling starts
at or after the end of an earlier one. -/
def spans (lo hi : Int) : Forest → Bool
  | nil => true
  | cons t k r =>
    decide (lo ≤ t.start) && decide (t.start ≤ t.end_) && decide (t.end_ ≤ hi) &&
      spans (t.start + 1) (t.end_ - 1) k && spans t.end_ hi r

/-- A well-formed document: one JSON value with consistent sizes and nested
spans. -/
def wellFormed : Forest → Bool
  | cons t k nil => shape (cons t k nil) && spans t.start t.end_ (cons t k nil)
  | _ => false

end Forest

/-- What a token is to its parent: a key of an Object member, the value of an
Object member, or neither (an Array element or the root). -/
inductive Role where
  | elem
  | key
  | value
  deriving DecidableEq, Repr

/-- The role of the next sibling. -/
def Role.next : Role → Role
  | .elem => .elem
  | .key => .value
  | .value => .key

/-- The role of the first child of a token. -/
def kidRole (t : jsmntok_t) : Role :=
  if t.type = JSMN_OBJECT then .key else .elem

/-- The role of every token, in the order of `Forest.flatten`; `role` is the
role of the first root. -/
def Forest.roles : Role → Forest → List Role
  | _, .nil => []
  | role, .cons t k r => role :: (Forest.roles (kidRole t) k ++ Forest.roles role.next r)

/-- Invariant I1: token `j` is an ancestor of token `i` (and `i` a descendant
of `j`) when `j < i`, `span[j].start < span[i].start` and
`span[j].end > span[i].end`. -/
def isAncestor (tokens : List jsmntok_t) (j i : Nat) : Bool :=
  match tokens[j]?, tokens[i]? with
  | some a, some b => decide (j < i) && decide (a.start < b.start) && decide (a.end_ > b.end_)
  | _, _ => false

/-- The number of ancestors of token `i` per I1. -/
def ancestorCount (tokens : List jsmntok_t) (i : Nat) : Nat :=
  ((List.range i).filter (fun j => isAncestor tokens j i)).length

/-- The CollapseState of token `i`: `collapsed[i]` is not zero. -/
def isCollapsed (collapsed : List Int) (i : Nat) : Bool :=
  match collapsed[i]? with
  | some c => decide (c ≠ 0)
  | none => false

/-- Some proper ancestor (per I1) of token `t` is marked collapsed. -/
def hasCollapsedAncestor (tokens : List jsmntok_t) (collapsed : List Int) (t : Nat) : Bool :=
  (List.range t).any (fun j => isAncestor tokens j t && isCollapsed collapsed j)

/-- Token `t` is a String or Primitive that is the value of an Object
member. -/
def isInlineValue (tokens : List jsmntok_t) (roles : List Role) (t : Nat) : Bool :=
  match tokens[t]?, roles[t]? with
  | some tok, some Role.value =>
    decide (tok.type = JSMN_STRING) || decide (tok.type = JSMN_PRIMITIVE)
  | _, _ => false

/-- The visible lines of the document `doc` as the specification describes
them: the tokens, in increasing index, with no collapsed proper ancestor that
are not an inline value. -/
def expectedVisible (doc : Forest) (collapsed : List Int) : List Nat :=
  (List.range doc.size).filter (fun t =>
    !hasCollapsedAncestor doc.flatten collapsed t &&
      !isInlineValue doc.flatten (doc.roles .elem) t)

/-- The lines `build_visible_tokens` gives to a forest whose first token has
index `base` and role `role`, read off the tree. -/
def treeLines (collapsed : List Int) : Role → Nat → Forest → List Nat
  | _, _, .nil => []
  | role, base, .cons t k r =>
    (if role = .value ∧ (t.type = JSMN_STRING ∨ t.type = JSMN_PRIMITIVE) then []
     else base :: (if isCollapsed collapsed base = true then []
                   else treeLines collapsed (kidRole t) (base + 1) k)) ++
      treeLines collapsed role.next (base + 1 + k.size) r

/-- Two tokens in array order are either disjoint, the first ending at or
before the start of the second, or the first strictly encloses the second. -/
def SpanRel (a b : jsmntok_t) : Prop :=
  a.end_ ≤ b.start ∨ (a.start < b.start ∧ b.end_ < a.end_)

/-- The count the inner loop of `calculate_depths` computes for position
`pos` over the indices `j, ..., j + n - 1`. -/
def insideCount (tokens : List jsmntok_t) (pos : Int) (j n : Nat) : Nat :=
  ((List.range' j n).filter (fun m =>
    match tokens[m]? with
    | some a => decide (a.start < pos ∧ a.end_ > pos)
    | none => false)).length

/-- The span of token `j` strictly contains the start of token `i`: the test
of `is_object_key` and `calculate_depths`. -/
def containsStart (tokens : List jsmntok_t) (j i : Nat) : Bool :=
  match tokens[j]?, tokens[i]? with
  | some a, some b => decide (a.start < b.start ∧ a.end_ > b.start)
  | _, _ => false

/-- Token `a` is the nearest earlier token whose span strictly contains the
start of token `i`. -/
def NearestAncestor (tokens : List jsmntok_t) (i a : Nat) : Prop :=
  a < i ∧ containsStart tokens a i = true ∧
    ∀ j, a < j → j < i → containsStart tokens j i = false

/-- The relation `SkipSteps tokens count target c n`: walking from index `c` by `skip_token`
up to, but not including, `target` takes `n` steps. -/
inductive SkipSteps (tokens : List jsmntok_t) (count target : Nat) : Nat → Nat → Prop where
  | done (c : Nat) : target ≤ c → SkipSteps tokens count target c 0
  | step (c c' n : Nat) : c < target → skip_token tokens c count = .ok c' →
      SkipSteps tokens count target c' n → SkipSteps tokens count target c (n + 1)

/-- The relation `SkipReach tokens count c b n`: `n` steps of `skip_token` from index `c`
land exactly on index `b`. -/
inductive SkipReach (tokens : List jsmntok_t) (count : Nat) : Nat → Nat → Nat → Prop where
  | refl (c : Nat) : SkipReach tokens count c c 0
  | step (c c' b n : Nat) : c < b → skip_token tokens c count = .ok c' →
      SkipReach tokens count c' b n → SkipReach tokens count c b (n + 1)

/-- What lies before index `b` of the token array, as far as `is_object_key`
on a token with span inside `[lo, hi]` and role `role` at or after `b` is
concerned: either every earlier token ends at or before `lo` (and the role is
that of an element), or some token `a` encloses `[lo, hi]`, the tokens between
`a` and `b` end at or before `lo`, and `b` is the `n`-th child slot of `a`, with
`role` the role of that slot. -/
def KeyCtx (tokens : List jsmntok_t) (count b : Nat) (lo hi : Int) (role : Role) : Prop :=
  (role = .elem ∧ ∀ j x, j < b → tokens[j]? = some x → x.end_ ≤ lo) ∨
  (∃ a n ta, a < b ∧ tokens[a]? = some ta ∧ ta.start < lo ∧ hi < ta.end_ ∧
    (∀ j x, a < j → j < b → tokens[j]? = some x → x.end_ ≤ lo) ∧
    SkipReach tokens count (a + 1) b n ∧
    ((ta.type = JSMN_OBJECT ∧ ((role = .key ∧ n % 2 = 0) ∨ (role = .value ∧ n % 2 = 1))) ∨
      (ta.type ≠ JSMN_OBJECT ∧ role = .elem)))

/-- The raw source text `json[start, end)` of a token. -/
def rawText (json_str : List Nat) (tok : jsmntok_t) : List Nat :=
  (json_str.drop tok.start.toNat).take (tok.end_ - tok.start).toNat

/-- The term occurs in the text as a substring when letter case is ignored. -/
def containsIgnoringCase (text term : List Nat) : Prop :=
  term.map tolower <:+: text.map tolower

/-- Line position `p` of the visible sequence holds a token that is not an
Object or Array and whose raw text contains the search term, ignoring case. -/
def lineMatches (viewer : JsonViewer) (p : Nat) : Prop :=
  ∃ tok_idx tok, viewer.visible_tokens[p]? = some tok_idx ∧
    viewer.tokens[tok_idx]? = some tok ∧
    tok.type ≠ JSMN_OBJECT ∧ tok.type ≠ JSMN_ARRAY ∧
    containsIgnoringCase (rawText viewer.json_str tok) viewer.search_term

/-- The positions, counted from `i`, of the entries of a list that satisfy
`m`. -/
def matchPositions (m : Nat → Bool) : List Nat → Nat → List Nat
  | [], _ => []
  | x :: xs, i => (if m x = true then [i] else []) ++ matchPositions m xs (i + 1)

/-- The function `goto_next_match` called `n` times in succession. -/
def repeatNext : Nat → JsonViewer → Except Fault JsonViewer
  | 0, viewer => .ok viewer
  | n + 1, viewer =>
    match goto_next_match viewer with
    | .error e => .error e
    | .ok viewer' => repeatNext n viewer'

/-- The passes of the loop of `viewer_run` on the keys of `input`, as long as
`running` is set; the result is the state after the last key, before the next
redraw, `none` when the input ended inside `search_input`. -/
def playKeys (rows cols : Int) : Nat → JsonViewer → List Int → Except Fault (Option JsonViewer)
  | 0, _, _ => .error .outOfFuel
  | _ + 1, viewer, [] => .ok (some viewer)
  | fuel + 1, viewer, ch :: rest =>
    match viewer_cycle viewer rows cols (ch :: rest) with
    | .error e => .error e
    | .ok none => .ok none
    | .ok (some (viewer', running, rest')) =>
      if running then playKeys rows cols fuel viewer' rest' else .ok (some viewer')

/-- The tokens of the document `{"a":1,"b":[2,"x"]}` as a tree. -/
def sampleDoc : Forest :=
  .cons ⟨JSMN_OBJECT, 0, 19, 2⟩
    (.cons ⟨JSMN_STRING, 2, 3, 1⟩ .nil
      (.cons ⟨JSMN_PRIMITIVE, 5, 6, 0⟩ .nil
        (.cons ⟨JSMN_STRING, 8, 9, 1⟩ .nil
          (.cons ⟨JSMN_ARRAY, 11, 18, 2⟩
            (.cons ⟨JSMN_PRIMITIVE, 12, 13, 0⟩ .nil
              (.cons ⟨JSMN_STRING, 15, 16, 0⟩ .nil .nil))
            .nil))))
    .nil

/-- The bytes of `{"a":1,"b":[2,"x"]}`. -/
def sampleText : List Nat :=
  [123, 34, 97, 34, 58, 49, 44, 34, 98, 34, 58, 91, 50, 44, 34, 120, 34, 93, 125]

/-- A session on `sampleDoc` with the given CollapseState and nothing else
set. -/
def sampleViewer (collapsed : List Int) : JsonViewer :=
  { tokens := sampleDoc.flatten
    token_count := 7
    json_str := sampleText
    current_line := 0
    scroll_offset := 0
    visible_tokens := []
    collapsed := collapsed
    depths := [0, 1, 1, 1, 1, 2, 2]
    max_y := 0
    max_x := 0
    search_term := []
    search_matches := []
    search_match_count := 0
    current_match_idx := 0
    search_mode := 0 }

/-- The tokens of the document `{"a":1,"b":2}` as a tree. -/
def pairDoc : Forest :=
  .cons ⟨JSMN_OBJECT, 0, 13, 2⟩
    (.cons ⟨JSMN_STRING, 2, 3, 1⟩ .nil
      (.cons ⟨JSMN_PRIMITIVE, 5, 6, 0⟩ .nil
        (.cons ⟨JSMN_STRING, 8, 9, 1⟩ .nil
          (.cons ⟨JSMN_PRIMITIVE, 11, 12, 0⟩ .nil .nil))))
    .nil

/-- A fresh session on the tokens of a document. -/
def docViewer (doc : Forest) (json_str : List Nat) : JsonViewer :=
  { tokens := doc.flatten
    token_count := doc.size
    json_str := json_str
    current_line := 0
    scroll_offset := 0
    visible_tokens := []
    collapsed := List.replicate doc.size 0
    depths := List.replicate doc.size 0
    max_y := 0
    max_x := 0
    search_term := []
    search_matches := []
    search_match_count := 0
    current_match_idx := 0
    search_mode := 0 }

/-- A session on `sampleDoc`, fully expanded, with the search term `X`. -/
def searchSample : JsonViewer :=
  { sampleViewer [0, 0, 0, 0, 0, 0, 0] with
    visible_tokens := [0, 1, 3, 4, 5, 6]
    search_term := [88] }

/-- The tokens of the document `["a",["a","a"]]` as a tree. -/
def nestedDoc : Forest :=
  .cons ⟨JSMN_ARRAY, 0, 15, 2⟩
    (.cons ⟨JSMN_STRING, 2, 3, 0⟩ .nil
      (.cons ⟨JSMN_ARRAY, 5, 14, 2⟩
        (.cons ⟨JSMN_STRING, 7, 8, 0⟩ .nil
          (.cons ⟨JSMN_STRING, 11, 12, 0⟩ .nil .nil))
        .nil))
    .nil

/-- The bytes of `["a",["a","a"]]`. -/
def nestedText : List Nat :=
  [91, 34, 97, 34, 44, 91, 34, 97, 34, 44, 34, 97, 34, 93, 93]

/-- The keys `/`, `a`, Enter, `n`, `n`, `k`, `k`, `h`: search for `a`, go to
the third match, move up to the inner array and collapse it. -/
def staleCursorKeys : List Int := [47, 97, 10, 110, 110, 107, 107, 104]

/-- A session on `sampleDoc` with three matches and the cursor on the
last. -/
def navSample : JsonViewer :=
  { searchSample with
    search_matches := [1, 3, 4]
    search_match_count := 3
    current_match_idx := 2 }

/-! ## The text of a line, repeated skipping, reachable states and the
projection without the capacity bound -/

/-- What `display_json` prints on the line of a token (main.c 306-356), the
texts of `format_token_value` being named by their token: a key with nothing
after it, a key with its String or Primitive value inline, a key with the
summary of its Object or Array value, the summary of an Object or Array, or a
String or Primitive alone. -/
inductive LineText where
  | keyOnly (key : Nat)
  | keyValue (key value : Nat)
  | keyContainer (key value : Nat) (kind : jsmntype_t) (items : Int) (collapsed : Bool)
  | container (tok : Nat) (kind : jsmntype_t) (items : Int) (collapsed : Bool)
  | value (tok : Nat)
  deriving DecidableEq, Repr

/-- The body of the loop of `display_json` that draws one visible line
(main.c 273-356): the column `depths[tok_idx] * INDENT_SIZE` and what is
printed there. -/
def display_line (viewer : JsonViewer) (tok_idx : Nat) : Except Fault (Int × LineText) :=
  match readTok viewer.tokens tok_idx with
  | .error e => .error e
  | .ok tok =>
    match readInt viewer.depths tok_idx with
    | .error e => .error e
    | .ok depth =>
      let x_pos := depth * INDENT_SIZE
      match is_object_key viewer tok_idx with
      | .error e => .error e
      | .ok true =>
        match skip_token viewer.tokens tok_idx viewer.token_count with
        | .error e => .error e
        | .ok value_tok_idx =>
          if value_tok_idx < viewer.token_count then
            match readTok viewer.tokens value_tok_idx with
            | .error e => .error e
            | .ok value_tok =>
              if value_tok.type = JSMN_STRING ∨ value_tok.type = JSMN_PRIMITIVE then
                .ok (x_pos, .keyValue tok_idx value_tok_idx)
              else
                match readInt viewer.collapsed value_tok_idx with
                | .error e => .error e
                | .ok c =>
                  .ok (x_pos, .keyContainer tok_idx value_tok_idx value_tok.type
                    value_tok.size (decide (c ≠ 0)))
          else .ok (x_pos, .keyOnly tok_idx)
      | .ok false =>
        if tok.type = JSMN_OBJECT ∨ tok.type = JSMN_ARRAY then
          match readInt viewer.collapsed tok_idx with
          | .error e => .error e
          | .ok c => .ok (x_pos, .container tok_idx tok.type tok.size (decide (c ≠ 0)))
        else .ok (x_pos, .value tok_idx)

/-- The tokens of the document `{"name":"Alice","tags":["x","y"],"age":30}` as
a tree. -/
def aliceDoc : Forest :=
  .cons ⟨JSMN_OBJECT, 0, 42, 3⟩
    (.cons ⟨JSMN_STRING, 2, 6, 1⟩ .nil
      (.cons ⟨JSMN_STRING, 9, 14, 0⟩ .nil
        (.cons ⟨JSMN_STRING, 17, 21, 1⟩ .nil
          (.cons ⟨JSMN_ARRAY, 23, 32, 2⟩
            (.cons ⟨JSMN_STRING, 25, 26, 0⟩ .nil
              (.cons ⟨JSMN_STRING, 29, 30, 0⟩ .nil .nil))
            (.cons ⟨JSMN_STRING, 34, 37, 1⟩ .nil
              (.cons ⟨JSMN_PRIMITIVE, 39, 41, 0⟩ .nil .nil))))))
    .nil

/-- The bytes of `{"name":"Alice","tags":["x","y"],"age":30}`. -/
def aliceText : List Nat :=
  [123, 34, 110, 97, 109, 101, 34, 58, 34, 65, 108, 105, 99, 101, 34, 44, 34, 116, 97, 103,
   115, 34, 58, 91, 34, 120, 34, 44, 34, 121, 34, 93, 44, 34, 97, 103, 101, 34, 58, 51, 48,
   125]

/-- The function `skip_token` applied `n` times in succession, starting at
index `i`. -/
def iterSkip (tokens : List jsmntok_t) (count : Nat) : Nat → Nat → Except Fault Nat
  | 0, i => .ok i
  | n + 1, i =>
    match skip_token tokens i count with
    | .error e => .error e
    | .ok i' => iterSkip tokens count n i'

/-- Token `m` is an immediate child of token `c` per I1: `c` is an ancestor of
`m` and no token between them is. -/
def isChild (tokens : List jsmntok_t) (c m : Nat) : Prop :=
  isAncestor tokens c m = true ∧ ∀ j, c < j → j < m → isAncestor tokens j m = false

/-- The states of a session: the state `viewer_init` returns, the states in
which a frame is drawn, and the states after a key has been handled. -/
inductive Reachable (json_str : List Nat) (parsed : Int) (tokens : List jsmntok_t) :
    JsonViewer → Prop where
  | init (viewer : JsonViewer) :
      viewer_init json_str parsed tokens = .ok (some viewer) →
      Reachable json_str parsed tokens viewer
  | draw (viewer viewer' : JsonViewer) (rows cols : Int) :
      Reachable json_str parsed tokens viewer →
      refresh_view viewer rows cols = .ok viewer' →
      Reachable json_str parsed tokens viewer'
  | key (viewer viewer' : JsonViewer) (ch : Int) (rest rest' : List Int) (running : Bool) :
      Reachable json_str parsed tokens viewer →
      handle_key viewer ch rest = .ok (some (viewer', running, rest')) →
      Reachable json_str parsed tokens viewer'

/-- The traversal of `build_visible_tokens` without the capacity bound: the
body of the function with the test `visible_count >= MAX_TOKENS` left out. -/
def projectFuel (tokens : List jsmntok_t) (count : Nat) (collapsed : List Int) :
    Nat → Nat → Nat → List Nat → Except Fault (List Nat)
  | 0, _, _, _ => .error .outOfFuel
  | fuel + 1, token_idx, depth, vis =>
    if token_idx ≥ count then .ok vis
    else
      match readTok tokens token_idx with
      | .error e => .error e
      | .ok tok =>
        let vis1 := vis ++ [token_idx]
        match readInt collapsed token_idx with
        | .error e => .error e
        | .ok c =>
          if c ≠ 0 then .ok vis1
          else if tok.type = JSMN_OBJECT then
            objLoop tokens count
              (fun i v => projectFuel tokens count collapsed fuel i (depth + 1) v)
              tok.size.toNat (token_idx + 1) vis1
          else if tok.type = JSMN_ARRAY then
            arrLoop tokens count
              (fun i v => projectFuel tokens count collapsed fuel i (depth + 1) v)
              tok.size.toNat (token_idx + 1) vis1
          else .ok vis1

/-- The state in which the first frame of a session on `sampleDoc` is drawn on
a terminal of 24 rows and 80 columns. -/
def sampleDrawn : JsonViewer :=
  { docViewer sampleDoc sampleText with
    visible_tokens := [0, 1, 3, 4, 5, 6]
    max_y := 24
    max_x := 80 }

/-- Two states have the same tokens and the same CollapseState. -/
def SameTree (v v' : JsonViewer) : Prop :=
  v'.tokens = v.tokens ∧ v'.token_count = v.token_count ∧ v'.collapsed = v.collapsed

/-- The new flag the toggle command stores: `!viewer->collapsed[tok_idx]`. -/
def toggleFlag (c : Int) : Int := if c = 0 then 1 else 0

/-- The key is one of the collapse (`h`, left), expand (`l`, right) and toggle
(space) commands. -/
def isCollapseKey (ch : Int) : Prop :=
  ch = 104 ∨ ch = KEY_LEFT ∨ ch = 108 ∨ ch = KEY_RIGHT ∨ ch = 32

/-- The flags of the CollapseState are 0 or 1 and no String or Primitive token
is marked collapsed. -/
def CollapseInv (v : JsonViewer) : Prop :=
  (∀ c ∈ v.collapsed, c = 0 ∨ c = 1) ∧
  ∀ i tok, v.tokens[i]? = some tok →
    tok.type = JSMN_STRING ∨ tok.type = JSMN_PRIMITIVE → isCollapsed v.collapsed i = false

/-! ## A member without a value, and the record of the appends -/

/-- The tokens of `{"a"}`: an Object of declared size 1 and its key, with no
value token after the key. -/
def loneKeyTokens : List jsmntok_t :=
  [⟨JSMN_OBJECT, 0, 5, 1⟩, ⟨JSMN_STRING, 2, 3, 0⟩]

/-- The bytes of `{"a"}`. -/
def loneKeyText : List Nat := [123, 34, 97, 34, 125]

/-- The tokens of an Array of declared size 2 of which only the first element
is present. -/
def shortArrayTokens : List jsmntok_t :=
  [⟨JSMN_ARRAY, 0, 5, 2⟩, ⟨JSMN_STRING, 2, 3, 0⟩]

/-- The loop over the members of an Object in `build_visible_tokens` (the loop
of `objLoop`), run on the record of the appends instead of the visible list. -/
def objTrace (tokens : List jsmntok_t) (count : Nat)
    (recur : Nat → List (Nat × Nat) → Except Fault (List (Nat × Nat))) :
    Nat → Nat → List (Nat × Nat) → Except Fault (List (Nat × Nat))
  | 0, _, log => .ok log
  | n + 1, child_idx, log =>
    if child_idx < count then
      match recur child_idx log with
      | .error e => .error e
      | .ok log1 =>
        match skip_token tokens child_idx count with
        | .error e => .error e
        | .ok child1 =>
          match readTok tokens child1 with
          | .error e => .error e
          | .ok value_tok =>
            match (if value_tok.type = JSMN_STRING ∨ value_tok.type = JSMN_PRIMITIVE
                   then .ok log1 else recur child1 log1) with
            | .error e => .error e
            | .ok log2 =>
              match skip_token tokens child1 count with
              | .error e => .error e
              | .ok child2 => objTrace tokens count recur n child2 log2
    else .ok log

/-- The loop over the elements of an Array in `build_visible_tokens` (the loop
of `arrLoop`), run on the record of the appends. -/
def arrTrace (tokens : List jsmntok_t) (count : Nat)
    (recur : Nat → List (Nat × Nat) → Except Fault (List (Nat × Nat))) :
    Nat → Nat → List (Nat × Nat) → Except Fault (List (Nat × Nat))
  | 0, _, log => .ok log
  | n + 1, child_idx, log =>
    if child_idx < count then
      match recur child_idx log with
      | .error e => .error e
      | .ok log1 =>
        match skip_token tokens child_idx count with
        | .error e => .error e
        | .ok child1 => arrTrace tokens count recur n child1 log1
    else .ok log

/-- The body of `build_visible_tokens` (as in `buildFuel`) with a record of
the appends: where the source stores `token_idx` in `visible_tokens`, the
record gets the pair of `token_idx` and the argument `depth` of the call. -/
def traceFuel (tokens : List jsmntok_t) (count : Nat) (collapsed : List Int) :
    Nat → Nat → Nat → List (Nat × Nat) → Except Fault (List (Nat × Nat))
  | 0, _, _, _ => .error .outOfFuel
  | fuel + 1, token_idx, depth, log =>
    if token_idx ≥ count ∨ log.length ≥ MAX_TOKENS then .ok log
    else
      match readTok tokens token_idx with
      | .error e => .error e
      | .ok tok =>
        let log1 := log ++ [(token_idx, depth)]
        match readInt collapsed token_idx with
        | .error e => .error e
        | .ok c =>
          if c ≠ 0 then .ok log1
          else if tok.type = JSMN_OBJECT then
            objTrace tokens count
              (fun i v => traceFuel tokens count collapsed fuel i (depth + 1) v)
              tok.size.toNat (token_idx + 1) log1
          else if tok.type = JSMN_ARRAY then
            arrTrace tokens count
              (fun i v => traceFuel tokens count collapsed fuel i (depth + 1) v)
              tok.size.toNat (token_idx + 1) log1
          else .ok log1

/-- The lines of a forest as in `treeLines`, each with its level in the tree:
the forest has its first token at index `base`, at level `depth`; children are
one level below their parent. -/
def treeDepths (collapsed : List Int) : Role → Nat → Nat → Forest → List (Nat × Nat)
  | _, _, _, .nil => []
  | role, base, depth, .cons t k r =>
    (if role = .value ∧ (t.type = JSMN_STRING ∨ t.type = JSMN_PRIMITIVE) then []
     else (base, depth) :: (if isCollapsed collapsed base = true then []
                   else treeDepths collapsed (kidRole t) (base + 1) (depth + 1) k)) ++
      treeDepths collapsed role.next (base + 1 + k.size) depth r

/-- The number of indices below `b` that are ancestors of token `i` per
I1. -/
def ancestorsBelow (tokens : List jsmntok_t) (b i : Nat) : Nat :=
  ((List.range b).filter (fun j => isAncestor tokens j i)).length

/-! ## Case-insensitive containment in the words of the specification, and
sample documents for the collapse commands and the capacity bound -/

/-- Two bytes are the same character when letter case is ignored: they are
equal, or one is an upper-case ASCII letter (`A` to `Z`, 65 to 90) and the
other is the lower-case form of that letter, 32 above it. -/
def sameIgnoringCase (a b : Nat) : Prop :=
  a = b ∨ (65 ≤ a ∧ a ≤ 90 ∧ b = a + 32) ∨ (65 ≤ b ∧ b ≤ 90 ∧ a = b + 32)

/-- The term is a case-insensitive substring of the text: some run of
consecutive bytes of the text agrees with the term byte by byte, letter case
ignored. -/
def occursIgnoringCase (text term : List Nat) : Prop :=
  ∃ pre run post, text = pre ++ run ++ post ∧ List.Forall₂ sameIgnoringCase term run

/-- Line position `p` of the visible sequence holds a token that is not an
Object or Array and whose raw text `json[start, end)` case-insensitively
contains the search term. -/
def lineHasTerm (viewer : JsonViewer) (p : Nat) : Prop :=
  ∃ tok_idx tok, viewer.visible_tokens[p]? = some tok_idx ∧
    viewer.tokens[tok_idx]? = some tok ∧
    tok.type ≠ JSMN_OBJECT ∧ tok.type ≠ JSMN_ARRAY ∧
    occursIgnoringCase (rawText viewer.json_str tok) viewer.search_term

/-- The session on `sampleDoc` as `viewer_init` returns it and the first pass
draws it on a terminal of 24 rows and 80 columns: nothing collapsed, six
visible lines, the root Object on the current line. -/
def sampleFrame : JsonViewer :=
  { sampleViewer [0, 0, 0, 0, 0, 0, 0] with
    visible_tokens := [0, 1, 3, 4, 5, 6]
    max_y := 24
    max_x := 80 }

/-- The state `sampleFrame` after the toggle command on the root Object. -/
def sampleRootToggled : JsonViewer :=
  { sampleFrame with collapsed := [1, 0, 0, 0, 0, 0, 0] }

/-- The state `sampleRootToggled` as the next pass draws it: one visible
line. -/
def sampleRootClosed : JsonViewer :=
  { sampleRootToggled with visible_tokens := [0] }

/-- The state `sampleFrame` after two line-down commands: the current line is
the line of the key `b`, whose value is an Array. -/
def sampleKeyLine : JsonViewer :=
  { sampleFrame with current_line := 2 }

/-- The elements of the array `[0,0,...,0]`: `n` Primitive tokens of one byte,
the first at byte `pos`, each two bytes after the one before. -/
def wideElems : Nat → Int → Forest
  | 0, _ => .nil
  | n + 1, pos => .cons ⟨JSMN_PRIMITIVE, pos, pos + 1, 0⟩ .nil (wideElems n (pos + 2))

/-- The tokens of the document `[0,0,...,0]` with `n` elements as a tree: an
Array of `n` Primitives, `n + 1` tokens. -/
def wideDoc (n : Nat) : Forest :=
  .cons ⟨JSMN_ARRAY, 0, 2 * (n : Int) + 1, n⟩ (wideElems n 1) .nil

/-- The bytes of `[0,0,...,0]` with `n` elements. -/
def wideText (n : Nat) : List Nat :=
  [91] ++ (List.replicate n 48).intersperse 44 ++ [93]

/-! ## Reading a token array that is given as a concatenation -/

theorem readTok_append (pre : List jsmntok_t) (t : jsmntok_t) (post : List jsmntok_t) :
    readTok (pre ++ t :: post) pre.length = .ok t := by
  have h : (pre ++ t :: post)[pre.length]? = some t := by
    rw [List.getElem?_append_right (le_refl _)]; simp
  simp [readTok, h]

theorem readTok_of_lt (tokens : List jsmntok_t) (i : Nat) (h : i < tokens.length) :
    readTok tokens i = .ok (tokens[i]) := by
  simp [readTok, List.getElem?_eq_getElem h]

theorem Forest.length_flatten (F : Forest) : F.flatten.length = F.size := by
  induction F with
  | nil => rfl
  | cons t k r ihk ihr => simp [Forest.flatten, Forest.size, ihk, ihr]

theorem Forest.length_roles (F : Forest) : ∀ role, (F.roles role).length = F.size := by
  induction F with
  | nil => intro _; rfl
  | cons t k r ihk ihr => intro role; simp [Forest.roles, Forest.size, ihk, ihr]

theorem Forest.roots_le_size (F : Forest) : F.roots ≤ F.size := by
  induction F with
  | nil => simp [Forest.roots]
  | cons t k r _ ihr => simp [Forest.roots, Forest.size]; omega

theorem Forest.height_le_size (F : Forest) : F.height ≤ F.size := by
  induction F with
  | nil => simp [Forest.height]
  | cons t k r ihk ihr => simp [Forest.height, Forest.size]; omega

/-- The number of children `skip_token` walks over is the number of roots of
the children forest. -/
theorem Forest.children_of_nodeOk (t : jsmntok_t) (k : Forest) (h : Forest.nodeOk t k = true) :
    (t.type = JSMN_OBJECT → (t.size * 2).toNat = k.roots ∧ t.size.toNat * 2 = k.roots) ∧
    (t.type = JSMN_ARRAY → t.size.toNat = k.roots) ∧
    (t.type = JSMN_STRING ∨ t.type = JSMN_PRIMITIVE → k = .nil) := by
  unfold Forest.nodeOk at h
  cases ht : t.type <;> simp [ht] at h ⊢
  · omega
  · omega
  · exact h
  · exact h

/-! ## skip_token on the flattening of a tree -/

/-- Walking `skip_token` over the roots of a forest that sits at index
`pre.length` of the token array ends right after the forest. -/
theorem skipLoop_forest (F : Forest) :
    ∀ (tokens pre post : List jsmntok_t) (count fuel : Nat),
      tokens = pre ++ (F.flatten ++ post) → count = tokens.length →
      F.shape = true → F.height ≤ fuel →
      skipLoop (skipFuel tokens count fuel) count F.roots pre.length
        = .ok (pre.length + F.size) := by
  induction F with
  | nil => intros; simp [Forest.roots, Forest.size, skipLoop]
  | cons t k r ihk ihr =>
    intro tokens pre post count fuel hts hc hshape hfuel
    simp only [Forest.shape, Bool.and_eq_true] at hshape
    obtain ⟨⟨hnode, hk⟩, hr⟩ := hshape
    simp only [Forest.height] at hfuel
    have hlt : pre.length < count := by
      rw [hc, hts]; simp [Forest.flatten]
    have hskip : skipFuel tokens count fuel pre.length = .ok (pre.length + 1 + k.size) := by
      obtain ⟨f, rfl⟩ : ∃ f, fuel = f + 1 := ⟨fuel - 1, by omega⟩
      have hread : readTok tokens pre.length = .ok t := by
        rw [hts]; simp only [Forest.flatten, List.cons_append]; exact readTok_append _ _ _
      have hkids := ihk tokens (pre ++ [t]) (r.flatten ++ post) count f
        (by rw [hts]; simp [Forest.flatten]) hc hk (by omega)
      simp only [List.length_append, List.length_singleton] at hkids
      obtain ⟨hobj, harr, hleaf⟩ := Forest.children_of_nodeOk t k hnode
      simp only [skipFuel, hread]
      cases ht : t.type
      · simp [(hobj ht).1, hkids]
      · simp [harr ht, hkids]
      · simp [hleaf (Or.inl ht), Forest.size]
      · simp [hleaf (Or.inr ht), Forest.size]
    have hrest := ihr tokens (pre ++ t :: k.flatten) post count fuel
      (by rw [hts]; simp [Forest.flatten]) hc hr (by omega)
    simp only [List.length_append, List.length_cons, Forest.length_flatten] at hrest
    simp only [Forest.roots, skipLoop, if_pos hlt, hskip]
    rw [show pre.length + 1 + k.size = pre.length + (k.size + 1) by omega, hrest]
    simp [Forest.size]; omega

/-- The function `skip_token` on the root of a tree that sits at index `pre.length` returns
the index right after the tree. -/
theorem skip_token_tree (t : jsmntok_t) (k : Forest) (tokens pre post : List jsmntok_t)
    (hts : tokens = pre ++ (t :: k.flatten ++ post))
    (hshape : (Forest.cons t k .nil).shape = true) :
    skip_token tokens pre.length tokens.length = .ok (pre.length + 1 + k.size) := by
  have h := skipLoop_forest (.cons t k .nil) tokens pre post tokens.length (tokens.length + 1)
    (by rw [hts]; simp [Forest.flatten]) rfl hshape
    (by
      have := Forest.height_le_size (.cons t k .nil)
      have hl : tokens.length = pre.length + (Forest.cons t k .nil).size + post.length := by
        rw [hts]; simp [Forest.size, Forest.length_flatten]; omega
      omega)
  have hlt : pre.length < tokens.length := by rw [hts]; simp
  simp only [Forest.roots, skipLoop, if_pos hlt] at h
  unfold skip_token
  cases hs : skipFuel tokens tokens.length (tokens.length + 1) pre.length with
  | error e => simp [hs] at h
  | ok v =>
    simp only [hs] at h
    simp only [Forest.size] at h
    injection h with h
    congr 1; omega

/-! ## Spans of a well-formed forest -/

theorem Forest.spans_cons {lo hi : Int} {t : jsmntok_t} {k r : Forest}
    (h : (Forest.cons t k r).spans lo hi = true) :
    lo ≤ t.start ∧ t.start ≤ t.end_ ∧ t.end_ ≤ hi ∧
      k.spans (t.start + 1) (t.end_ - 1) = true ∧ r.spans t.end_ hi = true := by
  simp only [Forest.spans, Bool.and_eq_true, decide_eq_true_eq] at h
  obtain ⟨⟨⟨⟨h1, h2⟩, h3⟩, h4⟩, h5⟩ := h
  exact ⟨h1, h2, h3, h4, h5⟩

theorem Forest.shape_cons {t : jsmntok_t} {k r : Forest}
    (h : (Forest.cons t k r).shape = true) :
    Forest.nodeOk t k = true ∧ k.shape = true ∧ r.shape = true := by
  simp only [Forest.shape, Bool.and_eq_true] at h
  exact ⟨h.1.1, h.1.2, h.2⟩

theorem Forest.spans_bounds (F : Forest) :
    ∀ lo hi, F.spans lo hi = true →
      ∀ x ∈ F.flatten, lo ≤ x.start ∧ x.start ≤ x.end_ ∧ x.end_ ≤ hi := by
  induction F with
  | nil => intro _ _ _ x hx; simp [Forest.flatten] at hx
  | cons t k r ihk ihr =>
    intro lo hi h x hx
    obtain ⟨h1, h2, h3, h4, h5⟩ := Forest.spans_cons h
    simp only [Forest.flatten, List.mem_cons, List.mem_append] at hx
    rcases hx with rfl | hx | hx
    · exact ⟨h1, h2, h3⟩
    · have := ihk _ _ h4 x hx; omega
    · have := ihr _ _ h5 x hx; omega

theorem Forest.spans_pairwise (F : Forest) :
    ∀ lo hi, F.spans lo hi = true → F.flatten.Pairwise SpanRel := by
  induction F with
  | nil => intro _ _ _; simp [Forest.flatten]
  | cons t k r ihk ihr =>
    intro lo hi h
    obtain ⟨h1, h2, h3, h4, h5⟩ := Forest.spans_cons h
    simp only [Forest.flatten, List.pairwise_cons, List.pairwise_append, List.mem_append]
    refine ⟨?_, ihk _ _ h4, ihr _ _ h5, ?_⟩
    · intro x hx
      rcases hx with hx | hx
      · have := Forest.spans_bounds k _ _ h4 x hx
        right; omega
      · have := Forest.spans_bounds r _ _ h5 x hx
        left; omega
    · intro a ha b hb
      have := Forest.spans_bounds k _ _ h4 a ha
      have := Forest.spans_bounds r _ _ h5 b hb
      left; omega

theorem Forest.wellFormed_iff (F : Forest) (h : F.wellFormed = true) :
    ∃ t k, F = .cons t k .nil ∧ F.shape = true ∧ F.spans t.start t.end_ = true := by
  cases F with
  | nil => simp [Forest.wellFormed] at h
  | cons t k r =>
    cases r with
    | nil =>
      simp only [Forest.wellFormed, Bool.and_eq_true] at h
      exact ⟨t, k, rfl, h.1, h.2⟩
    | cons _ _ _ => simp [Forest.wellFormed] at h

/-- In the token array of a well-formed forest, the test of `calculate_depths`
and `is_object_key` (the earlier span contains the start of the later one)
agrees with the ancestor relation I1. -/
theorem startInside_iff_ancestor (tokens : List jsmntok_t) (hp : tokens.Pairwise SpanRel)
    (hb : ∀ x ∈ tokens, x.start ≤ x.end_) (j i : Nat) (hji : j < i) (hi : i < tokens.length) :
    (decide (tokens[j].start < tokens[i].start ∧ tokens[j].end_ > tokens[i].start))
      = isAncestor tokens j i := by
  have hrel := (List.pairwise_iff_getElem.mp hp) j i (by omega) hi hji
  have hbi := hb _ (List.getElem_mem hi)
  have hj : j < tokens.length := by omega
  simp only [isAncestor, List.getElem?_eq_getElem hi, List.getElem?_eq_getElem hj, hji,
    decide_True, Bool.true_and]
  unfold SpanRel at hrel
  by_cases h1 : tokens[j].start < tokens[i].start <;>
    by_cases h2 : tokens[j].end_ > tokens[i].end_ <;> simp [h1, h2] <;> omega

/-! ## calculate_depths -/

theorem depthInner_eq (tokens : List jsmntok_t) (pos : Int) :
    ∀ (n j : Nat) (d : Int), j + n ≤ tokens.length →
      depthInner tokens pos n j d = .ok (d + insideCount tokens pos j n) := by
  intro n
  induction n with
  | zero => intro j d _; simp [depthInner, insideCount]
  | succ n ih =>
    intro j d h
    have hj : j < tokens.length := by omega
    simp only [depthInner, readTok_of_lt tokens j hj]
    rw [ih (j + 1) _ (by omega)]
    simp only [insideCount, List.range'_succ, List.filter_cons, List.getElem?_eq_getElem hj]
    by_cases hc : tokens[j].start < pos ∧ tokens[j].end_ > pos
    · simp [hc]; omega
    · simp [hc]

theorem insideCount_eq_ancestorCount (tokens : List jsmntok_t) (hp : tokens.Pairwise SpanRel)
    (hb : ∀ x ∈ tokens, x.start ≤ x.end_) (i : Nat) (hi : i < tokens.length) :
    insideCount tokens tokens[i].start 0 i = ancestorCount tokens i := by
  unfold insideCount ancestorCount
  rw [← List.range_eq_range']
  congr 1
  apply List.filter_congr
  intro j hj
  have hji : j < i := List.mem_range.mp hj
  have hj' : j < tokens.length := by omega
  simp only [List.getElem?_eq_getElem hj']
  exact startInside_iff_ancestor tokens hp hb j i hji hi

theorem depthOuter_eq (tokens : List jsmntok_t) :
    ∀ (n i : Nat) (depths : List Int), i + n ≤ tokens.length → i + n ≤ depths.length →
      ∃ d, depthOuter tokens n i depths = .ok d ∧ d.length = depths.length ∧
        (∀ m, m < i → d[m]? = depths[m]?) ∧
        (∀ m (hm : m < tokens.length), i ≤ m → m < i + n →
          d[m]? = some ((insideCount tokens tokens[m].start 0 m : Nat) : Int)) := by
  intro n
  induction n with
  | zero =>
    intro i depths _ _
    exact ⟨depths, by simp [depthOuter], rfl, fun _ _ => rfl, fun m _ h1 h2 => by omega⟩
  | succ n ih =>
    intro i depths h1 h2
    have hi : i < tokens.length := by omega
    have hw : writeInt depths i (0 + (insideCount tokens tokens[i].start 0 i : Int))
        = .ok (depths.set i (0 + (insideCount tokens tokens[i].start 0 i : Int))) := by
      simp [writeInt]; omega
    obtain ⟨d, hd, hlen, hlow, hhigh⟩ :=
      ih (i + 1) (depths.set i (0 + (insideCount tokens tokens[i].start 0 i : Int)))
        (by omega) (by simp; omega)
    refine ⟨d, ?_, ?_, ?_, ?_⟩
    · simp only [depthOuter, readTok_of_lt tokens i hi]
      rw [depthInner_eq tokens _ i 0 0 (by omega)]
      simp only [hw]
      exact hd
    · simpa using hlen
    · intro m hm
      rw [hlow m (by omega)]
      simp [List.getElem?_set]; omega
    · intro m hm hlo hhi
      by_cases hmi : m = i
      · subst hmi
        rw [hlow m (by omega)]
        simp [List.getElem?_set]; omega
      · exact hhigh m hm (by omega) (by omega)

theorem calculate_depths_eq (tokens : List jsmntok_t) (hp : tokens.Pairwise SpanRel)
    (hb : ∀ x ∈ tokens, x.start ≤ x.end_) (hpos : 0 < tokens.length)
    (depths : List Int) (hlen : depths.length = tokens.length) :
    ∃ d, calculate_depths tokens tokens.length depths = .ok d ∧ d.length = tokens.length ∧
      (∀ i, i < tokens.length → d[i]? = some ((ancestorCount tokens i : Nat) : Int)) ∧
      d[0]? = some 0 := by
  have hdl : 0 < depths.length := by omega
  have hw : writeInt depths 0 0 = .ok (depths.set 0 0) := by
    simp [writeInt, hdl]
  obtain ⟨d, hd, hl, hlow, hhigh⟩ := depthOuter_eq tokens (tokens.length - 1) 1 (depths.set 0 0)
    (by omega) (by simp; omega)
  have h0 : d[0]? = some 0 := by
    rw [hlow 0 (by omega)]
    simp [List.getElem?_set, hdl]
  refine ⟨d, ?_, ?_, ?_, h0⟩
  · simp only [calculate_depths, hw]; exact hd
  · simpa [hlen] using hl
  · intro i hi
    by_cases hi0 : i = 0
    · subst hi0
      simpa [ancestorCount] using h0
    · rw [hhigh i hi (by omega) (by omega), insideCount_eq_ancestorCount tokens hp hb i hi]

/-! ## Locating a token of the array in the tree -/

/-- Every index of the token array of a well-formed forest is the root of a
subtree: the array splits into the tokens before it, the token, its
descendants, and the tokens after them, all of which start at or after the end
of the token. -/
theorem Forest.locate (F : Forest) :
    ∀ lo hi, F.shape = true → F.spans lo hi = true → ∀ i, i < F.size →
      ∃ pre t k post, F.flatten = pre ++ (t :: k.flatten ++ post) ∧ pre.length = i ∧
        (Forest.cons t k .nil).shape = true ∧ k.spans (t.start + 1) (t.end_ - 1) = true ∧
        lo ≤ t.start ∧ t.start ≤ t.end_ ∧ t.end_ ≤ hi ∧ (∀ x ∈ post, t.end_ ≤ x.start) := by
  induction F with
  | nil => intro _ _ _ _ i hi; simp [Forest.size] at hi
  | cons t k r ihk ihr =>
    intro lo hi hshape hspans i hi'
    obtain ⟨hnode, hk, hr⟩ := Forest.shape_cons hshape
    obtain ⟨h1, h2, h3, h4, h5⟩ := Forest.spans_cons hspans
    simp only [Forest.size] at hi'
    by_cases hi0 : i = 0
    · subst hi0
      refine ⟨[], t, k, r.flatten, by simp [Forest.flatten], rfl, ?_, h4, h1, h2, h3, ?_⟩
      · simp [Forest.shape, hnode, hk]
      · intro x hx
        exact (Forest.spans_bounds r _ _ h5 x hx).1
    · by_cases hik : i - 1 < k.size
      · obtain ⟨pre, t', k', post, hfl, hpre, hsh, hsp, hlo, hmid, hhi, hpost⟩ :=
          ihk _ _ hk h4 (i - 1) hik
        refine ⟨t :: pre, t', k', post ++ r.flatten, ?_, ?_, hsh, hsp, by omega, hmid,
          by omega, ?_⟩
        · simp [Forest.flatten, hfl]
        · simp [hpre]; omega
        · intro x hx
          rcases List.mem_append.mp hx with hx | hx
          · exact hpost x hx
          · have := (Forest.spans_bounds r _ _ h5 x hx).1
            omega
      · obtain ⟨pre, t', k', post, hfl, hpre, hsh, hsp, hlo, hmid, hhi, hpost⟩ :=
          ihr _ _ hr h5 (i - 1 - k.size) (by omega)
        refine ⟨t :: k.flatten ++ pre, t', k', post, ?_, ?_, hsh, hsp, by omega, hmid,
          hhi, hpost⟩
        · simp [Forest.flatten, hfl]
        · simp [hpre, Forest.length_flatten]; omega

theorem getElem?_mid {α : Type} (pre : List α) (t : α) (mid post : List α)
    (m : Nat) (h1 : pre.length < m) (h2 : m < pre.length + 1 + mid.length) :
    ∃ x, (pre ++ (t :: mid ++ post))[m]? = some x ∧ x ∈ mid := by
  obtain ⟨q, hq⟩ : ∃ q, m = pre.length + (q + 1) := ⟨m - pre.length - 1, by omega⟩
  subst hq
  have hm : q < mid.length := by omega
  refine ⟨mid[q], ?_, List.getElem_mem hm⟩
  rw [List.getElem?_append_right (by omega)]
  simp only [Nat.add_sub_cancel_left, List.cons_append, List.getElem?_cons_succ]
  rw [List.getElem?_append_left hm, List.getElem?_eq_getElem hm]

theorem getElem?_post {α : Type} (pre : List α) (t : α) (mid post : List α)
    (m : Nat) (h1 : pre.length + 1 + mid.length ≤ m)
    (h2 : m < (pre ++ (t :: mid ++ post)).length) :
    ∃ x, (pre ++ (t :: mid ++ post))[m]? = some x ∧ x ∈ post := by
  simp only [List.length_append, List.length_cons] at h2
  obtain ⟨q, hq⟩ : ∃ q, m = pre.length + (mid.length + q + 1) :=
    ⟨m - pre.length - 1 - mid.length, by omega⟩
  subst hq
  have hm : q < post.length := by omega
  refine ⟨post[q], ?_, List.getElem_mem hm⟩
  rw [List.getElem?_append_right (by omega)]
  simp only [Nat.add_sub_cancel_left, List.cons_append, List.getElem?_cons_succ]
  rw [List.getElem?_append_right (by omega), Nat.add_sub_cancel_left,
    List.getElem?_eq_getElem hm]

theorem getElem?_here {α : Type} (pre : List α) (t : α) (rest : List α) :
    (pre ++ (t :: rest))[pre.length]? = some t := by
  rw [List.getElem?_append_right (le_refl _)]; simp

/-- Statement of `skip_token` on a well-formed document, shared by the
theorems below. -/
theorem skip_token_spec (doc : Forest) (hwf : doc.wellFormed = true) (i : Nat)
    (hi : i < doc.size) :
    ∃ k, skip_token doc.flatten i doc.size = .ok k ∧ i < k ∧ k ≤ doc.size ∧
      (∀ m, i < m → m < k → isAncestor doc.flatten i m = true) ∧
      (k < doc.size → isAncestor doc.flatten i k = false) ∧
      (∀ tok, doc.flatten[i]? = some tok →
        tok.type = JSMN_STRING ∨ tok.type = JSMN_PRIMITIVE → k = i + 1) := by
  obtain ⟨t0, k0, hF, hshape, hspans⟩ := Forest.wellFormed_iff doc hwf
  obtain ⟨pre, t, k, post, hfl, hpre, hsh, hsp, hlo, hmid, hhi, hpost⟩ :=
    Forest.locate doc _ _ hshape hspans i hi
  have hall := Forest.spans_bounds doc _ _ hspans
  have hskip := skip_token_tree t k doc.flatten pre post hfl hsh
  rw [Forest.length_flatten, hpre] at hskip
  have hsize : doc.size = pre.length + 1 + k.size + post.length := by
    rw [← Forest.length_flatten doc, hfl]; simp [Forest.length_flatten]; omega
  have hti : doc.flatten[i]? = some t := by rw [hfl, ← hpre]; exact getElem?_here _ _ _
  refine ⟨i + 1 + k.size, hskip, by omega, by omega, ?_, ?_, ?_⟩
  · intro m h1 h2
    obtain ⟨x, hx, hxm⟩ := getElem?_mid pre t k.flatten post m (by omega)
      (by rw [Forest.length_flatten]; omega)
    have hb := Forest.spans_bounds k _ _ hsp x hxm
    rw [← hfl] at hx
    simp only [isAncestor, hti, hx, h1, decide_True, Bool.true_and, Bool.and_eq_true,
      decide_eq_true_eq]
    omega
  · intro hlt
    obtain ⟨x, hx, hxm⟩ := getElem?_post pre t k.flatten post (i + 1 + k.size)
      (by rw [Forest.length_flatten]; omega)
      (by rw [← hfl, Forest.length_flatten]; omega)
    rw [← hfl] at hx
    have h1 := hpost x hxm
    have h2 := hall x (List.getElem?_mem hx)
    simp only [isAncestor, hti, hx]
    simp; intro _ _; omega
  · intro tok htok hleaf
    rw [hti] at htok
    injection htok with htok
    subst htok
    have hn := (Forest.shape_cons hsh).1
    have := (Forest.children_of_nodeOk t k hn).2.2 hleaf
    subst this
    simp [Forest.size]

/-! ## build_visible_tokens on the flattening of a tree -/

theorem treeLines_length_le (collapsed : List Int) (F : Forest) :
    ∀ role base, (treeLines collapsed role base F).length ≤ F.size := by
  induction F with
  | nil => intro _ _; simp [treeLines]
  | cons t k r ihk ihr =>
    intro role base
    have h1 := ihk (kidRole t) (base + 1)
    have h2 := ihr role.next (base + 1 + k.size)
    simp only [treeLines, Forest.size, List.length_append]
    split
    · simp; omega
    · split <;> simp <;> omega

theorem readInt_collapsed (a : List Int) (i : Nat) (h : i < a.length) :
    ∃ c, readInt a i = .ok c ∧ isCollapsed a i = decide (c ≠ 0) := by
  refine ⟨a[i], ?_, ?_⟩ <;> simp [readInt, isCollapsed, List.getElem?_eq_getElem h]

/-- One call of `build_visible_tokens` on the root of a tree, given what the
two loops do on its children. -/
theorem buildFuel_tree (tokens pre post : List jsmntok_t) (t : jsmntok_t) (k : Forest)
    (collapsed : List Int) (count fuel d : Nat) (vis : List Nat)
    (hts : tokens = pre ++ (t :: k.flatten ++ post)) (hc : count = tokens.length)
    (hcl : collapsed.length = count) (hnode : Forest.nodeOk t k = true)
    (hA : t.type = JSMN_ARRAY → ∀ v : List Nat, v.length + k.size ≤ MAX_TOKENS →
      arrLoop tokens count (fun i v => buildFuel tokens count collapsed fuel i (d + 1) v)
        k.roots (pre.length + 1) v
        = .ok (v ++ treeLines collapsed .elem (pre.length + 1) k))
    (hO : t.type = JSMN_OBJECT → ∀ v : List Nat, v.length + k.size ≤ MAX_TOKENS →
      objLoop tokens count (fun i v => buildFuel tokens count collapsed fuel i (d + 1) v)
        (k.roots / 2) (pre.length + 1) v
        = .ok (v ++ treeLines collapsed .key (pre.length + 1) k))
    (hv : vis.length + (k.size + 1) ≤ MAX_TOKENS) :
    buildFuel tokens count collapsed (fuel + 1) pre.length d vis
      = .ok (vis ++ pre.length :: (if isCollapsed collapsed pre.length = true then []
          else treeLines collapsed (kidRole t) (pre.length + 1) k)) := by
  have hlt : pre.length < count := by rw [hc, hts]; simp
  have hread : readTok tokens pre.length = .ok t := by
    rw [hts]; simp only [List.cons_append]; exact readTok_append _ _ _
  have hcond : ¬ (pre.length ≥ count ∨ vis.length ≥ MAX_TOKENS) := by omega
  obtain ⟨hobj, harr, hleaf⟩ := Forest.children_of_nodeOk t k hnode
  obtain ⟨c, hrc, hcc⟩ := readInt_collapsed collapsed pre.length (hcl ▸ hlt)
  simp only [buildFuel, if_neg hcond, hread, hrc]
  by_cases hcol : c ≠ 0
  · have hic : isCollapsed collapsed pre.length = true := by rw [hcc]; simpa using hcol
    rw [if_pos hcol, hic]
    simp
  · have hic : isCollapsed collapsed pre.length = false := by rw [hcc]; simpa using hcol
    rw [if_neg hcol, hic]
    simp only [Bool.false_eq_true, if_false]
    cases ht : t.type
    · have h2 : t.size.toNat = k.roots / 2 := by have := (hobj ht).2; omega
      simp only [if_true, h2]
      rw [hO ht _ (by simp; omega)]
      simp [kidRole, ht]
    · simp only [if_true, harr ht]
      rw [if_neg (by simp), hA ht _ (by simp; omega)]
      simp [kidRole, ht]
    · simp [hleaf (Or.inl ht), treeLines]
    · simp [hleaf (Or.inr ht), treeLines]

theorem Forest.size_eq_zero {F : Forest} (h : F.size = 0) : F = .nil := by
  cases F with
  | nil => rfl
  | cons t k r => simp [Forest.size] at h

/-- The two loops of `build_visible_tokens` over a forest that sits at index
`pre.length`: the Array loop appends the lines of the forest read as elements,
the Object loop those of the forest read as members. -/
theorem loops_forest (collapsed : List Int) :
    ∀ (n : Nat) (F : Forest), F.size ≤ n →
      ∀ (tokens pre post : List jsmntok_t) (count fuel d : Nat) (vis : List Nat),
        tokens = pre ++ (F.flatten ++ post) → count = tokens.length →
        collapsed.length = count → F.shape = true → F.height ≤ fuel →
        vis.length + F.size ≤ MAX_TOKENS →
        arrLoop tokens count (fun i v => buildFuel tokens count collapsed fuel i (d + 1) v)
            F.roots pre.length vis
          = .ok (vis ++ treeLines collapsed .elem pre.length F) ∧
        (F.isMembers = true →
          objLoop tokens count (fun i v => buildFuel tokens count collapsed fuel i (d + 1) v)
              (F.roots / 2) pre.length vis
            = .ok (vis ++ treeLines collapsed .key pre.length F)) := by
  intro n
  induction n with
  | zero =>
    intro F hF tokens pre post count fuel d vis _ _ _ _ _ _
    have := Forest.size_eq_zero (Nat.le_zero.mp hF)
    subst this
    simp [Forest.roots, arrLoop, objLoop, treeLines]
  | succ n ih =>
    intro F hF tokens pre post count fuel d vis hts hc hcl hshape hfuel hv
    cases F with
    | nil => simp [Forest.roots, arrLoop, objLoop, treeLines]
    | cons t k r =>
      obtain ⟨hnode, hk, hr⟩ := Forest.shape_cons hshape
      simp only [Forest.height] at hfuel
      simp only [Forest.size] at hF hv
      obtain ⟨f, rfl⟩ : ∃ f, fuel = f + 1 := ⟨fuel - 1, by omega⟩
      -- one call on the root of any smaller tree of the array
      have htree : ∀ (t' : jsmntok_t) (k' : Forest) (pre' post' : List jsmntok_t)
          (d' : Nat) (vis' : List Nat),
          tokens = pre' ++ (t' :: k'.flatten ++ post') → Forest.nodeOk t' k' = true →
          k'.shape = true → k'.size ≤ n → k'.height ≤ f →
          vis'.length + (k'.size + 1) ≤ MAX_TOKENS →
          buildFuel tokens count collapsed (f + 1) pre'.length d' vis'
            = .ok (vis' ++ pre'.length :: (if isCollapsed collapsed pre'.length = true then []
                else treeLines collapsed (kidRole t') (pre'.length + 1) k')) := by
        intro t' k' pre' post' d' vis' hts' hnode' hk' hsz hh hv'
        apply buildFuel_tree tokens pre' post' t' k' collapsed count f d' vis' hts' hc hcl hnode'
        · intro _ v hvv
          have := (ih k' hsz tokens (pre' ++ [t']) post' count f d' v
            (by rw [hts']; simp) hc hcl hk' hh hvv).1
          simpa using this
        · intro ht v hvv
          have hm : k'.isMembers = true := by
            simp only [Forest.nodeOk, ht, Bool.and_eq_true] at hnode'
            exact hnode'.1
          have := (ih k' hsz tokens (pre' ++ [t']) post' count f d' v
            (by rw [hts']; simp) hc hcl hk' hh hvv).2 hm
          simpa using this
        · exact hv'
      have hlt : pre.length < count := by rw [hc, hts]; simp [Forest.flatten]
      have hts1 : tokens = pre ++ (t :: k.flatten ++ (r.flatten ++ post)) := by
        rw [hts]; simp [Forest.flatten]
      have hsk1 : skip_token tokens pre.length count = .ok (pre.length + 1 + k.size) := by
        rw [hc]
        exact skip_token_tree t k tokens pre (r.flatten ++ post) hts1
          (by simp [Forest.shape, hnode, hk])
      have hb1 := htree t k pre (r.flatten ++ post) (d + 1) vis hts1 hnode hk (by omega)
        (by omega) (by omega)
      have hlen1 := treeLines_length_le collapsed k (kidRole t) (pre.length + 1)
      constructor
      · -- the Array loop
        have hrest := (ih r (by omega) tokens (pre ++ t :: k.flatten) post count (f + 1) d
          (vis ++ pre.length :: (if isCollapsed collapsed pre.length = true then []
                else treeLines collapsed (kidRole t) (pre.length + 1) k))
          (by rw [hts]; simp [Forest.flatten]) hc hcl hr (by omega)
          (by simp only [List.length_append, List.length_cons]
              split <;> (try simp) <;> omega)).1
        simp only [List.length_append, List.length_cons, Forest.length_flatten] at hrest
        simp only [Forest.roots, arrLoop, if_pos hlt, hb1, hsk1]
        rw [show pre.length + 1 + k.size = pre.length + (k.size + 1) by omega, hrest]
        simp [treeLines, Role.next]
        rw [show pre.length + 1 + k.size = pre.length + (k.size + 1) by omega]
      · -- the Object loop
        intro hmem
        cases r with
        | nil => simp [Forest.isMembers] at hmem
        | cons v vk r' =>
          simp only [Forest.isMembers, Bool.and_eq_true, decide_eq_true_eq] at hmem
          obtain ⟨hkey, hmem'⟩ := hmem
          obtain ⟨hnodev, hvk, hr'⟩ := Forest.shape_cons hr
          have hknil : k = .nil := (Forest.children_of_nodeOk t k hnode).2.2 (Or.inl hkey)
          subst hknil
          simp only [Forest.size, Forest.height] at hF hv hfuel hsk1 hb1
          simp only [treeLines, ite_self] at hb1
          have hts2 : tokens = (pre ++ [t]) ++ (v :: vk.flatten ++ (r'.flatten ++ post)) := by
            rw [hts]; simp [Forest.flatten]
          have hrv : readTok tokens (pre.length + 1) = .ok v := by
            have := readTok_append (pre ++ [t]) v (vk.flatten ++ (r'.flatten ++ post))
            rw [hts2]; simpa using this
          have hsk2 : skip_token tokens (pre.length + 1) count
              = .ok (pre.length + 1 + 1 + vk.size) := by
            have := skip_token_tree v vk tokens (pre ++ [t]) (r'.flatten ++ post) hts2
              (by simp [Forest.shape, hnodev, hvk])
            rw [hc]; simpa using this
          have hb2 := htree v vk (pre ++ [t]) (r'.flatten ++ post) (d + 1)
            (vis ++ [pre.length]) hts2 hnodev hvk (by omega) (by omega)
            (by simp; omega)
          simp only [List.length_append, List.length_singleton] at hb2
          have hlen2 := treeLines_length_le collapsed vk (kidRole v) (pre.length + 1 + 1)
          have hroots : (Forest.cons t Forest.nil (Forest.cons v vk r')).roots / 2
              = r'.roots / 2 + 1 := by
            simp only [Forest.roots]; omega
          rw [hroots]
          simp only [objLoop, if_pos hlt, hb1, hsk1, hrv, Nat.add_zero]
          by_cases hleaf : v.type = JSMN_STRING ∨ v.type = JSMN_PRIMITIVE
          · have hvknil : vk = .nil := (Forest.children_of_nodeOk v vk hnodev).2.2 hleaf
            subst hvknil
            simp only [Forest.size, Nat.add_zero] at hsk2 hF hv
            have hrest := (ih r' (by omega) tokens (pre ++ [t, v]) post count (f + 1) d
              (vis ++ [pre.length])
              (by rw [hts]; simp [Forest.flatten]) hc hcl hr' (by omega)
              (by simp; omega)).2 hmem'
            simp only [List.length_append, List.length_cons, List.length_nil] at hrest
            simp only [if_pos hleaf, hsk2]
            rw [hrest]
            simp [treeLines, Role.next, hleaf, Forest.size]
          · have hrest := (ih r' (by omega) tokens (pre ++ t :: v :: vk.flatten) post count
              (f + 1) d
              (vis ++ [pre.length] ++ (pre.length + 1) ::
                (if isCollapsed collapsed (pre.length + 1) = true then []
                  else treeLines collapsed (kidRole v) (pre.length + 1 + 1) vk))
              (by rw [hts]; simp [Forest.flatten]) hc hcl hr' (by omega)
              (by simp only [List.length_append, List.length_cons, List.length_nil]
                  split <;> (try simp) <;> omega)).2 hmem'
            simp only [List.length_append, List.length_cons, Forest.length_flatten] at hrest
            simp only [if_neg hleaf, hb2, hsk2]
            rw [show pre.length + 1 + 1 + vk.size = pre.length + (vk.size + 1 + 1) by omega,
              hrest]
            simp [treeLines, Role.next, hleaf, Forest.size]
            rw [show pre.length + 1 + 1 + vk.size = pre.length + (vk.size + 1 + 1) by omega]

/-! ## The lines read off the tree are the lines the specification describes -/

theorem build_doc (doc : Forest) (hwf : doc.wellFormed = true) (collapsed : List Int)
    (hcl : collapsed.length = doc.size) (hmax : doc.size ≤ MAX_TOKENS) (d : Nat) :
    buildFuel doc.flatten doc.size collapsed (doc.size + 1) 0 d []
      = .ok (treeLines collapsed .elem 0 doc) := by
  obtain ⟨t, k, hF, hshape, hspans⟩ := Forest.wellFormed_iff doc hwf
  subst hF
  obtain ⟨hnode, hk, _⟩ := Forest.shape_cons hshape
  have hts : (Forest.cons t k .nil).flatten = [] ++ (t :: k.flatten ++ []) := by
    simp [Forest.flatten]
  have hc : (Forest.cons t k .nil).size = (Forest.cons t k .nil).flatten.length :=
    (Forest.length_flatten _).symm
  have hh := Forest.height_le_size k
  have hsz : (Forest.cons t k .nil).size = k.size + 1 := by simp [Forest.size]
  have hloops := fun v hv => loops_forest collapsed k.size k (le_refl _)
    (Forest.cons t k .nil).flatten [t] [] (Forest.cons t k .nil).size
    (Forest.cons t k .nil).size d v (by simp [Forest.flatten]) hc hcl hk (by omega) hv
  have h := buildFuel_tree (Forest.cons t k .nil).flatten [] [] t k collapsed
    (Forest.cons t k .nil).size (Forest.cons t k .nil).size d [] hts hc hcl hnode
    (fun _ v hv => by simpa using (hloops v hv).1)
    (fun ht v hv => by
      have hm : k.isMembers = true := by
        simp only [Forest.nodeOk, ht, Bool.and_eq_true] at hnode
        exact hnode.1
      simpa using (hloops v hv).2 hm)
    (by simp; omega)
  simpa [treeLines] using h

theorem hidden_of_ancestor (tokens : List jsmntok_t) (collapsed : List Int) (b m : Nat)
    (hcol : isCollapsed collapsed b = true) (hanc : isAncestor tokens b m = true) :
    hasCollapsedAncestor tokens collapsed m = true := by
  have hbm : b < m := by
    unfold isAncestor at hanc
    split at hanc
    · simp only [Bool.and_eq_true, decide_eq_true_eq] at hanc; exact hanc.1.1
    · simp at hanc
  unfold hasCollapsedAncestor
  rw [List.any_eq_true]
  exact ⟨b, List.mem_range.mpr hbm, by simp [hanc, hcol]⟩

theorem not_hidden_of_context (tokens : List jsmntok_t) (collapsed : List Int) (b : Nat)
    (lo : Int) (t : jsmntok_t) (ht : tokens[b]? = some t) (h1 : lo ≤ t.start)
    (h2 : t.start ≤ t.end_)
    (hctx : ∀ j x, j < b → tokens[j]? = some x → isCollapsed collapsed j = true → x.end_ ≤ lo) :
    hasCollapsedAncestor tokens collapsed b = false := by
  unfold hasCollapsedAncestor
  rw [List.any_eq_false]
  intro j hj
  have hjb : j < b := List.mem_range.mp hj
  by_cases hcol : isCollapsed collapsed j = true
  · cases hx : tokens[j]? with
    | none => simp [isAncestor, hx]
    | some x =>
      have := hctx j x hjb hx hcol
      simp only [isAncestor, hx, ht, Bool.and_eq_true, decide_eq_true_eq, not_and]
      intro h; omega
  · simp [hcol]

/-- The lines read off a forest are the indices of its tokens that have no
collapsed ancestor and are not an inline value. -/
theorem treeLines_eq_filter (collapsed : List Int) (tokens : List jsmntok_t)
    (roles : List Role) (F : Forest) :
    ∀ (role : Role) (lo hi : Int) (pre post : List jsmntok_t) (rpre rpost : List Role),
      tokens = pre ++ (F.flatten ++ post) → roles = rpre ++ (F.roles role ++ rpost) →
      rpre.length = pre.length → F.shape = true → F.spans lo hi = true →
      (∀ j x, j < pre.length → tokens[j]? = some x → isCollapsed collapsed j = true → x.end_ ≤ lo) →
      treeLines collapsed role pre.length F
        = (List.range' pre.length F.size).filter (fun m =>
            !hasCollapsedAncestor tokens collapsed m && !isInlineValue tokens roles m) := by
  induction F with
  | nil => intros; simp [treeLines, Forest.size]
  | cons t k r ihk ihr =>
    intro role lo hi pre post rpre rpost hts hrs hrl hshape hspans hctx
    obtain ⟨hnode, hk, hr⟩ := Forest.shape_cons hshape
    obtain ⟨h1, h2, h3, h4, h5⟩ := Forest.spans_cons hspans
    have hts1 : tokens = pre ++ (t :: k.flatten ++ (r.flatten ++ post)) := by
      rw [hts]; simp [Forest.flatten]
    have hrs1 : roles = rpre ++ (role :: (k.roles (kidRole t)) ++ (r.roles role.next ++ rpost)) := by
      rw [hrs]; simp [Forest.roles]
    have htb : tokens[pre.length]? = some t := by rw [hts1]; exact getElem?_here _ _ _
    have hrb : roles[pre.length]? = some role := by
      rw [hrs1, ← hrl]; exact getElem?_here _ _ _
    have hhead : hasCollapsedAncestor tokens collapsed pre.length = false :=
      not_hidden_of_context tokens collapsed pre.length lo t htb h1 h2 hctx
    -- the children
    have hkids : isCollapsed collapsed pre.length = false →
        treeLines collapsed (kidRole t) (pre.length + 1) k
          = (List.range' (pre.length + 1) k.size).filter (fun m =>
              !hasCollapsedAncestor tokens collapsed m && !isInlineValue tokens roles m) := by
      intro hcol
      have := ihk (kidRole t) (t.start + 1) (t.end_ - 1) (pre ++ [t]) (r.flatten ++ post)
        (rpre ++ [role]) (r.roles role.next ++ rpost)
        (by rw [hts]; simp [Forest.flatten]) (by rw [hrs]; simp [Forest.roles])
        (by simp [hrl]) hk h4
        (by
          intro j x hj hx hc
          simp only [List.length_append, List.length_singleton] at hj
          by_cases hjb : j < pre.length
          · have := hctx j x hjb hx hc; omega
          · have : j = pre.length := by omega
            subst this
            rw [hcol] at hc; exact absurd hc (by simp))
      simpa using this
    have hkids_hidden : isCollapsed collapsed pre.length = true →
        (List.range' (pre.length + 1) k.size).filter (fun m =>
              !hasCollapsedAncestor tokens collapsed m && !isInlineValue tokens roles m) = [] := by
      intro hcol
      rw [List.filter_eq_nil_iff]
      intro m hm
      have hm' := List.mem_range'_1.mp hm
      obtain ⟨x, hx, hxm⟩ := getElem?_mid pre t k.flatten (r.flatten ++ post) m (by omega)
        (by rw [Forest.length_flatten]; omega)
      rw [← hts1] at hx
      have hb := Forest.spans_bounds k _ _ h4 x hxm
      have hanc : isAncestor tokens pre.length m = true := by
        simp only [isAncestor, htb, hx, Bool.and_eq_true, decide_eq_true_eq]
        omega
      simp [hidden_of_ancestor tokens collapsed pre.length m hcol hanc]
    -- the later siblings
    have hrest := ihr role.next t.end_ hi (pre ++ t :: k.flatten) post
      (rpre ++ role :: k.roles (kidRole t)) rpost
      (by rw [hts]; simp [Forest.flatten]) (by rw [hrs]; simp [Forest.roles])
      (by simp [hrl, Forest.length_flatten, Forest.length_roles]) hr h5
      (by
        intro j x hj hx hc
        simp only [List.length_append, List.length_cons, Forest.length_flatten] at hj
        by_cases hjb : j < pre.length
        · have := hctx j x hjb hx hc; omega
        · by_cases hjb' : j = pre.length
          · subst hjb'
            rw [htb] at hx; injection hx with hx; subst hx; omega
          · obtain ⟨y, hy, hym⟩ := getElem?_mid pre t k.flatten (r.flatten ++ post) j
              (by omega) (by rw [Forest.length_flatten]; omega)
            rw [← hts1, hx] at hy
            injection hy with hy; subst hy
            have := Forest.spans_bounds k _ _ h4 x hym
            omega)
    simp only [List.length_append, List.length_cons, Forest.length_flatten] at hrest
    have hrange : List.range' pre.length (Forest.cons t k r).size
        = pre.length :: (List.range' (pre.length + 1) k.size
            ++ List.range' (pre.length + (k.size + 1)) r.size) := by
      simp only [Forest.size]
      rw [show k.size + r.size + 1 = (r.size + k.size) + 1 by omega, List.range'_succ,
        ← List.range'_append]
      simp only [Nat.one_mul]
      rw [show pre.length + 1 + k.size = pre.length + (k.size + 1) by omega]
    have hinl : isInlineValue tokens roles pre.length
        = decide (role = .value ∧ (t.type = JSMN_STRING ∨ t.type = JSMN_PRIMITIVE)) := by
      simp only [isInlineValue, htb, hrb]
      cases role <;> simp
    rw [hrange, List.filter_cons, List.filter_append, ← hrest, hhead, hinl]
    simp only [treeLines]
    rw [show pre.length + 1 + k.size = pre.length + (k.size + 1) by omega]
    by_cases hval : role = .value ∧ (t.type = JSMN_STRING ∨ t.type = JSMN_PRIMITIVE)
    · have hknil : k = .nil := (Forest.children_of_nodeOk t k hnode).2.2 hval.2
      subst hknil
      simp [hval, Forest.size]
    · by_cases hcol : isCollapsed collapsed pre.length = true
      · rw [hkids_hidden hcol]
        simp [hval, hcol]
      · have hcol' : isCollapsed collapsed pre.length = false := by simpa using hcol
        rw [← hkids hcol']
        simp [hval, hcol]

/-! ## The claims on depths, skipping and the visible lines -/

theorem Forest.wellFormed_flat (doc : Forest) (hwf : doc.wellFormed = true) :
    doc.flatten.Pairwise SpanRel ∧ (∀ x ∈ doc.flatten, x.start ≤ x.end_) ∧ 0 < doc.size := by
  obtain ⟨t, k, hF, hshape, hspans⟩ := Forest.wellFormed_iff doc hwf
  refine ⟨Forest.spans_pairwise doc _ _ hspans,
    fun x hx => (Forest.spans_bounds doc _ _ hspans x hx).2.1, ?_⟩
  subst hF; simp [Forest.size]

/-- C1: on the token array of a well-formed document `calculate_depths`
succeeds and stores, for every index `i` below `token_count`, the number of
indices `j < i` whose span strictly encloses the span of `i` (the ancestors of
`i` per I1); the entry of the root is 0. -/
theorem calculate_depths_counts_ancestors (doc : Forest) (hwf : doc.wellFormed = true)
    (depths : List Int) (hlen : depths.length = doc.size) :
    ∃ d, calculate_depths doc.flatten doc.size depths = .ok d ∧ d.length = doc.size ∧
      (∀ i, i < doc.size → d[i]? = some ((ancestorCount doc.flatten i : Nat) : Int)) ∧
      d[0]? = some 0 := by
  obtain ⟨hp, hb, hpos⟩ := Forest.wellFormed_flat doc hwf
  have h := calculate_depths_eq doc.flatten hp hb (by rw [Forest.length_flatten]; exact hpos)
    depths (by rw [Forest.length_flatten]; exact hlen)
  simpa only [Forest.length_flatten] using h

theorem calculate_depths_counts_ancestors_witness :
    sampleDoc.wellFormed = true ∧
    ∃ d, calculate_depths sampleDoc.flatten sampleDoc.size [0, 0, 0, 0, 0, 0, 0] = .ok d ∧
      d.length = sampleDoc.size ∧
      (∀ i, i < sampleDoc.size →
        d[i]? = some ((ancestorCount sampleDoc.flatten i : Nat) : Int)) ∧
      d[0]? = some 0 :=
  ⟨by decide, calculate_depths_counts_ancestors sampleDoc (by decide) [0, 0, 0, 0, 0, 0, 0]
    (by decide)⟩

/-- C2: on the token array of a well-formed document and for every index
`i < token_count`, `skip_token(tokens, i, token_count)` returns an index `k`
with `i < k <= token_count` such that every token strictly between `i` and `k`
is a descendant of `i` per I1 and token `k`, if there is one, is not; so `k` is
the smallest later index that is not a descendant of `i`, or `token_count`.
For a String or Primitive token `k = i + 1`. -/
theorem skip_token_first_non_descendant (doc : Forest) (hwf : doc.wellFormed = true)
    (i : Nat) (hi : i < doc.size) :
    ∃ k, skip_token doc.flatten i doc.size = .ok k ∧ i < k ∧ k ≤ doc.size ∧
      (∀ m, i < m → m < k → isAncestor doc.flatten i m = true) ∧
      (k < doc.size → isAncestor doc.flatten i k = false) ∧
      (∀ tok, doc.flatten[i]? = some tok →
        tok.type = JSMN_STRING ∨ tok.type = JSMN_PRIMITIVE → k = i + 1) :=
  skip_token_spec doc hwf i hi

theorem skip_token_first_non_descendant_witness :
    sampleDoc.wellFormed = true ∧ 4 < sampleDoc.size ∧
    ∃ k, skip_token sampleDoc.flatten 4 sampleDoc.size = .ok k ∧ 4 < k ∧ k ≤ sampleDoc.size ∧
      (∀ m, 4 < m → m < k → isAncestor sampleDoc.flatten 4 m = true) ∧
      (k < sampleDoc.size → isAncestor sampleDoc.flatten 4 k = false) ∧
      (∀ tok, sampleDoc.flatten[4]? = some tok →
        tok.type = JSMN_STRING ∨ tok.type = JSMN_PRIMITIVE → k = 4 + 1) :=
  ⟨by decide, by decide, skip_token_first_non_descendant sampleDoc (by decide) 4 (by decide)⟩

theorem expectedVisible_eq_treeLines (doc : Forest) (hwf : doc.wellFormed = true)
    (collapsed : List Int) :
    treeLines collapsed .elem 0 doc = expectedVisible doc collapsed := by
  obtain ⟨t, k, hF, hshape, hspans⟩ := Forest.wellFormed_iff doc hwf
  have h := treeLines_eq_filter collapsed doc.flatten (doc.roles .elem) doc .elem
    t.start t.end_ [] [] [] [] (by simp) (by simp) rfl hshape hspans
    (by intro j x hj; simp at hj)
  simp only [List.length_nil] at h
  rw [h, ← List.range_eq_range']
  rfl

theorem build_visible_tokens_doc (doc : Forest) (hwf : doc.wellFormed = true)
    (viewer : JsonViewer) (htok : viewer.tokens = doc.flatten)
    (hcount : viewer.token_count = doc.size) (hcl : viewer.collapsed.length = doc.size)
    (hmax : doc.size ≤ MAX_TOKENS) (hvis : viewer.visible_tokens = []) (d : Nat) :
    build_visible_tokens viewer 0 d
      = .ok { viewer with visible_tokens := expectedVisible doc viewer.collapsed } := by
  unfold build_visible_tokens
  rw [htok, hcount, hvis, build_doc doc hwf viewer.collapsed hcl hmax d,
    expectedVisible_eq_treeLines doc hwf]

theorem expectedVisible_sorted (doc : Forest) (collapsed : List Int) :
    (expectedVisible doc collapsed).Pairwise (fun a b => a < b) := by
  unfold expectedVisible
  exact List.Pairwise.filter _ (List.pairwise_lt_range _)

theorem mem_expectedVisible (doc : Forest) (collapsed : List Int) (t : Nat) :
    t ∈ expectedVisible doc collapsed ↔
      t < doc.size ∧ hasCollapsedAncestor doc.flatten collapsed t = false ∧
        isInlineValue doc.flatten (doc.roles .elem) t = false := by
  simp [expectedVisible, List.mem_filter]

/-- C3: for a well-formed document of at most `MAX_TOKENS` tokens and every
CollapseState, `build_visible_tokens(viewer, 0, 0)` started with an empty
visible list succeeds and leaves in `visible_tokens` a strictly increasing list
(pre-order, no repetition) that contains token `t` exactly when `t` has no
collapsed proper ancestor and is not a String or Primitive that is the value of
an Object member; the rest of the state is unchanged. -/
theorem build_visible_tokens_projection (doc : Forest) (hwf : doc.wellFormed = true)
    (viewer : JsonViewer) (htok : viewer.tokens = doc.flatten)
    (hcount : viewer.token_count = doc.size) (hcl : viewer.collapsed.length = doc.size)
    (hmax : doc.size ≤ MAX_TOKENS) (hvis : viewer.visible_tokens = []) :
    ∃ vis, build_visible_tokens viewer 0 0 = .ok { viewer with visible_tokens := vis } ∧
      vis.Pairwise (fun a b => a < b) ∧
      ∀ t, t ∈ vis ↔
        t < doc.size ∧ hasCollapsedAncestor doc.flatten viewer.collapsed t = false ∧
          isInlineValue doc.flatten (doc.roles .elem) t = false :=
  ⟨expectedVisible doc viewer.collapsed,
    build_visible_tokens_doc doc hwf viewer htok hcount hcl hmax hvis 0,
    expectedVisible_sorted doc viewer.collapsed, mem_expectedVisible doc viewer.collapsed⟩

theorem build_visible_tokens_projection_witness :
    sampleDoc.wellFormed = true ∧
    ∃ vis, build_visible_tokens (sampleViewer [0, 0, 0, 0, 1, 0, 0]) 0 0
        = .ok { sampleViewer [0, 0, 0, 0, 1, 0, 0] with visible_tokens := vis } ∧
      vis.Pairwise (fun a b => a < b) ∧
      ∀ t, t ∈ vis ↔
        t < sampleDoc.size ∧
          hasCollapsedAncestor sampleDoc.flatten (sampleViewer [0, 0, 0, 0, 1, 0, 0]).collapsed t
            = false ∧
          isInlineValue sampleDoc.flatten (sampleDoc.roles .elem) t = false :=
  ⟨by decide, build_visible_tokens_projection sampleDoc (by decide)
    (sampleViewer [0, 0, 0, 0, 1, 0, 0]) rfl rfl rfl (by decide) rfl⟩

theorem hidden_after_collapse (tokens : List jsmntok_t) (cs1 cs0 : List Int) (c t : Nat)
    (hagree : ∀ j, j ≠ c → isCollapsed cs1 j = isCollapsed cs0 j)
    (h1 : isCollapsed cs1 c = true) (h0 : isCollapsed cs0 c = false) :
    hasCollapsedAncestor tokens cs1 t
      = (isAncestor tokens c t || hasCollapsedAncestor tokens cs0 t) := by
  rw [Bool.eq_iff_iff]
  simp only [hasCollapsedAncestor, List.any_eq_true, Bool.or_eq_true, Bool.and_eq_true,
    List.mem_range]
  constructor
  · rintro ⟨j, hj, hanc, hcol⟩
    by_cases hjc : j = c
    · subst hjc; exact Or.inl hanc
    · exact Or.inr ⟨j, hj, hanc, by rw [← hagree j hjc]; exact hcol⟩
  · rintro (hanc | ⟨j, hj, hanc, hcol⟩)
    · have hct : c < t := by
        unfold isAncestor at hanc
        split at hanc
        · simp only [Bool.and_eq_true, decide_eq_true_eq] at hanc; exact hanc.1.1
        · simp at hanc
      exact ⟨c, hct, hanc, h1⟩
    · have hjc : j ≠ c := by
        rintro rfl; rw [h0] at hcol; simp at hcol
      exact ⟨j, hj, hanc, by rw [hagree j hjc]; exact hcol⟩

theorem expectedVisible_collapse (doc : Forest) (cs1 cs0 : List Int) (c : Nat)
    (hagree : ∀ j, j ≠ c → isCollapsed cs1 j = isCollapsed cs0 j)
    (h1 : isCollapsed cs1 c = true) (h0 : isCollapsed cs0 c = false) :
    expectedVisible doc cs1
      = (expectedVisible doc cs0).filter (fun t => !isAncestor doc.flatten c t) := by
  unfold expectedVisible
  rw [List.filter_filter]
  apply List.filter_congr
  intro t _
  rw [hidden_after_collapse doc.flatten cs1 cs0 c t hagree h1 h0]
  cases isAncestor doc.flatten c t <;> simp

/-- C4: for a well-formed document, two CollapseStates that differ only at
token `c`, collapsed in the first and expanded in the second, give visible
lists of which the first is the second with exactly the lines of the proper
descendants of `c` (per I1) deleted, the other lines keeping their order. -/
theorem collapse_removes_exactly_descendants (doc : Forest) (hwf : doc.wellFormed = true)
    (viewer : JsonViewer) (htok : viewer.tokens = doc.flatten)
    (hcount : viewer.token_count = doc.size) (hmax : doc.size ≤ MAX_TOKENS)
    (cs1 cs0 : List Int) (hl1 : cs1.length = doc.size) (hl0 : cs0.length = doc.size)
    (c : Nat) (hagree : ∀ j, j ≠ c → isCollapsed cs1 j = isCollapsed cs0 j)
    (h1 : isCollapsed cs1 c = true) (h0 : isCollapsed cs0 c = false) :
    ∃ v1 v0,
      build_visible_tokens { viewer with collapsed := cs1, visible_tokens := [] } 0 0
        = .ok { viewer with collapsed := cs1, visible_tokens := v1 } ∧
      build_visible_tokens { viewer with collapsed := cs0, visible_tokens := [] } 0 0
        = .ok { viewer with collapsed := cs0, visible_tokens := v0 } ∧
      v1 = v0.filter (fun t => !isAncestor doc.flatten c t) := by
  refine ⟨expectedVisible doc cs1, expectedVisible doc cs0, ?_, ?_,
    expectedVisible_collapse doc cs1 cs0 c hagree h1 h0⟩
  · exact build_visible_tokens_doc doc hwf
      { viewer with collapsed := cs1, visible_tokens := [] } htok hcount hl1 hmax rfl 0
  · exact build_visible_tokens_doc doc hwf
      { viewer with collapsed := cs0, visible_tokens := [] } htok hcount hl0 hmax rfl 0

theorem collapse_removes_exactly_descendants_witness :
    sampleDoc.wellFormed = true ∧
    ∃ v1 v0,
      build_visible_tokens
          { sampleViewer [] with collapsed := [0, 0, 0, 0, 1, 0, 0], visible_tokens := [] } 0 0
        = .ok { sampleViewer [] with collapsed := [0, 0, 0, 0, 1, 0, 0], visible_tokens := v1 } ∧
      build_visible_tokens
          { sampleViewer [] with collapsed := [0, 0, 0, 0, 0, 0, 0], visible_tokens := [] } 0 0
        = .ok { sampleViewer [] with collapsed := [0, 0, 0, 0, 0, 0, 0], visible_tokens := v0 } ∧
      v1 = v0.filter (fun t => !isAncestor sampleDoc.flatten 4 t) :=
  ⟨by decide, collapse_removes_exactly_descendants sampleDoc (by decide) (sampleViewer [])
    rfl rfl (by decide) [0, 0, 0, 0, 1, 0, 0] [0, 0, 0, 0, 0, 0, 0] rfl rfl 4
    (by
      intro j hj
      match j, hj with
      | 0, _ | 1, _ | 2, _ | 3, _ | 5, _ | 6, _ => rfl
      | 4, h => exact absurd rfl h
      | n + 7, _ => rfl)
    (by decide) (by decide)⟩

/-! ## skip_token is total -/

theorem skipLoop_total (f : Nat → Except Fault Nat) (count : Nat) :
    ∀ (n next : Nat), next ≤ count →
      (∀ x, next ≤ x → x < count → ∃ k, f x = .ok k ∧ x < k ∧ k ≤ count) →
      ∃ k, skipLoop f count n next = .ok k ∧ next ≤ k ∧ k ≤ count := by
  intro n
  induction n with
  | zero => intro next h _; exact ⟨next, rfl, le_refl _, h⟩
  | succ n ih =>
    intro next hle hf
    by_cases hlt : next < count
    · obtain ⟨k, hk, h1, h2⟩ := hf next (le_refl _) hlt
      obtain ⟨k', hk', h3, h4⟩ := ih k h2 (fun x hx hxc => hf x (by omega) hxc)
      exact ⟨k', by simp only [skipLoop, if_pos hlt, hk, hk'], by omega, h4⟩
    · exact ⟨next, by simp only [skipLoop, if_neg hlt], le_refl _, hle⟩

/-- With fuel for `count - idx` levels `skip_token` returns, reading only
indices below `count`. -/
theorem skipFuel_total (tokens : List jsmntok_t) (count : Nat) (hc : count ≤ tokens.length) :
    ∀ (fuel idx : Nat), idx < count → count - idx ≤ fuel →
      ∃ k, skipFuel tokens count fuel idx = .ok k ∧ idx < k ∧ k ≤ count := by
  intro fuel
  induction fuel with
  | zero => intro idx h1 h2; omega
  | succ fuel ih =>
    intro idx h1 h2
    simp only [skipFuel, readTok_of_lt tokens idx (by omega)]
    split
    · obtain ⟨k, hk, h3, h4⟩ := skipLoop_total (skipFuel tokens count fuel) count
        (if tokens[idx].type = JSMN_OBJECT then tokens[idx].size * 2 else tokens[idx].size).toNat
        (idx + 1) (by omega) (fun x hx hxc => ih x hxc (by omega))
      exact ⟨k, hk, by omega, h4⟩
    · exact ⟨idx + 1, rfl, by omega, by omega⟩

theorem skip_token_total (tokens : List jsmntok_t) (count : Nat) (hc : count ≤ tokens.length)
    (idx : Nat) (h : idx < count) :
    ∃ k, skip_token tokens idx count = .ok k ∧ idx < k ∧ k ≤ count :=
  skipFuel_total tokens count hc (count + 1) idx h (by omega)

/-! ## is_object_key on an arbitrary token array -/

theorem skipSteps_unique {tokens : List jsmntok_t} {count target c n : Nat}
    (h : SkipSteps tokens count target c n) :
    ∀ m, SkipSteps tokens count target c m → n = m := by
  induction h with
  | done c hc =>
    intro m hm
    cases hm with
    | done _ _ => rfl
    | step _ _ _ hlt _ _ => omega
  | step c c' n hlt hs _ ih =>
    intro m hm
    cases hm with
    | done _ hge => omega
    | step _ c'' m' _ hs' hrest =>
      rw [hs] at hs'
      injection hs' with hs'
      subst hs'
      rw [ih m' hrest]

theorem keyWalk_spec (tokens : List jsmntok_t) (count target : Nat)
    (hc : count ≤ tokens.length) (ht : target ≤ count) :
    ∀ (fuel c cnt : Nat), target - c < fuel →
      ∃ n, SkipSteps tokens count target c n ∧
        keyWalk tokens count target fuel c cnt = .ok (cnt + n) := by
  intro fuel
  induction fuel with
  | zero => intro c cnt h; omega
  | succ fuel ih =>
    intro c cnt h
    by_cases hlt : c < target
    · obtain ⟨c', hs, h1, h2⟩ := skip_token_total tokens count hc c (by omega)
      obtain ⟨n, hn, hw⟩ := ih c' (cnt + 1) (by omega)
      refine ⟨n + 1, SkipSteps.step c c' n hlt hs hn, ?_⟩
      simp only [keyWalk, if_pos hlt, hs, hw]
      congr 1; omega
    · exact ⟨0, SkipSteps.done c (by omega), by simp only [keyWalk, if_neg hlt]; rfl⟩

theorem containsStart_eq (tokens : List jsmntok_t) (j i : Nat) (hj : j < tokens.length)
    (hi : i < tokens.length) :
    containsStart tokens j i
      = decide (tokens[j].start < tokens[i].start ∧ tokens[j].end_ > tokens[i].start) := by
  simp only [containsStart, List.getElem?_eq_getElem hj, List.getElem?_eq_getElem hi]

/-- The downward scan of `is_object_key` stops at the nearest token whose span
contains the start of token `i`, if there is one. -/
theorem keyScan_spec (tokens : List jsmntok_t) (count i : Nat) (hi : i < tokens.length) :
    ∀ n, n ≤ i →
      ((∀ j, j < n → containsStart tokens j i = false) →
        keyScan tokens count i tokens[i].start n = .ok false) ∧
      (∀ a tok, a < n → tokens[a]? = some tok → containsStart tokens a i = true →
        (∀ j, a < j → j < n → containsStart tokens j i = false) →
        keyScan tokens count i tokens[i].start n =
          if tok.type = JSMN_OBJECT then
            match keyWalk tokens count i (i + 1) (a + 1) 0 with
            | .error e => .error e
            | .ok cnt => .ok (cnt % 2 == 0)
          else .ok false) := by
  intro n
  induction n with
  | zero =>
    intro _
    exact ⟨fun _ => rfl, fun a _ ha => by omega⟩
  | succ n ih =>
    intro hn
    have hnl : n < tokens.length := by omega
    have hcs := containsStart_eq tokens n i hnl hi
    obtain ⟨ih1, ih2⟩ := ih (by omega)
    constructor
    · intro hno
      have hn0 := hno n (by omega)
      rw [hcs, decide_eq_false_iff_not] at hn0
      simp only [keyScan, readTok_of_lt tokens n hnl, if_neg hn0]
      exact ih1 (fun j hj => hno j (by omega))
    · intro a tok ha htok hin hbetween
      by_cases han : a = n
      · subst han
        rw [hcs, decide_eq_true_eq] at hin
        rw [List.getElem?_eq_getElem hnl] at htok
        injection htok with htok
        subst htok
        simp only [keyScan, readTok_of_lt tokens a hnl, if_pos hin]
      · have hn0 := hbetween n (by omega) (by omega)
        rw [hcs, decide_eq_false_iff_not] at hn0
        simp only [keyScan, readTok_of_lt tokens n hnl, if_neg hn0]
        exact ih2 a tok (by omega) htok hin (fun j h1 h2 => hbetween j h1 (by omega))

theorem nearestAncestor_unique {tokens : List jsmntok_t} {i a a' : Nat}
    (h : NearestAncestor tokens i a) (h' : NearestAncestor tokens i a') : a = a' := by
  obtain ⟨h1, h2, h3⟩ := h
  obtain ⟨h1', h2', h3'⟩ := h'
  by_contra hne
  rcases Nat.lt_or_gt_of_ne hne with hlt | hlt
  · have := h3 a' hlt h1'; rw [h2'] at this; simp at this
  · have := h3' a hlt h1; rw [h2] at this; simp at this

/-- Either no earlier span contains the start of token `i`, or there is a
nearest one. -/
theorem nearestAncestor_cases (tokens : List jsmntok_t) (i : Nat) :
    ∀ n, n ≤ i → (∀ j, j < n → containsStart tokens j i = false) ∨
      ∃ a, a < n ∧ containsStart tokens a i = true ∧
        ∀ j, a < j → j < n → containsStart tokens j i = false := by
  intro n
  induction n with
  | zero => intro _; left; intro j hj; omega
  | succ n ih =>
    intro hn
    by_cases hc : containsStart tokens n i = true
    · right; exact ⟨n, by omega, hc, fun j h1 h2 => by omega⟩
    · rcases ih (by omega) with h | ⟨a, ha, hin, hb⟩
      · left
        intro j hj
        by_cases hjn : j = n
        · subst hjn; simpa using hc
        · exact h j (by omega)
      · right
        refine ⟨a, by omega, hin, fun j h1 h2 => ?_⟩
        by_cases hjn : j = n
        · subst hjn; simpa using hc
        · exact hb j h1 (by omega)

/-- Statement of `is_object_key` on an arbitrary token array, shared by the
theorems below. -/
theorem is_object_key_spec (viewer : JsonViewer)
    (hcount : viewer.token_count = viewer.tokens.length) (i : Nat)
    (hi : i < viewer.token_count) :
    ∃ b, is_object_key viewer i = .ok b ∧
      (b = true ↔ ∃ a n tok, NearestAncestor viewer.tokens i a ∧
        viewer.tokens[a]? = some tok ∧ tok.type = JSMN_OBJECT ∧
        SkipSteps viewer.tokens viewer.token_count i (a + 1) n ∧ n % 2 = 0) := by
  have hil : i < viewer.tokens.length := by omega
  by_cases hi0 : i = 0
  · subst hi0
    refine ⟨false, by simp [is_object_key], ?_⟩
    simp only [Bool.false_eq_true, false_iff]
    rintro ⟨a, _, _, ⟨ha, _⟩, _⟩
    omega
  · have hspec := keyScan_spec viewer.tokens viewer.token_count i hil i (le_refl _)
    have hunf : is_object_key viewer i
        = keyScan viewer.tokens viewer.token_count i viewer.tokens[i].start i := by
      simp only [is_object_key, if_neg hi0, readTok_of_lt viewer.tokens i hil]
    rcases nearestAncestor_cases viewer.tokens i i (le_refl _) with hno | ⟨a, ha, hin, hb⟩
    · refine ⟨false, by rw [hunf]; exact hspec.1 hno, ?_⟩
      simp only [Bool.false_eq_true, false_iff]
      rintro ⟨a, _, _, ⟨ha, hin, _⟩, _⟩
      rw [hno a ha] at hin; simp at hin
    · have hal : a < viewer.tokens.length := by omega
      have hnear : NearestAncestor viewer.tokens i a := ⟨ha, hin, hb⟩
      have hscan := hspec.2 a viewer.tokens[a] ha (List.getElem?_eq_getElem hal) hin hb
      obtain ⟨n, hn, hw⟩ := keyWalk_spec viewer.tokens viewer.token_count i (by omega)
        (by omega) (i + 1) (a + 1) 0 (by omega)
      by_cases hobj : (viewer.tokens[a]).type = JSMN_OBJECT
      · refine ⟨(0 + n) % 2 == 0, by rw [hunf, hscan, if_pos hobj, hw], ?_⟩
        constructor
        · intro hb'
          refine ⟨a, n, viewer.tokens[a], hnear, List.getElem?_eq_getElem hal, hobj, hn, ?_⟩
          simpa using hb'
        · rintro ⟨a', n', tok, hnear', _, _, hn', hpar⟩
          have := nearestAncestor_unique hnear hnear'
          subst this
          have := skipSteps_unique hn n' hn'
          subst this
          simpa using hpar
      · refine ⟨false, by rw [hunf, hscan, if_neg hobj], ?_⟩
        simp only [Bool.false_eq_true, false_iff]
        rintro ⟨a', n', tok, hnear', htok, htype, _⟩
        have := nearestAncestor_unique hnear hnear'
        subst this
        rw [List.getElem?_eq_getElem hal] at htok
        injection htok with htok
        rw [htok] at hobj
        exact hobj htype

/-! ## is_object_key on the flattening of a tree -/

theorem skipReach_le {tokens : List jsmntok_t} {count c b n : Nat}
    (h : SkipReach tokens count c b n) : c ≤ b := by
  induction h with
  | refl c => exact le_refl _
  | step c c' b n hlt _ _ _ => omega

theorem skipReach_snoc {tokens : List jsmntok_t} {count c b n : Nat}
    (h : SkipReach tokens count c b n) :
    ∀ b', skip_token tokens b count = .ok b' → b < b' → SkipReach tokens count c b' (n + 1) := by
  induction h with
  | refl c =>
    intro b' hs hlt
    exact SkipReach.step c b' b' 0 hlt hs (SkipReach.refl b')
  | step c c' b n hlt hs hrest ih =>
    intro b' hs' hlt'
    exact SkipReach.step c c' b' (n + 1) (by omega) hs (ih b' hs' hlt')

theorem skipReach_toSteps {tokens : List jsmntok_t} {count c b n : Nat}
    (h : SkipReach tokens count c b n) : SkipSteps tokens count b c n := by
  induction h with
  | refl c => exact SkipSteps.done c (le_refl _)
  | step c c' b n hlt hs _ ih => exact SkipSteps.step c c' n hlt hs ih

/-- The result of `is_object_key` on a token whose surroundings are described
by `KeyCtx`. -/
theorem is_object_key_of_ctx (viewer : JsonViewer)
    (hcount : viewer.token_count = viewer.tokens.length) (i : Nat) (lo hi : Int) (role : Role)
    (t : jsmntok_t) (ht : viewer.tokens[i]? = some t) (h1 : lo ≤ t.start)
    (h2 : t.start ≤ t.end_) (h3 : t.end_ ≤ hi)
    (hctx : KeyCtx viewer.tokens viewer.token_count i lo hi role) :
    is_object_key viewer i = .ok (decide (role = .key)) := by
  have hil : i < viewer.tokens.length := (List.getElem?_eq_some.mp ht).1
  obtain ⟨b, hb, hiff⟩ := is_object_key_spec viewer hcount i (by omega)
  rw [hb]
  congr 1
  rw [Bool.eq_iff_iff, hiff]
  simp only [decide_eq_true_eq]
  rcases hctx with ⟨hrole, hbefore⟩ | ⟨a, n, ta, ha, hta, hlo, hhi, hbetween, hreach, hkind⟩
  · subst hrole
    simp only [reduceCtorEq, iff_false]
    rintro ⟨a, _, _, ⟨ha, hin, _⟩, _⟩
    cases hx : viewer.tokens[a]? with
    | none => simp [containsStart, hx] at hin
    | some x =>
      have := hbefore a x ha hx
      simp only [containsStart, hx, ht, decide_eq_true_eq] at hin
      omega
  · have hnear : NearestAncestor viewer.tokens i a := by
      refine ⟨ha, ?_, ?_⟩
      · simp only [containsStart, hta, ht, decide_eq_true_eq]; omega
      · intro j hj1 hj2
        cases hx : viewer.tokens[j]? with
        | none => simp [containsStart, hx]
        | some x =>
          have := hbetween j x hj1 hj2 hx
          simp only [containsStart, hx, ht, decide_eq_false_iff_not]
          omega
    have hsteps := skipReach_toSteps hreach
    constructor
    · rintro ⟨a', n', tok, hnear', htok, htype, hn', hpar⟩
      have := nearestAncestor_unique hnear hnear'
      subst this
      rw [hta] at htok
      injection htok with htok
      subst htok
      have := skipSteps_unique hsteps n' hn'
      subst this
      rcases hkind with ⟨_, (⟨hr, _⟩ | ⟨_, hodd⟩)⟩ | ⟨hne, _⟩
      · exact hr
      · omega
      · exact absurd htype hne
    · intro hrole
      rcases hkind with ⟨hobj, (⟨_, hev⟩ | ⟨hr, _⟩)⟩ | ⟨_, hr⟩
      · exact ⟨a, n, ta, hnear, hta, hobj, hsteps, hev⟩
      · rw [hrole] at hr; cases hr
      · rw [hrole] at hr; cases hr

/-- On every token of a forest that sits at index `pre.length`, `is_object_key`
tells whether the role of the token is `key`. -/
theorem is_object_key_forest (viewer : JsonViewer)
    (hcount : viewer.token_count = viewer.tokens.length) (roles : List Role) (F : Forest) :
    ∀ (role : Role) (lo hi : Int) (pre post : List jsmntok_t) (rpre rpost : List Role),
      viewer.tokens = pre ++ (F.flatten ++ post) → roles = rpre ++ (F.roles role ++ rpost) →
      rpre.length = pre.length → F.shape = true → F.spans lo hi = true →
      KeyCtx viewer.tokens viewer.token_count pre.length lo hi role →
      ∀ i ρ, pre.length ≤ i → i < pre.length + F.size → roles[i]? = some ρ →
        is_object_key viewer i = .ok (decide (ρ = .key)) := by
  induction F with
  | nil => intro _ _ _ _ _ _ _ _ _ _ _ _ _ i ρ h1 h2; simp [Forest.size] at h2; omega
  | cons t k r ihk ihr =>
    intro role lo hi pre post rpre rpost hts hrs hrl hshape hspans hctx i ρ hi1 hi2 hρ
    obtain ⟨hnode, hk, hr⟩ := Forest.shape_cons hshape
    obtain ⟨h1, h2, h3, h4, h5⟩ := Forest.spans_cons hspans
    simp only [Forest.size] at hi2
    have hts1 : viewer.tokens = pre ++ (t :: k.flatten ++ (r.flatten ++ post)) := by
      rw [hts]; simp [Forest.flatten]
    have hrs1 : roles = rpre ++ (role :: (k.roles (kidRole t)) ++ (r.roles role.next ++ rpost)) := by
      rw [hrs]; simp [Forest.roles]
    have htb : viewer.tokens[pre.length]? = some t := by rw [hts1]; exact getElem?_here _ _ _
    have hrb : roles[pre.length]? = some role := by
      rw [hrs1, ← hrl]; exact getElem?_here _ _ _
    have hkids_end : ∀ j x, pre.length < j → j < pre.length + 1 + k.size →
        viewer.tokens[j]? = some x → x.end_ ≤ t.end_ - 1 := by
      intro j x hj1 hj2 hx
      obtain ⟨y, hy, hym⟩ := getElem?_mid pre t k.flatten (r.flatten ++ post) j hj1
        (by rw [Forest.length_flatten]; omega)
      rw [← hts1, hx] at hy
      injection hy with hy; subst hy
      exact (Forest.spans_bounds k _ _ h4 x hym).2.2
    by_cases hib : i = pre.length
    · subst hib
      rw [hrb] at hρ; injection hρ with hρ; subst hρ
      exact is_object_key_of_ctx viewer hcount pre.length lo hi role t htb h1 h2 h3 hctx
    · by_cases hik : i < pre.length + 1 + k.size
      · -- a token among the children
        refine ihk (kidRole t) (t.start + 1) (t.end_ - 1) (pre ++ [t]) (r.flatten ++ post)
          (rpre ++ [role]) (r.roles role.next ++ rpost)
          (by rw [hts]; simp [Forest.flatten]) (by rw [hrs]; simp [Forest.roles])
          (by simp [hrl]) hk h4 ?_ i ρ (by simp; omega) (by simp; omega) hρ
        right
        refine ⟨pre.length, 0, t, by simp, htb, by omega, by omega, ?_, ?_, ?_⟩
        · intro j x hj1 hj2; simp at hj2; omega
        · simp only [List.length_append, List.length_singleton]
          exact SkipReach.refl _
        · by_cases hobj : t.type = JSMN_OBJECT
          · left; exact ⟨hobj, Or.inl ⟨by simp [kidRole, hobj], rfl⟩⟩
          · right; exact ⟨hobj, by simp [kidRole, hobj]⟩
      · -- a token among the later siblings
        have hskip : skip_token viewer.tokens pre.length viewer.token_count
            = .ok (pre.length + 1 + k.size) := by
          rw [hcount]
          exact skip_token_tree t k viewer.tokens pre (r.flatten ++ post) hts1
            (by simp [Forest.shape, hnode, hk])
        refine ihr role.next t.end_ hi (pre ++ t :: k.flatten) post
          (rpre ++ role :: k.roles (kidRole t)) rpost
          (by rw [hts]; simp [Forest.flatten]) (by rw [hrs]; simp [Forest.roles])
          (by simp [hrl, Forest.length_flatten, Forest.length_roles]) hr h5 ?_ i ρ
          (by simp [Forest.length_flatten]; omega) (by simp [Forest.length_flatten]; omega) hρ
        have hlen : (pre ++ t :: k.flatten).length = pre.length + 1 + k.size := by
          simp [Forest.length_flatten]; omega
        rw [hlen]
        have hbefore : ∀ (a : Nat), (∀ j x, a ≤ j → j < pre.length →
              viewer.tokens[j]? = some x → x.end_ ≤ lo) →
            ∀ j x, a ≤ j → j < pre.length + 1 + k.size →
              viewer.tokens[j]? = some x → x.end_ ≤ t.end_ := by
          intro a hold j x hj1 hj2 hx
          by_cases hjb : j < pre.length
          · have := hold j x hj1 hjb hx; omega
          · by_cases hjb' : j = pre.length
            · subst hjb'
              rw [htb] at hx; injection hx with hx; subst hx; omega
            · have := hkids_end j x (by omega) hj2 hx; omega
        rcases hctx with ⟨hrole, hbef⟩ | ⟨a, n, ta, ha, hta, hlo, hhi, hbetween, hreach, hkind⟩
        · left
          refine ⟨by rw [hrole]; rfl, ?_⟩
          intro j x hj hx
          exact hbefore 0 (fun j x _ hj hx => hbef j x hj hx) j x (Nat.zero_le _) hj hx
        · right
          refine ⟨a, n + 1, ta, by omega, hta, by omega, hhi, ?_,
            skipReach_snoc hreach _ hskip (by omega), ?_⟩
          · intro j x hj1 hj2 hx
            exact hbefore (a + 1) (fun j x h1 h2 hx => hbetween j x (by omega) h2 hx) j x
              (by omega) hj2 hx
          · rcases hkind with ⟨hobj, (⟨hr', hev⟩ | ⟨hr', hodd⟩)⟩ | ⟨hne, hr'⟩
            · left; exact ⟨hobj, Or.inr ⟨by rw [hr']; rfl, by omega⟩⟩
            · left; exact ⟨hobj, Or.inl ⟨by rw [hr']; rfl, by omega⟩⟩
            · right; exact ⟨hne, by rw [hr']; rfl⟩

/-- Statement of `is_object_key` on a well-formed document, shared by the
theorems below. -/
theorem is_object_key_doc (doc : Forest) (hwf : doc.wellFormed = true) (viewer : JsonViewer)
    (htok : viewer.tokens = doc.flatten) (hcount : viewer.token_count = doc.size)
    (i : Nat) (ρ : Role) (hρ : (doc.roles .elem)[i]? = some ρ) :
    is_object_key viewer i = .ok (decide (ρ = .key)) := by
  obtain ⟨t, k, hF, hshape, hspans⟩ := Forest.wellFormed_iff doc hwf
  have hi : i < doc.size := by
    have := (List.getElem?_eq_some.mp hρ).1
    rwa [Forest.length_roles] at this
  exact is_object_key_forest viewer (by rw [hcount, htok, Forest.length_flatten])
    (doc.roles .elem) doc .elem t.start t.end_ [] [] [] []
    (by simp [htok]) (by simp) rfl hshape hspans
    (Or.inl ⟨rfl, fun j x hj => by simp at hj⟩) i ρ (by simp) (by simpa using hi) hρ

/-! ## The claims on is_object_key -/

/-- C5: for every token array and every index `i` below `token_count`,
`is_object_key(viewer, i)` returns, and it returns true if and only if the
nearest earlier token whose span strictly contains the start of token `i`
exists, is an Object, and the number of `skip_token` steps needed to walk from
the token after it up to, but not including, `i` is even.  It returns false
for the root, for a token no earlier span contains, and for a token whose
nearest such token is an Array. -/
theorem is_object_key_characterisation (viewer : JsonViewer)
    (hcount : viewer.token_count = viewer.tokens.length) (i : Nat)
    (hi : i < viewer.token_count) :
    ∃ b, is_object_key viewer i = .ok b ∧
      (b = true ↔ ∃ a n tok, NearestAncestor viewer.tokens i a ∧
        viewer.tokens[a]? = some tok ∧ tok.type = JSMN_OBJECT ∧
        SkipSteps viewer.tokens viewer.token_count i (a + 1) n ∧ n % 2 = 0) ∧
      (i = 0 → b = false) ∧
      ((∀ j, j < i → containsStart viewer.tokens j i = false) → b = false) ∧
      (∀ a tok, NearestAncestor viewer.tokens i a → viewer.tokens[a]? = some tok →
        tok.type = JSMN_ARRAY → b = false) := by
  obtain ⟨b, hb, hiff⟩ := is_object_key_spec viewer hcount i hi
  refine ⟨b, hb, hiff, ?_, ?_, ?_⟩
  · intro hi0
    rw [← Bool.not_eq_true, hiff]
    rintro ⟨a, _, _, ⟨ha, _⟩, _⟩
    omega
  · intro hno
    rw [← Bool.not_eq_true, hiff]
    rintro ⟨a, _, _, ⟨ha, hin, _⟩, _⟩
    rw [hno a ha] at hin; simp at hin
  · intro a tok hnear htok harr
    rw [← Bool.not_eq_true, hiff]
    rintro ⟨a', _, tok', hnear', htok', hobj, _⟩
    have := nearestAncestor_unique hnear hnear'
    subst this
    rw [htok] at htok'
    injection htok' with htok'
    subst htok'
    rw [harr] at hobj
    cases hobj

theorem is_object_key_characterisation_witness :
    (sampleViewer []).token_count = (sampleViewer []).tokens.length ∧
    3 < (sampleViewer []).token_count ∧
    ∃ b, is_object_key (sampleViewer []) 3 = .ok b ∧
      (b = true ↔ ∃ a n tok, NearestAncestor (sampleViewer []).tokens 3 a ∧
        (sampleViewer []).tokens[a]? = some tok ∧ tok.type = JSMN_OBJECT ∧
        SkipSteps (sampleViewer []).tokens (sampleViewer []).token_count 3 (a + 1) n ∧
        n % 2 = 0) ∧
      (3 = 0 → b = false) ∧
      ((∀ j, j < 3 → containsStart (sampleViewer []).tokens j 3 = false) → b = false) ∧
      (∀ a tok, NearestAncestor (sampleViewer []).tokens 3 a →
        (sampleViewer []).tokens[a]? = some tok → tok.type = JSMN_ARRAY → b = false) :=
  ⟨by decide, by decide,
    is_object_key_characterisation (sampleViewer []) (by decide) 3 (by decide)⟩

/-- C6: on the token array of a well-formed document `is_object_key` is true
on exactly the tokens whose role is the key of an Object member, and false on
member values, Array elements and the root; for `{"a":1,"b":2}` (tokens:
object, a, 1, b, 2) it is true for `a` and `b` and false for the object, `1`
and `2`. -/
theorem is_object_key_iff_key (doc : Forest) (hwf : doc.wellFormed = true)
    (viewer : JsonViewer) (htok : viewer.tokens = doc.flatten)
    (hcount : viewer.token_count = doc.size) :
    (∀ i ρ, (doc.roles .elem)[i]? = some ρ →
      is_object_key viewer i = .ok (decide (ρ = .key))) ∧
    (List.range 5).map (is_object_key (docViewer pairDoc []))
      = [.ok false, .ok true, .ok false, .ok true, .ok false] :=
  ⟨fun i ρ hρ => is_object_key_doc doc hwf viewer htok hcount i ρ hρ, by rfl⟩

theorem is_object_key_iff_key_witness :
    sampleDoc.wellFormed = true ∧
    (∀ i ρ, (sampleDoc.roles .elem)[i]? = some ρ →
      is_object_key (sampleViewer []) i = .ok (decide (ρ = .key))) ∧
    (List.range 5).map (is_object_key (docViewer pairDoc []))
      = [.ok false, .ok true, .ok false, .ok true, .ok false] :=
  ⟨by decide, is_object_key_iff_key sampleDoc (by decide) (sampleViewer []) rfl rfl⟩

/-! ## Search -/

theorem stristrAt_iff (needle : List Nat) :
    ∀ hay, stristrAt hay needle = true ↔ needle.map tolower <+: hay.map tolower := by
  induction needle with
  | nil => intro hay; cases hay <;> simp [stristrAt]
  | cons n ns ih =>
    intro hay
    cases hay with
    | nil => simp [stristrAt]
    | cons h hs =>
      simp only [stristrAt, List.map_cons, List.cons_prefix_cons]
      by_cases hc : tolower h = tolower n
      · simp [hc, ih hs]
      · simp [hc]
        intro h'; exact absurd h'.symm hc

theorem stristrLoop_iff (needle : List Nat) (hne : needle ≠ []) :
    ∀ hay off, (stristrLoop needle hay off).isSome = true
      ↔ needle.map tolower <:+: hay.map tolower := by
  intro hay
  induction hay with
  | nil => intro off; simp [stristrLoop, hne]
  | cons h hs ih =>
    intro off
    rw [List.map_cons, List.infix_cons_iff, ← List.map_cons, ← stristrAt_iff, ← ih (off + 1)]
    simp only [stristrLoop]
    by_cases hc : stristrAt (h :: hs) needle = true
    · simp [hc]
    · simp [hc]

theorem stristr_iff (hay needle : List Nat) (hne : needle ≠ []) :
    (stristr hay needle).isSome = true ↔ containsIgnoringCase hay needle := by
  unfold stristr containsIgnoringCase
  rw [if_neg hne]
  exact stristrLoop_iff needle hne hay 0

theorem token_text (json_str : List Nat) (hnul : ∀ c ∈ json_str, c ≠ 0) (tok : jsmntok_t)
    (h0 : 0 ≤ tok.start) (h1 : tok.end_ ≤ json_str.length) (hlen : 0 < tok.end_ - tok.start) :
    cstr (((json_str ++ [0]).drop tok.start.toNat).take (tok.end_ - tok.start).toNat)
      = rawText json_str tok := by
  unfold rawText cstr
  rw [List.drop_append_of_le_length (by omega),
    List.take_append_of_le_length (by rw [List.length_drop]; omega)]
  rw [List.takeWhile_eq_self_iff]
  intro x hx
  have := hnul x (List.mem_of_mem_drop (List.mem_of_mem_take hx))
  simpa using this

/-- The function `token_matches_search` on a token whose span lies in the text. -/
theorem token_matches_search_spec (viewer : JsonViewer) (hterm : viewer.search_term ≠ [])
    (hnul : ∀ c ∈ viewer.json_str, c ≠ 0)
    (hspan : ∀ tok ∈ viewer.tokens, 0 ≤ tok.start ∧ tok.end_ ≤ viewer.json_str.length)
    (tok_idx : Nat) (tok : jsmntok_t) (htok : viewer.tokens[tok_idx]? = some tok) :
    ∃ b, token_matches_search viewer tok_idx = .ok b ∧
      (b = true ↔ tok.type ≠ JSMN_OBJECT ∧ tok.type ≠ JSMN_ARRAY ∧
        containsIgnoringCase (rawText viewer.json_str tok) viewer.search_term) := by
  have hread : readTok viewer.tokens tok_idx = .ok tok := by simp [readTok, htok]
  obtain ⟨h0, h1⟩ := hspan tok (List.getElem?_mem htok)
  simp only [token_matches_search, if_neg hterm, hread]
  by_cases hcont : tok.type = JSMN_OBJECT ∨ tok.type = JSMN_ARRAY
  · refine ⟨false, by rw [if_pos hcont], ?_⟩
    simp only [Bool.false_eq_true, false_iff]
    rintro ⟨h2, h3, _⟩
    rcases hcont with h | h
    · exact h2 h
    · exact h3 h
  · rw [if_neg hcont]
    have hcont' : tok.type ≠ JSMN_OBJECT ∧ tok.type ≠ JSMN_ARRAY := by
      constructor <;> intro h <;> simp [h] at hcont
    by_cases hlen : tok.end_ - tok.start ≤ 0
    · refine ⟨false, by rw [if_pos hlen], ?_⟩
      simp only [Bool.false_eq_true, false_iff]
      rintro ⟨_, _, hinf⟩
      have hraw : rawText viewer.json_str tok = [] := by
        unfold rawText
        rw [show (tok.end_ - tok.start).toNat = 0 by omega]
        simp
      rw [hraw] at hinf
      unfold containsIgnoringCase at hinf
      simp at hinf
      exact hterm hinf
    · have hb : ¬ (tok.start < 0 ∨ tok.end_ > (viewer.json_str.length : Int) + 1) := by omega
      refine ⟨(stristr (rawText viewer.json_str tok) viewer.search_term).isSome, ?_, ?_⟩
      · rw [if_neg hlen, if_neg hb, token_text viewer.json_str hnul tok h0 h1 (by omega)]
      · rw [stristr_iff _ _ hterm]
        exact ⟨fun h => ⟨hcont'.1, hcont'.2, h⟩, fun h => h.2.2⟩

theorem take_writeMatch (buf : List Nat) (count v : Nat) (hc : count ≤ buf.length)
    (hm : count < MAX_TOKENS) :
    ∃ buf', writeMatch buf count v = .ok buf' ∧ count + 1 ≤ buf'.length ∧
      buf'.take (count + 1) = buf.take count ++ [v] := by
  unfold writeMatch
  rw [if_pos hm]
  by_cases hlt : count < buf.length
  · refine ⟨buf.set count v, by rw [if_pos hlt], by simp; omega, ?_⟩
    have hsame : (buf.set count v).take count = buf.take count := by
      apply List.ext_getElem?
      intro j
      rw [List.getElem?_take, List.getElem?_take]
      split
      · rw [List.getElem?_set_ne (by omega)]
      · rfl
    rw [List.take_succ, hsame]
    simp [List.getElem?_set, hlt]
  · have he : count = buf.length := by omega
    subst he
    refine ⟨buf ++ [v], by simp, by simp, by simp⟩

theorem matchLoop_spec (viewer : JsonViewer) (m : Nat → Bool) :
    ∀ (rest : List Nat) (i : Nat) (buf : List Nat) (count : Nat),
      (∀ x ∈ rest, token_matches_search viewer x = .ok (m x)) →
      count ≤ buf.length → count + rest.length ≤ MAX_TOKENS →
      ∃ buf' count', matchLoop viewer rest i buf count = .ok (buf', count') ∧
        count' ≤ buf'.length ∧
        buf'.take count' = buf.take count ++ matchPositions m rest i := by
  intro rest
  induction rest with
  | nil =>
    intro i buf count _ hc _
    exact ⟨buf, count, rfl, hc, by simp [matchPositions]⟩
  | cons x xs ih =>
    intro i buf count hm hc hmax
    simp only [List.length_cons] at hmax
    have hx := hm x (List.mem_cons_self _ _)
    have hxs : ∀ y ∈ xs, token_matches_search viewer y = .ok (m y) :=
      fun y hy => hm y (List.mem_cons_of_mem _ hy)
    cases hmx : m x
    · obtain ⟨buf', count', h1, h2, h3⟩ := ih (i + 1) buf count hxs hc (by omega)
      refine ⟨buf', count', ?_, h2, ?_⟩
      · simp only [matchLoop, hx, hmx]; exact h1
      · simp [matchPositions, hmx, h3]
    · obtain ⟨buf1, hw, hl1, ht1⟩ := take_writeMatch buf count i hc (by omega)
      obtain ⟨buf', count', h1, h2, h3⟩ := ih (i + 1) buf1 (count + 1) hxs hl1 (by omega)
      refine ⟨buf', count', ?_, h2, ?_⟩
      · simp only [matchLoop, hx, hmx, hw]; exact h1
      · simp [matchPositions, hmx, h3, ht1]

theorem mem_matchPositions (m : Nat → Bool) :
    ∀ (l : List Nat) (i p : Nat),
      p ∈ matchPositions m l i ↔ ∃ q x, p = i + q ∧ l[q]? = some x ∧ m x = true := by
  intro l
  induction l with
  | nil => intro i p; simp [matchPositions]
  | cons x xs ih =>
    intro i p
    simp only [matchPositions, List.mem_append, ih]
    constructor
    · rintro (h | ⟨q, y, hp, hy, hm⟩)
      · by_cases hmx : m x = true
        · simp only [hmx, if_true, List.mem_singleton] at h
          exact ⟨0, x, by omega, by simp, hmx⟩
        · simp [hmx] at h
      · exact ⟨q + 1, y, by omega, by simpa using hy, hm⟩
    · rintro ⟨q, y, hp, hy, hm⟩
      cases q with
      | zero =>
        simp only [List.getElem?_cons_zero, Option.some.injEq] at hy
        subst hy
        left; simp [hm, hp]
      | succ q =>
        right
        exact ⟨q, y, by omega, by simpa using hy, hm⟩

theorem matchPositions_sorted (m : Nat → Bool) :
    ∀ (l : List Nat) (i : Nat), (matchPositions m l i).Pairwise (fun a b => a < b) := by
  intro l
  induction l with
  | nil => intro i; simp [matchPositions]
  | cons x xs ih =>
    intro i
    simp only [matchPositions]
    rw [List.pairwise_append]
    refine ⟨by split <;> simp, ih (i + 1), ?_⟩
    intro a ha b hb
    have ha' : a = i := by
      split at ha
      · simpa using ha
      · simp at ha
    obtain ⟨q, _, hq, _⟩ := (mem_matchPositions m xs (i + 1) b).mp hb
    omega

theorem build_search_matches_spec (viewer : JsonViewer) (hterm : viewer.search_term ≠ [])
    (hnul : ∀ c ∈ viewer.json_str, c ≠ 0)
    (hspan : ∀ tok ∈ viewer.tokens, 0 ≤ tok.start ∧ tok.end_ ≤ viewer.json_str.length)
    (hidx : ∀ x ∈ viewer.visible_tokens, x < viewer.tokens.length)
    (hV : viewer.visible_tokens.length ≤ MAX_TOKENS) :
    ∃ buf count,
      build_search_matches viewer
        = .ok { viewer with search_matches := buf, search_match_count := count } ∧
      count ≤ buf.length ∧
      (∀ p, p ∈ buf.take count ↔ p < viewer.visible_count ∧ lineMatches viewer p) ∧
      (buf.take count).Pairwise (fun a b => a < b) := by
  let m : Nat → Bool := fun x =>
    match token_matches_search viewer x with
    | .ok b => b
    | .error _ => false
  have hm : ∀ x ∈ viewer.visible_tokens,
      token_matches_search { viewer with search_match_count := 0 } x = .ok (m x) ∧
      (m x = true ↔ ∃ tok, viewer.tokens[x]? = some tok ∧
        tok.type ≠ JSMN_OBJECT ∧ tok.type ≠ JSMN_ARRAY ∧
        containsIgnoringCase (rawText viewer.json_str tok) viewer.search_term) := by
    intro x hx
    have hxl := hidx x hx
    obtain ⟨b, hb, hiff⟩ := token_matches_search_spec viewer hterm hnul hspan x
      viewer.tokens[x] (List.getElem?_eq_getElem hxl)
    have hmx : m x = b := by simp only [m, hb]
    refine ⟨?_, ?_⟩
    · rw [hmx]; exact hb
    · rw [hmx, hiff]
      constructor
      · intro h; exact ⟨viewer.tokens[x], List.getElem?_eq_getElem hxl, h⟩
      · rintro ⟨tok, htok, h⟩
        rw [List.getElem?_eq_getElem hxl] at htok
        injection htok with htok
        rw [htok]; exact h
  obtain ⟨buf, count, hloop, hlen, htake⟩ :=
    matchLoop_spec { viewer with search_match_count := 0 } m viewer.visible_tokens 0
      viewer.search_matches 0 (fun x hx => (hm x hx).1) (Nat.zero_le _) (by omega)
  simp only [List.take_zero, List.nil_append] at htake
  refine ⟨buf, count, ?_, hlen, ?_, ?_⟩
  · simp only [build_search_matches, if_neg hterm, hloop]
  · intro p
    rw [htake, mem_matchPositions]
    constructor
    · rintro ⟨q, x, hp, hx, hmx⟩
      have hpq : p = q := by omega
      subst hpq
      obtain ⟨tok, htok, h⟩ := ((hm x (List.getElem?_mem hx)).2).mp hmx
      exact ⟨(List.getElem?_eq_some.mp hx).1, x, tok, hx, htok, h⟩
    · rintro ⟨_, x, tok, hx, htok, h⟩
      exact ⟨p, x, by omega, hx, ((hm x (List.getElem?_mem hx)).2).mpr ⟨tok, htok, h⟩⟩
  · rw [htake]; exact matchPositions_sorted m _ 0


/-! ## Case-insensitive containment as the specification words it -/

theorem tolower_eq_iff (a b : Nat) : tolower a = tolower b ↔ sameIgnoringCase a b := by
  unfold tolower sameIgnoringCase
  split <;> split <;> omega

theorem map_tolower_eq_iff (term run : List Nat) :
    term.map tolower = run.map tolower ↔ List.Forall₂ sameIgnoringCase term run := by
  rw [← List.forall₂_eq_eq_eq, List.forall₂_map_left_iff, List.forall₂_map_right_iff]
  constructor
  · intro h; exact h.imp (fun _ _ hab => (tolower_eq_iff _ _).mp hab)
  · intro h; exact h.imp (fun _ _ hab => (tolower_eq_iff _ _).mpr hab)

/-- The containment that `stristr` decides, stated through `tolower`, is
case-insensitive containment as the specification words it. -/
theorem containsIgnoringCase_iff (text term : List Nat) :
    containsIgnoringCase text term ↔ occursIgnoringCase text term := by
  unfold containsIgnoringCase occursIgnoringCase
  constructor
  · rintro ⟨s, t, h⟩
    obtain ⟨l₁, post, hl, h1, hpost⟩ := List.map_eq_append_iff.mp h.symm
    obtain ⟨pre, run, hl1, hpre, hrun⟩ := List.map_eq_append_iff.mp h1
    refine ⟨pre, run, post, by rw [hl, hl1], (map_tolower_eq_iff term run).mp hrun.symm⟩
  · rintro ⟨pre, run, post, ht, hf⟩
    refine ⟨pre.map tolower, post.map tolower, ?_⟩
    rw [ht, (map_tolower_eq_iff term run).mpr hf]
    simp

theorem lineMatches_iff (viewer : JsonViewer) (p : Nat) :
    lineMatches viewer p ↔ lineHasTerm viewer p := by
  unfold lineMatches lineHasTerm
  simp only [containsIgnoringCase_iff]

/-- C7: for a session whose visible tokens are valid token indices, whose
token spans lie in the source text and whose visible list fits the buffer,
`build_search_matches` with a non-empty term succeeds and leaves a match list
that contains line position `p` exactly when `p < visible_count`, the token at
line `p` is not an Object or Array and some run of bytes of its raw text
`json[start, end)` agrees with the term byte by byte up to the case of ASCII
letters; the list is strictly ascending.  With the empty term the match list
is empty. -/
theorem build_search_matches_matches (viewer : JsonViewer)
    (hnul : ∀ c ∈ viewer.json_str, c ≠ 0)
    (hspan : ∀ tok ∈ viewer.tokens, 0 ≤ tok.start ∧ tok.end_ ≤ viewer.json_str.length)
    (hidx : ∀ x ∈ viewer.visible_tokens, x < viewer.tokens.length)
    (hV : viewer.visible_tokens.length ≤ MAX_TOKENS) :
    (viewer.search_term ≠ [] →
      ∃ buf count,
        build_search_matches viewer
          = .ok { viewer with search_matches := buf, search_match_count := count } ∧
        (∀ p, p ∈ buf.take count ↔ p < viewer.visible_count ∧ lineHasTerm viewer p) ∧
        (buf.take count).Pairwise (fun a b => a < b)) ∧
    (viewer.search_term = [] →
      build_search_matches viewer = .ok { viewer with search_match_count := 0 }) := by
  constructor
  · intro hterm
    obtain ⟨buf, count, h1, _, h2, h3⟩ :=
      build_search_matches_spec viewer hterm hnul hspan hidx hV
    exact ⟨buf, count, h1, fun p => by rw [h2 p, lineMatches_iff], h3⟩
  · intro hterm
    simp only [build_search_matches, if_pos hterm]

theorem build_search_matches_matches_witness :
    (∀ c ∈ searchSample.json_str, c ≠ 0) ∧
    (∀ tok ∈ searchSample.tokens, 0 ≤ tok.start ∧ tok.end_ ≤ searchSample.json_str.length) ∧
    (∀ x ∈ searchSample.visible_tokens, x < searchSample.tokens.length) ∧
    searchSample.visible_tokens.length ≤ MAX_TOKENS ∧
    searchSample.search_term = [88] ∧
    searchSample.visible_tokens[5]? = some 6 ∧
    (searchSample.tokens[6]?).map (rawText searchSample.json_str) = some [120] ∧
    build_search_matches searchSample
      = .ok { searchSample with search_matches := [5], search_match_count := 1 } ∧
    (∀ p, p ∈ [5] ↔ p < searchSample.visible_count ∧ lineHasTerm searchSample p) := by
  refine ⟨by decide, by decide, by decide, by decide, rfl, rfl, rfl, rfl, ?_⟩
  obtain ⟨buf, count, hb, hmem, _⟩ :=
    (build_search_matches_matches searchSample (by decide) (by decide) (by decide)
      (by decide)).1 (by decide)
  have he : build_search_matches searchSample
      = .ok { searchSample with search_matches := [5], search_match_count := 1 } := rfl
  rw [he] at hb
  injection hb with hb
  have h1 : buf = [5] := (congrArg JsonViewer.search_matches hb).symm
  have h2 : count = 1 := (congrArg JsonViewer.search_match_count hb).symm
  subst h1 h2
  exact hmem

/-! ## Match navigation -/

theorem goto_next_match_eq (viewer : JsonViewer) (hpos : 0 < viewer.search_match_count)
    (hmax : viewer.search_match_count ≤ MAX_TOKENS) (hc0 : 0 ≤ viewer.current_match_idx) :
    goto_next_match viewer = .ok
      { viewer with
        current_match_idx := (viewer.current_match_idx + 1) % viewer.search_match_count
        current_line := (viewer.search_matches.getD
          ((viewer.current_match_idx + 1) % viewer.search_match_count).toNat 0 : Nat) } := by
  have hm : (viewer.search_match_count : Int) ≠ 0 := by omega
  have htm : (viewer.current_match_idx + 1).tmod viewer.search_match_count
      = (viewer.current_match_idx + 1) % viewer.search_match_count :=
    Int.tmod_eq_emod (by omega) (by omega)
  have h1 := Int.emod_nonneg (viewer.current_match_idx + 1) hm
  have h2 := Int.emod_lt_of_pos (viewer.current_match_idx + 1)
    (show (0 : Int) < viewer.search_match_count by omega)
  have hr : readMatch viewer.search_matches
      ((viewer.current_match_idx + 1) % viewer.search_match_count)
      = .ok (viewer.search_matches.getD
          ((viewer.current_match_idx + 1) % viewer.search_match_count).toNat 0) := by
    unfold readMatch
    rw [if_pos ⟨h1, by omega⟩]
  simp only [goto_next_match, if_neg (show ¬ viewer.search_match_count = 0 by omega), htm, hr]

theorem goto_prev_match_eq (viewer : JsonViewer) (hpos : 0 < viewer.search_match_count)
    (hmax : viewer.search_match_count ≤ MAX_TOKENS) (hc0 : 0 ≤ viewer.current_match_idx)
    (hc1 : viewer.current_match_idx < viewer.search_match_count) :
    goto_prev_match viewer = .ok
      { viewer with
        current_match_idx :=
          (viewer.current_match_idx - 1 + viewer.search_match_count) % viewer.search_match_count
        current_line := (viewer.search_matches.getD
          ((viewer.current_match_idx - 1 + viewer.search_match_count)
            % viewer.search_match_count).toNat 0 : Nat) } := by
  have hidx : (if viewer.current_match_idx - 1 < 0 then (viewer.search_match_count : Int) - 1
        else viewer.current_match_idx - 1)
      = (viewer.current_match_idx - 1 + viewer.search_match_count)
          % viewer.search_match_count := by
    split
    · have : viewer.current_match_idx = 0 := by omega
      rw [this]
      simp only [zero_sub, neg_add_cancel_comm]
      rw [show (-1 + (viewer.search_match_count : Int)) = (viewer.search_match_count : Int) - 1
        by omega]
      exact (Int.emod_eq_of_lt (by omega) (by omega)).symm
    · rw [Int.add_emod_self]
      exact (Int.emod_eq_of_lt (by omega) (by omega)).symm
  have hm : (viewer.search_match_count : Int) ≠ 0 := by omega
  have h1 := Int.emod_nonneg (viewer.current_match_idx - 1 + viewer.search_match_count) hm
  have h2 := Int.emod_lt_of_pos (viewer.current_match_idx - 1 + viewer.search_match_count)
    (show (0 : Int) < viewer.search_match_count by omega)
  have hr : readMatch viewer.search_matches
      ((viewer.current_match_idx - 1 + viewer.search_match_count) % viewer.search_match_count)
      = .ok (viewer.search_matches.getD
          ((viewer.current_match_idx - 1 + viewer.search_match_count)
            % viewer.search_match_count).toNat 0) := by
    unfold readMatch
    rw [if_pos ⟨h1, by omega⟩]
  simp only [goto_prev_match, if_neg (show ¬ viewer.search_match_count = 0 by omega), hidx, hr]

theorem repeatNext_cursor :
    ∀ (n : Nat) (viewer : JsonViewer), 0 < viewer.search_match_count →
      viewer.search_match_count ≤ MAX_TOKENS → 0 ≤ viewer.current_match_idx →
      viewer.current_match_idx < viewer.search_match_count →
      ∃ v, repeatNext n viewer = .ok v ∧
        v.search_match_count = viewer.search_match_count ∧
        v.current_match_idx = (viewer.current_match_idx + n) % viewer.search_match_count := by
  intro n
  induction n with
  | zero =>
    intro viewer _ _ h0 h1
    exact ⟨viewer, rfl, rfl, by simpa using (Int.emod_eq_of_lt h0 h1).symm⟩
  | succ n ih =>
    intro viewer hpos hmax hc0 hc1
    have hnext := goto_next_match_eq viewer hpos hmax hc0
    have hm : (viewer.search_match_count : Int) ≠ 0 := by omega
    have h1 := Int.emod_nonneg (viewer.current_match_idx + 1) hm
    have h2 := Int.emod_lt_of_pos (viewer.current_match_idx + 1)
      (show (0 : Int) < viewer.search_match_count by omega)
    obtain ⟨v, hv, hcnt, hidx⟩ := ih
      { viewer with
        current_match_idx := (viewer.current_match_idx + 1) % viewer.search_match_count
        current_line := (viewer.search_matches.getD
          ((viewer.current_match_idx + 1) % viewer.search_match_count).toNat 0 : Nat) }
      hpos hmax h1 h2
    refine ⟨v, by simp only [repeatNext, hnext]; exact hv, hcnt, ?_⟩
    rw [hidx]
    simp only [Int.emod_add_emod, Nat.cast_add, Nat.cast_one]
    congr 1; omega

/-- C8: with a match list of length `m > 0` (in the buffer of `MAX_TOKENS`
entries) and the cursor `c` in `[0, m)`, one `goto_next_match` sets the cursor
to `(c + 1) mod m`, one `goto_prev_match` sets it to `(c - 1 + m) mod m`, which
is `m - 1` when `c = 0`, and `m` calls of `goto_next_match` return it to
`c`. -/
theorem match_cursor_cyclic (viewer : JsonViewer) (hpos : 0 < viewer.search_match_count)
    (hmax : viewer.search_match_count ≤ MAX_TOKENS) (hc0 : 0 ≤ viewer.current_match_idx)
    (hc1 : viewer.current_match_idx < viewer.search_match_count) :
    (∃ v, goto_next_match viewer = .ok v ∧
      v.current_match_idx = (viewer.current_match_idx + 1) % viewer.search_match_count) ∧
    (∃ v, goto_prev_match viewer = .ok v ∧
      v.current_match_idx
        = (viewer.current_match_idx - 1 + viewer.search_match_count)
            % viewer.search_match_count ∧
      (viewer.current_match_idx = 0 →
        v.current_match_idx = (viewer.search_match_count : Int) - 1)) ∧
    (∃ v, repeatNext viewer.search_match_count viewer = .ok v ∧
      v.current_match_idx = viewer.current_match_idx) := by
  refine ⟨⟨_, goto_next_match_eq viewer hpos hmax hc0, rfl⟩,
    ⟨_, goto_prev_match_eq viewer hpos hmax hc0 hc1, rfl, ?_⟩, ?_⟩
  · intro h0
    simp only [h0, zero_sub]
    rw [show (-1 + (viewer.search_match_count : Int)) = (viewer.search_match_count : Int) - 1
      by omega]
    exact Int.emod_eq_of_lt (by omega) (by omega)
  · obtain ⟨v, hv, _, hidx⟩ :=
      repeatNext_cursor viewer.search_match_count viewer hpos hmax hc0 hc1
    refine ⟨v, hv, ?_⟩
    rw [hidx, Int.add_emod_self]
    exact Int.emod_eq_of_lt hc0 hc1

theorem match_cursor_cyclic_witness :
    0 < navSample.search_match_count ∧ navSample.search_match_count ≤ MAX_TOKENS ∧
    0 ≤ navSample.current_match_idx ∧
    navSample.current_match_idx < navSample.search_match_count ∧
    (∃ v, goto_next_match navSample = .ok v ∧
      v.current_match_idx = (navSample.current_match_idx + 1) % navSample.search_match_count) ∧
    (∃ v, goto_prev_match navSample = .ok v ∧
      v.current_match_idx
        = (navSample.current_match_idx - 1 + navSample.search_match_count)
            % navSample.search_match_count ∧
      (navSample.current_match_idx = 0 →
        v.current_match_idx = (navSample.search_match_count : Int) - 1)) ∧
    (∃ v, repeatNext navSample.search_match_count navSample = .ok v ∧
      v.current_match_idx = navSample.current_match_idx) :=
  ⟨by decide, by decide, by decide, by decide,
    match_cursor_cyclic navSample (by decide) (by decide) (by decide) (by decide)⟩

/-! ## A stale match cursor, and the empty document -/

/-- C9 (the code departs from the claim): on the document `["a",["a","a"]]`,
after searching for `a`, stepping to the third match and collapsing the inner
array, the match list rebuilt at the top of the next pass has one entry while
the cursor is still 2; `goto_prev_match` then leaves the cursor at 1, outside
`[0, 1)`, and sets the current line to the stale buffer entry 3, which is not a
line of the three visible lines. -/
theorem goto_prev_match_stale_cursor :
    nestedDoc.wellFormed = true ∧
    ∃ v0 v8 v9,
      viewer_init nestedText 5 nestedDoc.flatten = .ok (some v0) ∧
      playKeys 24 80 9 v0 staleCursorKeys = .ok (some v8) ∧
      viewer_cycle v8 24 80 [78] = .ok (some (v9, true, [])) ∧
      v9.search_match_count = 1 ∧ v9.current_match_idx = 1 ∧
      v9.current_line = 3 ∧ v9.visible_count = 3 :=
  ⟨by decide, _, _, _, rfl, rfl, rfl, rfl, rfl, rfl, rfl⟩

/-- C10 (the code departs from the claim): `viewer_init` reports failure
exactly when the tokenizer returns a negative count; with zero tokens it does
not fail but goes on to `calculate_depths`, whose first statement writes
`depths[0]` in an array of zero entries. -/
theorem viewer_init_zero_tokens :
    (∀ json_str parsed tokens, viewer_init json_str parsed tokens = .ok none ↔ parsed < 0) ∧
    viewer_init [] 0 [] = .error .outOfBounds ∧
    calculate_depths [] 0 [] = .error .outOfBounds := by
  refine ⟨?_, rfl, rfl⟩
  intro json_str parsed tokens
  unfold viewer_init
  by_cases h : parsed < 0
  · simp [h]
  · simp only [if_neg h, h, iff_false]
    cases calculate_depths tokens parsed.toNat (List.replicate parsed.toNat 0) <;> simp

/-! ## The claims on the scenario document and on completeness -/

/-- C11 (counterexample): for `{"name":"Alice","tags":["x","y"],"age":30}` with
nothing collapsed the visible list built at the top of the first pass has seven
lines, not five: it is neither the five lines name, tags, `x`, `y`, age with the
tags line read as the key token nor with the tags line read as the array
token. -/
theorem alice_not_five_lines :
    aliceDoc.wellFormed = true ∧
    ∃ v0 v, viewer_init aliceText 9 aliceDoc.flatten = .ok (some v0) ∧
      v0.collapsed = [0, 0, 0, 0, 0, 0, 0, 0, 0] ∧
      refresh_view v0 24 80 = .ok v ∧
      v.visible_count = 7 ∧ v.visible_count ≠ 5 ∧
      v.visible_tokens ≠ [1, 3, 5, 6, 7] ∧ v.visible_tokens ≠ [1, 4, 5, 6, 7] :=
  ⟨by decide, _, _, rfl, rfl, rfl, rfl, by decide, by decide, by decide⟩

/-- C11 (amended): for `{"name":"Alice","tags":["x","y"],"age":30}` with nothing
collapsed the visible lines are, in order, exactly seven: the root object
(3 items), `name` with `Alice` inline, `tags` with the summary of its 2-item
array, the 2-item array itself, `x`, `y`, and `age` with `30` inline. -/
theorem alice_seven_lines :
    ∃ v0 v, viewer_init aliceText 9 aliceDoc.flatten = .ok (some v0) ∧
      v0.collapsed = [0, 0, 0, 0, 0, 0, 0, 0, 0] ∧
      refresh_view v0 24 80 = .ok v ∧
      v.visible_tokens = [0, 1, 3, 4, 5, 6, 7] ∧
      v.visible_tokens.map (display_line v) =
        [.ok (0, .container 0 JSMN_OBJECT 3 false),
         .ok (4, .keyValue 1 2),
         .ok (4, .keyContainer 3 4 JSMN_ARRAY 2 false),
         .ok (4, .container 4 JSMN_ARRAY 2 false),
         .ok (8, .value 5),
         .ok (8, .value 6),
         .ok (4, .keyValue 7 8)] :=
  ⟨_, _, rfl, rfl, rfl, rfl, rfl⟩

/-- C12 (counterexample): in `{"a":1,"b":[2,"x"]}` with nothing collapsed the
token of the value `1` has no collapsed proper ancestor, yet it does not appear
in the visible list. -/
theorem member_value_not_visible :
    sampleDoc.wellFormed = true ∧
    ∃ v, build_visible_tokens (sampleViewer [0, 0, 0, 0, 0, 0, 0]) 0 0 = .ok v ∧
      hasCollapsedAncestor sampleDoc.flatten [0, 0, 0, 0, 0, 0, 0] 2 = false ∧
      v.visible_tokens.count 2 = 0 ∧ v.visible_tokens.count 2 ≠ 1 :=
  ⟨by decide, _, rfl, by decide, by decide, by decide⟩

theorem count_expectedVisible (doc : Forest) (collapsed : List Int) (t : Nat) :
    (expectedVisible doc collapsed).count t
      = if t < doc.size ∧ hasCollapsedAncestor doc.flatten collapsed t = false ∧
          isInlineValue doc.flatten (doc.roles .elem) t = false then 1 else 0 := by
  have hnd : (expectedVisible doc collapsed).Nodup := by
    unfold expectedVisible
    exact List.Nodup.filter _ (List.nodup_range _)
  split
  · next h => exact List.count_eq_one_of_mem hnd ((mem_expectedVisible doc collapsed t).mpr h)
  · next h =>
    exact List.count_eq_zero_of_not_mem (fun hm => h ((mem_expectedVisible doc collapsed t).mp hm))

/-- C12 (amended): for a well-formed document of at most `MAX_TOKENS` tokens
and every CollapseState, every token with no collapsed proper ancestor that is
not a String or Primitive value of an Object member appears in the visible list
exactly once; a String or Primitive member value, and a token with a collapsed
proper ancestor, does not appear. -/
theorem reachable_tokens_appear_once (doc : Forest) (hwf : doc.wellFormed = true)
    (viewer : JsonViewer) (htok : viewer.tokens = doc.flatten)
    (hcount : viewer.token_count = doc.size) (hcl : viewer.collapsed.length = doc.size)
    (hmax : doc.size ≤ MAX_TOKENS) (hvis : viewer.visible_tokens = []) :
    ∃ vis, build_visible_tokens viewer 0 0 = .ok { viewer with visible_tokens := vis } ∧
      ∀ t, t < doc.size →
        (hasCollapsedAncestor doc.flatten viewer.collapsed t = false →
          isInlineValue doc.flatten (doc.roles .elem) t = false → vis.count t = 1) ∧
        (isInlineValue doc.flatten (doc.roles .elem) t = true → vis.count t = 0) ∧
        (hasCollapsedAncestor doc.flatten viewer.collapsed t = true → vis.count t = 0) := by
  refine ⟨expectedVisible doc viewer.collapsed,
    build_visible_tokens_doc doc hwf viewer htok hcount hcl hmax hvis 0, ?_⟩
  intro t ht
  rw [count_expectedVisible]
  refine ⟨fun h1 h2 => by simp [ht, h1, h2], fun h => by simp [h], fun h => by simp [h]⟩

theorem reachable_tokens_appear_once_witness :
    sampleDoc.wellFormed = true ∧
    ∃ vis, build_visible_tokens (sampleViewer [0, 0, 0, 0, 1, 0, 0]) 0 0
        = .ok { sampleViewer [0, 0, 0, 0, 1, 0, 0] with visible_tokens := vis } ∧
      ∀ t, t < sampleDoc.size →
        (hasCollapsedAncestor sampleDoc.flatten (sampleViewer [0, 0, 0, 0, 1, 0, 0]).collapsed t
            = false →
          isInlineValue sampleDoc.flatten (sampleDoc.roles .elem) t = false →
          vis.count t = 1) ∧
        (isInlineValue sampleDoc.flatten (sampleDoc.roles .elem) t = true →
          vis.count t = 0) ∧
        (hasCollapsedAncestor sampleDoc.flatten (sampleViewer [0, 0, 0, 0, 1, 0, 0]).collapsed t
            = true → vis.count t = 0) :=
  ⟨by decide, reachable_tokens_appear_once sampleDoc (by decide)
    (sampleViewer [0, 0, 0, 0, 1, 0, 0]) rfl rfl rfl (by decide) rfl⟩

/-! ## Repeated skipping over the children of a container -/

/-- Skipping once per root of a forest that sits at index `pre.length` ends
right after the forest, and every intermediate index is a root of the forest
that starts at or after the end of every token of the forest before it. -/
theorem iterSkip_forest (F : Forest) :
    ∀ (lo hi : Int) (tokens pre post : List jsmntok_t),
      tokens = pre ++ (F.flatten ++ post) → F.shape = true → F.spans lo hi = true →
      iterSkip tokens tokens.length F.roots pre.length = .ok (pre.length + F.size) ∧
      ∀ j, j < F.roots → ∃ m x,
        iterSkip tokens tokens.length j pre.length = .ok m ∧
        pre.length ≤ m ∧ m < pre.length + F.size ∧ tokens[m]? = some x ∧
        lo ≤ x.start ∧ x.start ≤ x.end_ ∧ x.end_ ≤ hi ∧
        ∀ i y, pre.length ≤ i → i < m → tokens[i]? = some y → y.end_ ≤ x.start := by
  induction F with
  | nil =>
    intro lo hi tokens pre post _ _ _
    exact ⟨by simp [Forest.roots, Forest.size, iterSkip], fun j hj => by simp [Forest.roots] at hj⟩
  | cons t k r ihk ihr =>
    intro lo hi tokens pre post hts hshape hspans
    obtain ⟨hnode, hk, hr⟩ := Forest.shape_cons hshape
    obtain ⟨h1, h2, h3, h4, h5⟩ := Forest.spans_cons hspans
    have hts1 : tokens = pre ++ (t :: k.flatten ++ (r.flatten ++ post)) := by
      rw [hts]; simp [Forest.flatten]
    have htb : tokens[pre.length]? = some t := by rw [hts1]; exact getElem?_here _ _ _
    have hskip : skip_token tokens pre.length tokens.length = .ok (pre.length + 1 + k.size) :=
      skip_token_tree t k tokens pre (r.flatten ++ post) hts1
        (by simp [Forest.shape, hnode, hk])
    obtain ⟨hall, hroots⟩ := ihr t.end_ hi tokens (pre ++ t :: k.flatten) post
      (by rw [hts]; simp [Forest.flatten]) hr h5
    have hlen : (pre ++ t :: k.flatten).length = pre.length + 1 + k.size := by
      simp [Forest.length_flatten]; omega
    rw [hlen] at hall hroots
    constructor
    · simp only [Forest.roots, iterSkip, hskip, hall, Forest.size]
      congr 1; omega
    · intro j hj
      cases j with
      | zero =>
        exact ⟨pre.length, t, rfl, le_refl _, by simp [Forest.size], htb, h1, h2, h3,
          fun i y hi1 hi2 => by omega⟩
      | succ j =>
        simp only [Forest.roots] at hj
        obtain ⟨m, x, hm, hm1, hm2, hx, hx1, hx2, hx3, hbefore⟩ := hroots j (by omega)
        refine ⟨m, x, by simp only [iterSkip, hskip]; exact hm, by omega,
          by simp only [Forest.size]; omega, hx, by omega, hx2, hx3, ?_⟩
        intro i y hi1 hi2 hy
        by_cases hik : i < pre.length + 1 + k.size
        · by_cases hib : i = pre.length
          · subst hib
            rw [htb] at hy; injection hy with hy; subst hy; omega
          · obtain ⟨z, hz, hzm⟩ := getElem?_mid pre t k.flatten (r.flatten ++ post) i
              (by omega) (by rw [Forest.length_flatten]; omega)
            rw [← hts1, hy] at hz
            injection hz with hz; subst hz
            have := Forest.spans_bounds k _ _ h4 y hzm
            omega
        · exact hbefore i y (by omega) hi2 hy

/-- C13: on the token array of a well-formed document, for a container token
`c` with `n` child slots (`size`, doubled for an Object), `n` applications of
`skip_token` starting at `c + 1` give exactly `skip_token(c)`, and the index
before each application is an immediate child of `c` per I1. -/
theorem skip_token_over_children (doc : Forest) (hwf : doc.wellFormed = true) (c : Nat)
    (tok : jsmntok_t) (htok : doc.flatten[c]? = some tok)
    (hcont : tok.type = JSMN_OBJECT ∨ tok.type = JSMN_ARRAY) :
    ∃ r, skip_token doc.flatten c doc.size = .ok r ∧
      iterSkip doc.flatten doc.size
        (if tok.type = JSMN_OBJECT then tok.size * 2 else tok.size).toNat (c + 1) = .ok r ∧
      ∀ j, j < (if tok.type = JSMN_OBJECT then tok.size * 2 else tok.size).toNat →
        ∃ m, iterSkip doc.flatten doc.size j (c + 1) = .ok m ∧ isChild doc.flatten c m := by
  obtain ⟨t0, k0, hF, hshape, hspans⟩ := Forest.wellFormed_iff doc hwf
  have hc : c < doc.size := by
    have := (List.getElem?_eq_some.mp htok).1
    rwa [Forest.length_flatten] at this
  obtain ⟨pre, t, k, post, hfl, hpre, hsh, hsp, hlo, hmid, hhi, hpost⟩ :=
    Forest.locate doc _ _ hshape hspans c hc
  have hti : doc.flatten[c]? = some t := by rw [hfl, ← hpre]; exact getElem?_here _ _ _
  rw [hti] at htok
  injection htok with htok
  subst htok
  obtain ⟨hnode, hk, _⟩ := Forest.shape_cons hsh
  have hn : (if t.type = JSMN_OBJECT then t.size * 2 else t.size).toNat = k.roots := by
    obtain ⟨hobj, harr, _⟩ := Forest.children_of_nodeOk t k hnode
    rcases hcont with h | h
    · rw [if_pos h]; exact (hobj h).1
    · rw [if_neg (by rw [h]; simp)]; exact harr h
  have hskip := skip_token_tree t k doc.flatten pre post hfl hsh
  rw [Forest.length_flatten, hpre] at hskip
  obtain ⟨hall, hroots⟩ := iterSkip_forest k (t.start + 1) (t.end_ - 1) doc.flatten (pre ++ [t])
    post (by rw [hfl]; simp) hk hsp
  simp only [List.length_append, List.length_singleton, Forest.length_flatten, hpre]
    at hall hroots
  refine ⟨c + 1 + k.size, hskip, by rw [hn]; exact hall, ?_⟩
  intro j hj
  obtain ⟨m, x, hm, hm1, hm2, hx, hx1, hx2, hx3, hbefore⟩ := hroots j (by omega)
  refine ⟨m, hm, ?_, ?_⟩
  · simp only [isAncestor, hti, hx, Bool.and_eq_true, decide_eq_true_eq]
    omega
  · intro i hi1 hi2
    cases hy : doc.flatten[i]? with
    | none => simp [isAncestor, hy]
    | some y =>
      have := hbefore i y (by omega) hi2 hy
      simp only [isAncestor, hy, hx]
      simp; intro _ _; omega

theorem skip_token_over_children_witness :
    sampleDoc.wellFormed = true ∧
    sampleDoc.flatten[0]? = some ⟨JSMN_OBJECT, 0, 19, 2⟩ ∧
    ∃ r, skip_token sampleDoc.flatten 0 sampleDoc.size = .ok r ∧
      iterSkip sampleDoc.flatten sampleDoc.size
        (if (⟨JSMN_OBJECT, 0, 19, 2⟩ : jsmntok_t).type = JSMN_OBJECT
          then (⟨JSMN_OBJECT, 0, 19, 2⟩ : jsmntok_t).size * 2
          else (⟨JSMN_OBJECT, 0, 19, 2⟩ : jsmntok_t).size).toNat (0 + 1) = .ok r ∧
      ∀ j, j < (if (⟨JSMN_OBJECT, 0, 19, 2⟩ : jsmntok_t).type = JSMN_OBJECT
          then (⟨JSMN_OBJECT, 0, 19, 2⟩ : jsmntok_t).size * 2
          else (⟨JSMN_OBJECT, 0, 19, 2⟩ : jsmntok_t).size).toNat →
        ∃ m, iterSkip sampleDoc.flatten sampleDoc.size j (0 + 1) = .ok m ∧
          isChild sampleDoc.flatten 0 m :=
  ⟨by decide, rfl, skip_token_over_children sampleDoc (by decide) 0 ⟨JSMN_OBJECT, 0, 19, 2⟩ rfl
    (Or.inl rfl)⟩

/-! ## skip_token on arbitrary token arrays, and navigation without matches -/

theorem skipLoop_congr (f g : Nat → Except Fault Nat) (count : Nat)
    (h : ∀ x, x < count → f x = g x) :
    ∀ n next, skipLoop f count n next = skipLoop g count n next := by
  intro n
  induction n with
  | zero => intro next; rfl
  | succ n ih =>
    intro next
    by_cases hlt : next < count
    · simp only [skipLoop, if_pos hlt, h next hlt]
      cases g next with
      | error e => rfl
      | ok v => exact ih v
    · simp only [skipLoop, if_neg hlt]

theorem skipFuel_take (tokens : List jsmntok_t) (count : Nat) :
    ∀ fuel idx, idx < count →
      skipFuel (tokens.take count) count fuel idx = skipFuel tokens count fuel idx := by
  intro fuel
  induction fuel with
  | zero => intro idx _; rfl
  | succ fuel ih =>
    intro idx hidx
    have hread : readTok (tokens.take count) idx = readTok tokens idx := by
      simp only [readTok, List.getElem?_take, if_pos hidx]
    simp only [skipFuel, hread]
    cases readTok tokens idx with
    | error e => rfl
    | ok tok =>
      simp only []
      split
      · exact skipLoop_congr _ _ count (fun x hx => ih x hx) _ _
      · rfl

/-- C14: for every token array, whatever its kinds and declared sizes within
the range in which the `int` product `size * 2` of main.c 68 cannot overflow
(sizes from `-2^30` up to, not including, `2^30`; sizes larger than the tokens
present included), and every index `i` below `token_count`, `skip_token`
returns (the recursion bound of the model is not reached and no read is out of
bounds) an index `r` with `i < r <= token_count`, and it returns the same on
the array cut after `token_count` tokens, where a read at or past
`token_count` would be a fault.  Every doubled size is an `int`, so the
product of the model is the product of the program. -/
theorem skip_token_in_bounds (tokens : List jsmntok_t) (count : Nat)
    (hc : count ≤ tokens.length)
    (hsize : ∀ tok ∈ tokens, -1073741824 ≤ tok.size ∧ tok.size < 1073741824)
    (i : Nat) (hi : i < count) :
    (∃ r, skip_token tokens i count = .ok r ∧
      skip_token (tokens.take count) i count = .ok r ∧ i < r ∧ r ≤ count) ∧
    (∀ tok ∈ tokens, -2147483648 ≤ tok.size * 2 ∧ tok.size * 2 < 2147483648) := by
  constructor
  · obtain ⟨r, hr, h1, h2⟩ := skip_token_total tokens count hc i hi
    refine ⟨r, hr, ?_, h1, h2⟩
    unfold skip_token at hr ⊢
    rw [skipFuel_take tokens count (count + 1) i hi, hr]
  · intro tok htok
    have := hsize tok htok
    omega

theorem skip_token_in_bounds_witness :
    2 ≤ [(⟨JSMN_OBJECT, 0, 9, 40⟩ : jsmntok_t), ⟨JSMN_ARRAY, 1, 8, 7⟩,
        ⟨JSMN_STRING, 2, 3, 5⟩].length ∧
    (∀ tok ∈ [(⟨JSMN_OBJECT, 0, 9, 40⟩ : jsmntok_t), ⟨JSMN_ARRAY, 1, 8, 7⟩,
        ⟨JSMN_STRING, 2, 3, 5⟩], -1073741824 ≤ tok.size ∧ tok.size < 1073741824) ∧
    0 < 2 ∧
    ∃ r, skip_token [⟨JSMN_OBJECT, 0, 9, 40⟩, ⟨JSMN_ARRAY, 1, 8, 7⟩, ⟨JSMN_STRING, 2, 3, 5⟩] 0 2
        = .ok r ∧
      skip_token ([(⟨JSMN_OBJECT, 0, 9, 40⟩ : jsmntok_t), ⟨JSMN_ARRAY, 1, 8, 7⟩,
        ⟨JSMN_STRING, 2, 3, 5⟩].take 2) 0 2 = .ok r ∧ 0 < r ∧ r ≤ 2 :=
  ⟨by decide, by decide, by decide,
    (skip_token_in_bounds [⟨JSMN_OBJECT, 0, 9, 40⟩, ⟨JSMN_ARRAY, 1, 8, 7⟩,
      ⟨JSMN_STRING, 2, 3, 5⟩] 2 (by decide) (by decide) 0 (by decide)).1⟩

/-- C15: when the match list is empty (`search_match_count` is 0),
`goto_next_match` and `goto_prev_match` return with the whole state, cursor,
current line, scroll offset, term, collapse flags and visible list included,
as it was. -/
theorem goto_match_without_matches (viewer : JsonViewer)
    (h : viewer.search_match_count = 0) :
    goto_next_match viewer = .ok viewer ∧ goto_prev_match viewer = .ok viewer := by
  simp [goto_next_match, goto_prev_match, h]

theorem goto_match_without_matches_witness :
    (sampleViewer [0, 0, 0, 0, 0, 0, 0]).search_match_count = 0 ∧
    goto_next_match (sampleViewer [0, 0, 0, 0, 0, 0, 0])
      = .ok (sampleViewer [0, 0, 0, 0, 0, 0, 0]) ∧
    goto_prev_match (sampleViewer [0, 0, 0, 0, 0, 0, 0])
      = .ok (sampleViewer [0, 0, 0, 0, 0, 0, 0]) :=
  ⟨rfl, goto_match_without_matches (sampleViewer [0, 0, 0, 0, 0, 0, 0]) rfl⟩

/-! ## The current line and the scroll offset -/

theorem display_json_frame (viewer : JsonViewer) (rows cols : Int) :
    (display_json viewer rows cols).current_line = viewer.current_line ∧
    (display_json viewer rows cols).visible_tokens = viewer.visible_tokens ∧
    (display_json viewer rows cols).tokens = viewer.tokens ∧
    (display_json viewer rows cols).collapsed = viewer.collapsed ∧
    (display_json viewer rows cols).token_count = viewer.token_count := by
  unfold display_json
  simp only []
  split <;> split <;> simp

theorem build_search_matches_frame (viewer v : JsonViewer)
    (h : build_search_matches viewer = .ok v) :
    v = { viewer with search_matches := v.search_matches,
                      search_match_count := v.search_match_count } := by
  unfold build_search_matches at h
  simp only [] at h
  split at h
  · injection h with h; subst h; rfl
  · split at h
    · cases h
    · injection h with h; subst h; rfl

theorem build_visible_tokens_frame (viewer v : JsonViewer) (i d : Nat)
    (h : build_visible_tokens viewer i d = .ok v) :
    v = { viewer with visible_tokens := v.visible_tokens } := by
  unfold build_visible_tokens at h
  split at h
  · cases h
  · injection h with h; subst h; rfl

/-- What `refresh_view` leaves as it was, and the current line it leaves. -/
theorem refresh_view_frame (viewer v : JsonViewer) (rows cols : Int)
    (h : refresh_view viewer rows cols = .ok v) :
    v.tokens = viewer.tokens ∧ v.collapsed = viewer.collapsed ∧
    v.token_count = viewer.token_count ∧
    v.current_line =
      (if (if viewer.current_line ≥ (v.visible_count : Int) then (v.visible_count : Int) - 1
            else viewer.current_line) < 0 then 0
       else if viewer.current_line ≥ (v.visible_count : Int) then (v.visible_count : Int) - 1
            else viewer.current_line) := by
  unfold refresh_view at h
  cases hb : build_visible_tokens { viewer with visible_tokens := [] } 0 0 with
  | error e => simp [hb] at h
  | ok v1 =>
    have hf1 := build_visible_tokens_frame _ v1 0 0 hb
    simp only [hb] at h
    cases hs : (if v1.search_term ≠ [] then build_search_matches v1 else .ok v1) with
    | error e => simp [hs] at h
    | ok v2 =>
      have hf2 : v2 = { v1 with search_matches := v2.search_matches,
                                search_match_count := v2.search_match_count } := by
        split at hs
        · exact build_search_matches_frame v1 v2 hs
        · injection hs with hs; subst hs; rfl
      simp only [hs] at h
      injection h with h
      obtain ⟨d1, d2, d3, d4, d5⟩ := display_json_frame
        (if (if v2.current_line ≥ (v2.visible_count : Int) then
              { v2 with current_line := (v2.visible_count : Int) - 1 } else v2).current_line < 0
         then { (if v2.current_line ≥ (v2.visible_count : Int) then
              { v2 with current_line := (v2.visible_count : Int) - 1 } else v2) with
              current_line := 0 }
         else (if v2.current_line ≥ (v2.visible_count : Int) then
              { v2 with current_line := (v2.visible_count : Int) - 1 } else v2)) rows cols
      rw [h] at d1 d2 d3 d4 d5
      have e1 : v2.tokens = viewer.tokens := by rw [hf2, hf1]
      have e2 : v2.collapsed = viewer.collapsed := by rw [hf2, hf1]
      have e3 : v2.token_count = viewer.token_count := by rw [hf2, hf1]
      have e4 : v2.current_line = viewer.current_line := by rw [hf2, hf1]
      have e5 : v.visible_count = v2.visible_count := by
        unfold JsonViewer.visible_count
        rw [d2]; split <;> split <;> rfl
      refine ⟨?_, ?_, ?_, ?_⟩
      · rw [d3, ← e1]; split <;> split <;> rfl
      · rw [d4, ← e2]; split <;> split <;> rfl
      · rw [d5, ← e3]; split <;> split <;> rfl
      · rw [d1, e5, ← e4]
        by_cases c1 : v2.current_line ≥ (v2.visible_count : Int)
        · simp only [if_pos c1]
          by_cases c2 : (v2.visible_count : Int) - 1 < 0
          · simp only [if_pos c2]
          · simp only [if_neg c2]
        · simp only [if_neg c1]
          by_cases c2 : v2.current_line < 0
          · simp only [if_pos c2]
          · simp only [if_neg c2]

theorem get_token_for_line_nonneg (v : JsonViewer) (h0 : 0 ≤ v.current_line)
    (h1 : v.current_line ≤ (v.visible_count : Int) - 1) :
    ∃ tok_idx : Nat, get_token_for_line v v.current_line = (tok_idx : Int) ∧
      v.visible_tokens[v.current_line.toNat]? = some tok_idx := by
  have hlt : v.current_line.toNat < v.visible_tokens.length := by
    unfold JsonViewer.visible_count at h1; omega
  refine ⟨v.visible_tokens[v.current_line.toNat], ?_, List.getElem?_eq_getElem hlt⟩
  unfold get_token_for_line
  rw [if_neg (by omega)]
  simp [List.getD_eq_getElem?_getD, List.getElem?_eq_getElem hlt]

theorem refresh_view_line (viewer v : JsonViewer) (rows cols : Int)
    (h : refresh_view viewer rows cols = .ok v) (hvis : 1 ≤ v.visible_count) :
    0 ≤ v.current_line ∧ v.current_line ≤ (v.visible_count : Int) - 1 := by
  have hl := (refresh_view_frame viewer v rows cols h).2.2.2
  rw [hl]
  constructor <;> split <;> split <;> omega

/-- C16: in a state `v` in which a frame is drawn and the next key is read
(the result of `refresh_view`) with at least one visible line,
`0 <= current_line <= visible_count - 1`; whatever key is handled next, at
whatever terminal size, the same holds in the state in which the next frame is
drawn; line down on the last line and line up on line 0 leave the whole state
as it was. -/
theorem current_line_in_range (viewer v : JsonViewer) (rows cols : Int)
    (hdraw : refresh_view viewer rows cols = .ok v) (hvis : 1 ≤ v.visible_count) :
    (0 ≤ v.current_line ∧ v.current_line ≤ (v.visible_count : Int) - 1) ∧
    (∀ (ch : Int) (rest rest' : List Int) (running : Bool) (v' v'' : JsonViewer)
        (rows' cols' : Int),
      handle_key v ch rest = .ok (some (v', running, rest')) →
      refresh_view v' rows' cols' = .ok v'' → 1 ≤ v''.visible_count →
      0 ≤ v''.current_line ∧ v''.current_line ≤ (v''.visible_count : Int) - 1) ∧
    (v.current_line = (v.visible_count : Int) - 1 → ∀ rest,
      handle_key v 106 rest = .ok (some (v, true, rest)) ∧
      handle_key v KEY_DOWN rest = .ok (some (v, true, rest))) ∧
    (v.current_line = 0 → ∀ rest,
      handle_key v 107 rest = .ok (some (v, true, rest)) ∧
      handle_key v KEY_UP rest = .ok (some (v, true, rest))) := by
  have hr := refresh_view_line viewer v rows cols hdraw hvis
  obtain ⟨tok_idx, htok, _⟩ := get_token_for_line_nonneg v hr.1 hr.2
  have hguard : ¬ (get_token_for_line v v.current_line < 0) := by rw [htok]; omega
  refine ⟨hr, ?_, ?_, ?_⟩
  · intro ch rest rest' running v' v'' rows' cols' _ hdraw' hvis'
    exact refresh_view_line v' v'' rows' cols' hdraw' hvis'
  · intro hlast rest
    have hnot : ¬ (v.current_line < (v.visible_count : Int) - 1) := by omega
    constructor
    · simp [handle_key, hguard, hnot]
    · simp [handle_key, hguard, hnot, KEY_DOWN]
  · intro hfirst rest
    have hnot : ¬ (v.current_line > 0) := by omega
    constructor
    · simp [handle_key, hguard, hnot, KEY_DOWN]
    · simp [handle_key, hguard, hnot, KEY_UP, KEY_DOWN]

theorem current_line_in_range_witness :
    refresh_view (docViewer sampleDoc sampleText) 24 80 = .ok sampleDrawn ∧
    1 ≤ sampleDrawn.visible_count ∧
    0 ≤ sampleDrawn.current_line ∧
    sampleDrawn.current_line ≤ (sampleDrawn.visible_count : Int) - 1 :=
  ⟨rfl, by decide,
    (current_line_in_range (docViewer sampleDoc sampleText) sampleDrawn 24 80 rfl
      (by decide)).1⟩

/-! ## The collapse, expand and toggle commands -/

theorem setCollapsed_spec (v v' : JsonViewer) (idx : Int) (f : Int → Int)
    (h : setCollapsed v idx f = .ok v') :
    v' = v ∨ ∃ (i : Nat) (tok : jsmntok_t) (c : Int), idx = (i : Int) ∧
      v.tokens[i]? = some tok ∧ (tok.type = JSMN_OBJECT ∨ tok.type = JSMN_ARRAY) ∧
      v.collapsed[i]? = some c ∧ i < v.collapsed.length ∧
      v' = { v with collapsed := v.collapsed.set i (f c) } := by
  unfold setCollapsed at h
  by_cases hneg : idx < 0
  · rw [if_pos hneg] at h; injection h with h; exact Or.inl h.symm
  · rw [if_neg hneg] at h
    cases ht : v.tokens[idx.toNat]? with
    | none => simp [readTok, ht] at h
    | some tok =>
      simp only [readTok, ht] at h
      by_cases hcont : tok.type = JSMN_OBJECT ∨ tok.type = JSMN_ARRAY
      · rw [if_pos hcont] at h
        cases hc : v.collapsed[idx.toNat]? with
        | none => simp [readInt, hc] at h
        | some c =>
          have hlt : idx.toNat < v.collapsed.length := (List.getElem?_eq_some.mp hc).1
          simp only [readInt, hc, writeInt, if_pos hlt] at h
          injection h with h
          exact Or.inr ⟨idx.toNat, tok, c, by omega, ht, hcont, hc, hlt, h.symm⟩
      · rw [if_neg hcont] at h; injection h with h; exact Or.inl h.symm

theorem goto_next_match_frame (v v' : JsonViewer) (h : goto_next_match v = .ok v') :
    SameTree v v' := by
  unfold goto_next_match at h
  split at h
  · injection h with h; subst h; exact ⟨rfl, rfl, rfl⟩
  · simp only [] at h
    split at h
    · cases h
    · injection h with h; subst h; exact ⟨rfl, rfl, rfl⟩

theorem goto_prev_match_frame (v v' : JsonViewer) (h : goto_prev_match v = .ok v') :
    SameTree v v' := by
  unfold goto_prev_match at h
  split at h
  · injection h with h; subst h; exact ⟨rfl, rfl, rfl⟩
  · simp only [] at h
    split at h
    · cases h
    · injection h with h; subst h; exact ⟨rfl, rfl, rfl⟩

/-- The editing loop of `search_input` changes the search term and the match
count only. -/
theorem searchLoop_frame :
    ∀ (input : List Int) (v : JsonViewer) (cursor_pos : Nat) (v' : JsonViewer)
      (rest : List Int), searchLoop v cursor_pos input = some (v', rest) →
      v' = { v with search_term := v'.search_term,
                    search_match_count := v'.search_match_count } := by
  intro input
  induction input with
  | nil => intro v c v' rest h; simp [searchLoop] at h
  | cons ch tl ih =>
    intro v c v' rest h
    unfold searchLoop at h
    split at h
    · injection h with h; injection h with h1 h2; subst h1; rfl
    · split at h
      · injection h with h; injection h with h1 h2; subst h1; rfl
      · split at h
        · split at h
          · have := ih _ _ _ _ h
            rw [this]
          · exact ih _ _ _ _ h
        · split at h
          · have := ih _ _ _ _ h
            rw [this]
          · exact ih _ _ _ _ h

theorem search_input_frame (v v' : JsonViewer) (input rest : List Int)
    (h : search_input v input = .ok (some (v', rest))) : SameTree v v' := by
  unfold search_input at h
  cases hl : searchLoop v v.search_term.length input with
  | none => simp [hl] at h
  | some p =>
    obtain ⟨v1, rest1⟩ := p
    have hf := searchLoop_frame input v _ v1 rest1 hl
    have hs1 : SameTree v v1 := by rw [hf]; exact ⟨rfl, rfl, rfl⟩
    simp only [hl] at h
    split at h
    · cases hb : build_search_matches v1 with
      | error e => simp [hb] at h
      | ok v2 =>
        have hf2 := build_search_matches_frame v1 v2 hb
        have hs2 : SameTree v v2 := by
          rw [hf2]; exact hs1
        simp only [hb] at h
        split at h
        · split at h
          · cases h
          · injection h with h; injection h with h; injection h with h1 h2
            subst h1; exact hs2
        · injection h with h; injection h with h; injection h with h1 h2
          subst h1; exact hs2
    · injection h with h; injection h with h; injection h with h1 h2
      subst h1; exact hs1

/-- What a key can do to the tokens and the CollapseState: nothing at all when
no token is on the current line; nothing to the tokens and the CollapseState
when the key is not a collapse, expand or toggle key; and for such a key the
guarded assignment of `setCollapsed` on the token of the current line. -/
theorem handle_key_tree (v v' : JsonViewer) (ch : Int) (rest rest' : List Int)
    (running : Bool) (h : handle_key v ch rest = .ok (some (v', running, rest'))) :
    (get_token_for_line v v.current_line < 0 ∧ isCollapseKey ch ∧ v' = v) ∨
    (SameTree v v' ∧ ¬ isCollapseKey ch) ∨
    (isCollapseKey ch ∧ ∃ f : Int → Int, (∀ c, f c = 0 ∨ f c = 1) ∧
      (ch = 32 → f = toggleFlag) ∧
      setCollapsed v (get_token_for_line v v.current_line) f = .ok v') := by
  unfold handle_key at h
  generalize hg : get_token_for_line v v.current_line = t at h ⊢
  generalize hm : v.max_y - 5 = ml at h
  by_cases c0 : t < 0 ∧ ch ≠ 113 ∧ ch ≠ 81 ∧ ch ≠ 47
  · rw [if_pos c0] at h
    injection h with h; injection h with h; injection h with h1 h2
    subst h1
    by_cases hck : isCollapseKey ch
    · exact Or.inl ⟨c0.1, hck, rfl⟩
    · exact Or.inr (Or.inl ⟨⟨rfl, rfl, rfl⟩, hck⟩)
  rw [if_neg c0] at h
  by_cases c1 : ch = 113 ∨ ch = 81
  · rw [if_pos c1] at h
    injection h with h; injection h with h; injection h with h1 h2
    subst h1
    refine Or.inr (Or.inl ⟨⟨rfl, rfl, rfl⟩, ?_⟩)
    simp only [isCollapseKey, KEY_DOWN, KEY_UP, KEY_LEFT, KEY_RIGHT] at *
    omega
  rw [if_neg c1] at h
  by_cases c2 : ch = 47
  · rw [if_pos c2] at h
    cases hs : search_input { v with search_term := [], search_match_count := 0 } rest with
    | error e => rw [hs] at h; cases h
    | ok r =>
      rw [hs] at h
      cases r with
      | none => cases h
      | some p =>
        obtain ⟨v1, rest1⟩ := p
        injection h with h; injection h with h; injection h with h1 h2
        subst h1
        refine Or.inr (Or.inl
          ⟨search_input_frame { v with search_term := [], search_match_count := 0 } _ _ _ hs,
           ?_⟩)
        simp only [isCollapseKey, KEY_LEFT, KEY_RIGHT]
        omega
  rw [if_neg c2] at h
  by_cases c3 : ch = 110
  · rw [if_pos c3] at h
    cases hs : goto_next_match v with
    | error e => rw [hs] at h; cases h
    | ok v1 =>
      rw [hs] at h
      injection h with h; injection h with h; injection h with h1 h2
      subst h1
      refine Or.inr (Or.inl ⟨goto_next_match_frame _ _ hs, ?_⟩)
      simp only [isCollapseKey, KEY_LEFT, KEY_RIGHT]
      omega
  rw [if_neg c3] at h
  by_cases c4 : ch = 78
  · rw [if_pos c4] at h
    cases hs : goto_prev_match v with
    | error e => rw [hs] at h; cases h
    | ok v1 =>
      rw [hs] at h
      injection h with h; injection h with h; injection h with h1 h2
      subst h1
      refine Or.inr (Or.inl ⟨goto_prev_match_frame _ _ hs, ?_⟩)
      simp only [isCollapseKey, KEY_LEFT, KEY_RIGHT]
      omega
  rw [if_neg c4] at h
  by_cases c5 : ch = 27
  · rw [if_pos c5] at h
    injection h with h; injection h with h; injection h with h1 h2
    subst h1
    refine Or.inr (Or.inl ⟨⟨rfl, rfl, rfl⟩, ?_⟩)
    simp only [isCollapseKey, KEY_DOWN, KEY_UP, KEY_LEFT, KEY_RIGHT] at *
    omega
  rw [if_neg c5] at h
  by_cases c6 : ch = 106 ∨ ch = KEY_DOWN
  · rw [if_pos c6] at h
    by_cases d : v.current_line < (v.visible_count : Int) - 1
    · rw [if_pos d] at h
      injection h with h; injection h with h; injection h with h1 h2
      subst h1
      refine Or.inr (Or.inl ⟨⟨rfl, rfl, rfl⟩, ?_⟩)
      simp only [isCollapseKey, KEY_DOWN, KEY_UP, KEY_LEFT, KEY_RIGHT] at *
      omega
    · rw [if_neg d] at h
      injection h with h; injection h with h; injection h with h1 h2
      subst h1
      refine Or.inr (Or.inl ⟨⟨rfl, rfl, rfl⟩, ?_⟩)
      simp only [isCollapseKey, KEY_DOWN, KEY_UP, KEY_LEFT, KEY_RIGHT] at *
      omega
  rw [if_neg c6] at h
  by_cases c7 : ch = 107 ∨ ch = KEY_UP
  · rw [if_pos c7] at h
    by_cases d : v.current_line > 0
    · rw [if_pos d] at h
      injection h with h; injection h with h; injection h with h1 h2
      subst h1
      refine Or.inr (Or.inl ⟨⟨rfl, rfl, rfl⟩, ?_⟩)
      simp only [isCollapseKey, KEY_DOWN, KEY_UP, KEY_LEFT, KEY_RIGHT] at *
      omega
    · rw [if_neg d] at h
      injection h with h; injection h with h; injection h with h1 h2
      subst h1
      refine Or.inr (Or.inl ⟨⟨rfl, rfl, rfl⟩, ?_⟩)
      simp only [isCollapseKey, KEY_DOWN, KEY_UP, KEY_LEFT, KEY_RIGHT] at *
      omega
  rw [if_neg c7] at h
  by_cases c8 : ch = 104 ∨ ch = KEY_LEFT
  · rw [if_pos c8] at h
    cases hs : setCollapsed v t (fun _ => 1) with
    | error e => rw [hs] at h; cases h
    | ok v1 =>
      rw [hs] at h
      injection h with h; injection h with h; injection h with h1 h2
      subst h1
      refine Or.inr (Or.inr
        ⟨by unfold isCollapseKey; tauto, fun _ => 1, fun _ => Or.inr rfl, ?_, hs⟩)
      intro h32; subst h32; simp [KEY_LEFT] at c8
  rw [if_neg c8] at h
  by_cases c9 : ch = 108 ∨ ch = KEY_RIGHT
  · rw [if_pos c9] at h
    cases hs : setCollapsed v t (fun _ => 0) with
    | error e => rw [hs] at h; cases h
    | ok v1 =>
      rw [hs] at h
      injection h with h; injection h with h; injection h with h1 h2
      subst h1
      refine Or.inr (Or.inr
        ⟨by unfold isCollapseKey; tauto, fun _ => 0, fun _ => Or.inl rfl, ?_, hs⟩)
      intro h32; subst h32; simp [KEY_RIGHT] at c9
  rw [if_neg c9] at h
  by_cases c10 : ch = 4
  · rw [if_pos c10] at h
    injection h with h; injection h with h; injection h with h1 h2
    subst h1
    refine Or.inr (Or.inl ⟨⟨rfl, rfl, rfl⟩, ?_⟩)
    simp only [isCollapseKey, KEY_DOWN, KEY_UP, KEY_LEFT, KEY_RIGHT] at *
    omega
  rw [if_neg c10] at h
  by_cases c11 : ch = 21
  · rw [if_pos c11] at h
    injection h with h; injection h with h; injection h with h1 h2
    subst h1
    refine Or.inr (Or.inl ⟨⟨rfl, rfl, rfl⟩, ?_⟩)
    simp only [isCollapseKey, KEY_DOWN, KEY_UP, KEY_LEFT, KEY_RIGHT] at *
    omega
  rw [if_neg c11] at h
  by_cases c12 : ch = 32
  · rw [if_pos c12] at h
    cases hs : setCollapsed v t (fun c => if c = 0 then 1 else 0) with
    | error e => rw [hs] at h; cases h
    | ok v1 =>
      rw [hs] at h
      injection h with h; injection h with h; injection h with h1 h2
      subst h1
      refine Or.inr (Or.inr
        ⟨by unfold isCollapseKey; tauto, toggleFlag, ?_, fun _ => rfl, hs⟩)
      intro c; unfold toggleFlag; split <;> simp
  rw [if_neg c12] at h
  by_cases c13 : ch = 103
  · rw [if_pos c13] at h
    injection h with h; injection h with h; injection h with h1 h2
    subst h1
    refine Or.inr (Or.inl ⟨⟨rfl, rfl, rfl⟩, ?_⟩)
    simp only [isCollapseKey, KEY_DOWN, KEY_UP, KEY_LEFT, KEY_RIGHT] at *
    omega
  rw [if_neg c13] at h
  by_cases c14 : ch = 71
  · rw [if_pos c14] at h
    injection h with h; injection h with h; injection h with h1 h2
    subst h1
    refine Or.inr (Or.inl ⟨⟨rfl, rfl, rfl⟩, ?_⟩)
    simp only [isCollapseKey, KEY_DOWN, KEY_UP, KEY_LEFT, KEY_RIGHT] at *
    omega
  rw [if_neg c14] at h
  injection h with h; injection h with h; injection h with h1 h2
  subst h1
  refine Or.inr (Or.inl ⟨⟨rfl, rfl, rfl⟩, ?_⟩)
  simp only [isCollapseKey, KEY_DOWN, KEY_UP, KEY_LEFT, KEY_RIGHT] at *
  omega

/-- The three outcomes of the guarded assignment: no token on the line, a
String or Primitive on the line (nothing changes in either case), or a
container, whose flag alone is assigned. -/
theorem setCollapsed_cases (v v' : JsonViewer) (idx : Int) (f : Int → Int)
    (h : setCollapsed v idx f = .ok v') :
    (idx < 0 ∧ v' = v) ∨
    (∃ (i : Nat) (tok : jsmntok_t), idx = (i : Int) ∧ v.tokens[i]? = some tok ∧
      (tok.type = JSMN_STRING ∨ tok.type = JSMN_PRIMITIVE) ∧ v' = v) ∨
    (∃ (i : Nat) (tok : jsmntok_t) (c : Int), idx = (i : Int) ∧
      v.tokens[i]? = some tok ∧ (tok.type = JSMN_OBJECT ∨ tok.type = JSMN_ARRAY) ∧
      v.collapsed[i]? = some c ∧ i < v.collapsed.length ∧
      v' = { v with collapsed := v.collapsed.set i (f c) }) := by
  unfold setCollapsed at h
  by_cases hneg : idx < 0
  · rw [if_pos hneg] at h; injection h with h; exact Or.inl ⟨hneg, h.symm⟩
  · rw [if_neg hneg] at h
    cases ht : v.tokens[idx.toNat]? with
    | none => simp [readTok, ht] at h
    | some tok =>
      simp only [readTok, ht] at h
      by_cases hcont : tok.type = JSMN_OBJECT ∨ tok.type = JSMN_ARRAY
      · rw [if_pos hcont] at h
        cases hc : v.collapsed[idx.toNat]? with
        | none => simp [readInt, hc] at h
        | some c =>
          have hlt : idx.toNat < v.collapsed.length := (List.getElem?_eq_some.mp hc).1
          simp only [readInt, hc, writeInt, if_pos hlt] at h
          injection h with h
          exact Or.inr (Or.inr ⟨idx.toNat, tok, c, by omega, ht, hcont, hc, hlt, h.symm⟩)
      · rw [if_neg hcont] at h; injection h with h
        refine Or.inr (Or.inl ⟨idx.toNat, tok, by omega, ht, ?_, h.symm⟩)
        cases htt : tok.type <;> simp [htt] at hcont ⊢

theorem CollapseInv_of_sameTree (v v' : JsonViewer) (hs : SameTree v v')
    (h : CollapseInv v) : CollapseInv v' := by
  obtain ⟨h1, _, h3⟩ := hs
  unfold CollapseInv
  rw [h1, h3]
  exact h

theorem CollapseInv_setCollapsed (v v' : JsonViewer) (idx : Int) (f : Int → Int)
    (hf : ∀ c, f c = 0 ∨ f c = 1) (h : setCollapsed v idx f = .ok v')
    (hinv : CollapseInv v) : CollapseInv v' := by
  rcases setCollapsed_cases v v' idx f h with ⟨_, rfl⟩ | ⟨_, _, _, _, _, rfl⟩ |
    ⟨i, tok, c, _, htok, hcont, hc, hlt, rfl⟩
  · exact hinv
  · exact hinv
  · obtain ⟨hflags, hleaf⟩ := hinv
    refine ⟨?_, ?_⟩
    · intro x hx
      rcases List.mem_or_eq_of_mem_set hx with hx | hx
      · exact hflags x hx
      · rw [hx]; exact hf c
    · intro j tok' htok' hl
      have hji : j ≠ i := by
        rintro rfl
        rw [htok] at htok'
        injection htok' with htok'
        subst htok'
        rcases hcont with h1 | h1 <;> rcases hl with h2 | h2 <;> rw [h1] at h2 <;> cases h2
      have := hleaf j tok' htok' hl
      simp only [isCollapsed] at this ⊢
      rw [List.getElem?_set_ne (Ne.symm hji)]
      exact this

theorem CollapseInv_init (json_str : List Nat) (parsed : Int) (tokens : List jsmntok_t)
    (v : JsonViewer) (h : viewer_init json_str parsed tokens = .ok (some v)) :
    CollapseInv v := by
  unfold viewer_init at h
  split at h
  · cases h
  · simp only [] at h
    split at h
    · cases h
    · injection h with h; injection h with h
      subst h
      refine ⟨?_, ?_⟩
      · intro c hc
        exact Or.inl (List.eq_of_mem_replicate hc)
      · intro i tok _ _
        simp only [isCollapsed]
        cases hx : (List.replicate parsed.toNat (0 : Int))[i]? with
        | none => rfl
        | some c =>
          have := List.eq_of_mem_replicate (List.getElem?_mem hx)
          simp [this]

theorem CollapseInv_reachable (json_str : List Nat) (parsed : Int) (tokens : List jsmntok_t)
    (v : JsonViewer) (h : Reachable json_str parsed tokens v) : CollapseInv v := by
  induction h with
  | init v hv => exact CollapseInv_init json_str parsed tokens v hv
  | draw v v' rows cols _ hd ih =>
    obtain ⟨h1, h2, h3, _⟩ := refresh_view_frame v v' rows cols hd
    exact CollapseInv_of_sameTree v v' ⟨h1, h3, h2⟩ ih
  | key v v' ch rest rest' running _ hk ih =>
    rcases handle_key_tree v v' ch rest rest' running hk with
      ⟨_, _, rfl⟩ | ⟨hs, _⟩ | ⟨_, f, hf, _, hset⟩
    · exact ih
    · exact CollapseInv_of_sameTree v v' hs ih
    · exact CollapseInv_setCollapsed v v' _ f hf hset ih

theorem toggleFlag_twice (c : Int) (h : c = 0 ∨ c = 1) : toggleFlag (toggleFlag c) = c := by
  rcases h with rfl | rfl <;> simp [toggleFlag]

/-- C18: in every reachable state no String or Primitive token is marked
collapsed.  A collapse, expand or toggle key handled in such a state changes at
most the field `collapsed`, there at most the flag of the token on the current
line, and nothing at all when that token is a String or Primitive (an Object
key whose value is a container included) or when there is no such token.
Toggling twice with the same container on the current line, whatever happens
in between to the fields other than the tokens and the CollapseState, restores
the previous CollapseState. -/
theorem collapse_commands_frame (json_str : List Nat) (parsed : Int)
    (tokens : List jsmntok_t) (v : JsonViewer) (hreach : Reachable json_str parsed tokens v) :
    (∀ i tok, v.tokens[i]? = some tok →
      tok.type = JSMN_STRING ∨ tok.type = JSMN_PRIMITIVE → isCollapsed v.collapsed i = false) ∧
    (∀ (ch : Int) (rest rest' : List Int) (running : Bool) (v' : JsonViewer),
      isCollapseKey ch → handle_key v ch rest = .ok (some (v', running, rest')) →
      (∃ collapsed', v' = { v with collapsed := collapsed' }) ∧
      (∀ j : Nat, (j : Int) ≠ get_token_for_line v v.current_line →
        v'.collapsed[j]? = v.collapsed[j]?) ∧
      (∀ (i : Nat) (tok : jsmntok_t), get_token_for_line v v.current_line = (i : Int) →
        v.tokens[i]? = some tok → tok.type = JSMN_STRING ∨ tok.type = JSMN_PRIMITIVE →
        v' = v) ∧
      (get_token_for_line v v.current_line < 0 → v' = v)) ∧
    (∀ (rest rest1 rest2 rest3 : List Int) (r1 r2 : Bool) (v1 w v2 : JsonViewer),
      handle_key v 32 rest = .ok (some (v1, r1, rest1)) →
      SameTree v1 w →
      get_token_for_line w w.current_line = get_token_for_line v v.current_line →
      handle_key w 32 rest2 = .ok (some (v2, r2, rest3)) →
      v2.collapsed = v.collapsed) := by
  have hinv := CollapseInv_reachable json_str parsed tokens v hreach
  refine ⟨hinv.2, ?_, ?_⟩
  · intro ch rest rest' running v' hkey hk
    rcases handle_key_tree v v' ch rest rest' running hk with
      ⟨_, _, rfl⟩ | ⟨_, hno⟩ | ⟨_, f, _, _, hset⟩
    · exact ⟨⟨v'.collapsed, rfl⟩, fun _ _ => rfl, fun _ _ _ _ _ => rfl, fun _ => rfl⟩
    · exact absurd hkey hno
    · rcases setCollapsed_cases v v' _ f hset with ⟨_, rfl⟩ | ⟨_, _, _, _, _, rfl⟩ |
        ⟨i, tok, c, hidx, htok, hcont, hc, hlt, rfl⟩
      · exact ⟨⟨v'.collapsed, rfl⟩, fun _ _ => rfl, fun _ _ _ _ _ => rfl, fun _ => rfl⟩
      · exact ⟨⟨v'.collapsed, rfl⟩, fun _ _ => rfl, fun _ _ _ _ _ => rfl, fun _ => rfl⟩
      · refine ⟨⟨_, rfl⟩, ?_, ?_, ?_⟩
        · intro j hj
          show (v.collapsed.set i (f c))[j]? = v.collapsed[j]?
          rw [List.getElem?_set_ne (by omega)]
        · intro i' tok' hi' htok' hleaf
          have : i' = i := by omega
          subst this
          rw [htok] at htok'
          injection htok' with htok'
          subst htok'
          rcases hcont with h1 | h1 <;> rcases hleaf with h2 | h2 <;> rw [h1] at h2 <;> cases h2
        · intro hneg; omega
  · intro rest rest1 rest2 rest3 r1 r2 v1 w v2 hk1 hsame hline hk2
    obtain ⟨hw1, _, hw3⟩ := hsame
    have key32 : isCollapseKey 32 := by unfold isCollapseKey; tauto
    -- the second toggle, as an assignment on the token of the first
    have second : ∀ f, f = toggleFlag →
        setCollapsed w (get_token_for_line v v.current_line) f = .ok v2 →
        (v2.collapsed = w.collapsed ∧
          (get_token_for_line v v.current_line < 0 ∨
            ∃ (i : Nat) (tok : jsmntok_t), get_token_for_line v v.current_line = (i : Int) ∧
              v1.tokens[i]? = some tok ∧
              (tok.type = JSMN_STRING ∨ tok.type = JSMN_PRIMITIVE))) ∨
        (∃ (i : Nat) (tok : jsmntok_t) (c : Int),
          get_token_for_line v v.current_line = (i : Int) ∧ v1.tokens[i]? = some tok ∧
          (tok.type = JSMN_OBJECT ∨ tok.type = JSMN_ARRAY) ∧ v1.collapsed[i]? = some c ∧
          v2.collapsed = v1.collapsed.set i (toggleFlag c)) := by
      intro f hf hset
      subst hf
      rcases setCollapsed_cases w v2 _ _ hset with ⟨hn, rfl⟩ | ⟨i, tok, hi, ht, hl, rfl⟩ |
        ⟨i, tok, c, hi, ht, hcont, hc, _, rfl⟩
      · exact Or.inl ⟨rfl, Or.inl hn⟩
      · exact Or.inl ⟨rfl, Or.inr ⟨i, tok, hi, by rw [← hw1]; exact ht, hl⟩⟩
      · exact Or.inr ⟨i, tok, c, hi, by rw [← hw1]; exact ht, hcont, by rw [← hw3]; exact hc,
          by show w.collapsed.set i (toggleFlag c) = _; rw [hw3]⟩
    have hk2' := handle_key_tree w v2 32 rest2 rest3 r2 hk2
    rw [hline] at hk2'
    rcases handle_key_tree v v1 32 rest rest1 r1 hk1 with
      ⟨hneg, _, rfl⟩ | ⟨_, hno⟩ | ⟨_, f, _, hf, hset⟩
    · -- no token on the line: neither toggle assigns
      rcases hk2' with ⟨_, _, rfl⟩ | ⟨_, hno⟩ | ⟨_, g, _, hg, hset2⟩
      · exact hw3
      · exact absurd key32 hno
      · rcases second g (hg rfl) hset2 with ⟨h2, _⟩ | ⟨i, _, _, hi, _⟩
        · rw [h2, hw3]
        · omega
    · exact absurd key32 hno
    · have hf := hf rfl
      subst hf
      rcases setCollapsed_cases v v1 _ _ hset with ⟨hn, rfl⟩ | ⟨i, tok, hi, ht, hl, rfl⟩ |
        ⟨i, tok, c, hi, ht, hcont, hc, hlt, rfl⟩
      · rcases hk2' with ⟨_, _, rfl⟩ | ⟨_, hno⟩ | ⟨_, g, _, hg, hset2⟩
        · exact hw3
        · exact absurd key32 hno
        · rcases second g (hg rfl) hset2 with ⟨h2, _⟩ | ⟨i, _, _, hi, _⟩
          · rw [h2, hw3]
          · omega
      · rcases hk2' with ⟨_, _, rfl⟩ | ⟨_, hno⟩ | ⟨_, g, _, hg, hset2⟩
        · exact hw3
        · exact absurd key32 hno
        · rcases second g (hg rfl) hset2 with ⟨h2, _⟩ | ⟨i', tok', _, hi', ht', hcont', _⟩
          · rw [h2, hw3]
          · have : i' = i := by omega
            subst this
            rw [ht] at ht'
            injection ht' with ht'
            subst ht'
            rcases hcont' with h1 | h1 <;> rcases hl with h2 | h2 <;> rw [h1] at h2 <;>
              cases h2
      · have hcin : c = 0 ∨ c = 1 := hinv.1 c (List.getElem?_mem hc)
        rcases hk2' with ⟨hneg, _, _⟩ | ⟨_, hno⟩ | ⟨_, g, _, hg, hset2⟩
        · omega
        · exact absurd key32 hno
        · rcases second g (hg rfl) hset2 with ⟨_, hneg | ⟨i', tok', hi', ht', hl'⟩⟩ |
            ⟨i', tok', c', hi', ht', _, hc', h2⟩
          · omega
          · have : i' = i := by omega
            subst this
            have ht'' : v.tokens[i']? = some tok' := ht'
            rw [ht] at ht''
            injection ht'' with ht''
            subst ht''
            rcases hcont with h1 | h1 <;> rcases hl' with h2 | h2 <;> rw [h1] at h2 <;>
              cases h2
          · have : i' = i := by omega
            subst this
            have hc'' : (v.collapsed.set i' (toggleFlag c))[i']? = some c' := hc'
            rw [List.getElem?_set_self hlt] at hc''
            injection hc'' with hc''
            subst hc''
            rw [h2]
            show (v.collapsed.set i' (toggleFlag c)).set i' (toggleFlag (toggleFlag c))
              = v.collapsed
            rw [List.set_set, toggleFlag_twice c hcin]
            apply List.ext_getElem?
            intro j
            by_cases hj : j = i'
            · subst hj; rw [List.getElem?_set_self hlt, hc]
            · rw [List.getElem?_set_ne (Ne.symm hj)]

theorem collapse_commands_frame_witness :
    Reachable sampleText 7 sampleDoc.flatten sampleFrame ∧
    Reachable sampleText 7 sampleDoc.flatten sampleKeyLine ∧
    sampleFrame.tokens[0]? = some ⟨JSMN_OBJECT, 0, 19, 2⟩ ∧
    get_token_for_line sampleFrame sampleFrame.current_line = 0 ∧
    handle_key sampleFrame 32 [] = .ok (some (sampleRootToggled, true, [])) ∧
    sampleRootToggled.collapsed = [1, 0, 0, 0, 0, 0, 0] ∧
    ((∃ collapsed', sampleRootToggled = { sampleFrame with collapsed := collapsed' }) ∧
      (∀ j : Nat, (j : Int) ≠ get_token_for_line sampleFrame sampleFrame.current_line →
        sampleRootToggled.collapsed[j]? = sampleFrame.collapsed[j]?) ∧
      (∀ (i : Nat) (tok : jsmntok_t),
        get_token_for_line sampleFrame sampleFrame.current_line = (i : Int) →
        sampleFrame.tokens[i]? = some tok →
        tok.type = JSMN_STRING ∨ tok.type = JSMN_PRIMITIVE → sampleRootToggled = sampleFrame) ∧
      (get_token_for_line sampleFrame sampleFrame.current_line < 0 →
        sampleRootToggled = sampleFrame)) ∧
    refresh_view sampleRootToggled 24 80 = .ok sampleRootClosed ∧
    (∃ v2, handle_key sampleRootClosed 32 [] = .ok (some (v2, true, [])) ∧
      v2.collapsed = sampleFrame.collapsed) ∧
    sampleKeyLine.tokens[3]? = some ⟨JSMN_STRING, 8, 9, 1⟩ ∧
    get_token_for_line sampleKeyLine sampleKeyLine.current_line = 3 ∧
    (∀ ch : Int, isCollapseKey ch → ∀ rest rest' running v',
      handle_key sampleKeyLine ch rest = .ok (some (v', running, rest')) →
      v' = sampleKeyLine) := by
  have hframe : Reachable sampleText 7 sampleDoc.flatten sampleFrame :=
    Reachable.draw (sampleViewer [0, 0, 0, 0, 0, 0, 0]) sampleFrame 24 80
      (Reachable.init _ rfl) rfl
  have hkey : Reachable sampleText 7 sampleDoc.flatten sampleKeyLine :=
    Reachable.key { sampleFrame with current_line := 1 } sampleKeyLine 106 [] [] true
      (Reachable.key sampleFrame { sampleFrame with current_line := 1 } 106 [] [] true
        hframe rfl) rfl
  have htoggle : handle_key sampleFrame 32 [] = .ok (some (sampleRootToggled, true, [])) := rfl
  have hagain : handle_key sampleRootClosed 32 []
      = .ok (some ({ sampleRootClosed with collapsed := [0, 0, 0, 0, 0, 0, 0] }, true, [])) := rfl
  refine ⟨hframe, hkey, rfl, rfl, htoggle, rfl,
    (collapse_commands_frame sampleText 7 sampleDoc.flatten sampleFrame hframe).2.1
      32 [] [] true sampleRootToggled (Or.inr (Or.inr (Or.inr (Or.inr rfl)))) htoggle,
    rfl, ⟨_, hagain,
      (collapse_commands_frame sampleText 7 sampleDoc.flatten sampleFrame hframe).2.2
        [] [] [] [] true true sampleRootToggled sampleRootClosed _ htoggle ⟨rfl, rfl, rfl⟩ rfl
        hagain⟩, rfl, rfl, ?_⟩
  intro ch hch rest rest' running v' hk
  exact ((collapse_commands_frame sampleText 7 sampleDoc.flatten sampleKeyLine hkey).2.1
    ch rest rest' running v' hch hk).2.2.1 3 ⟨JSMN_STRING, 8, 9, 1⟩ rfl rfl (Or.inl rfl)

/-! ## Confirming and cancelling a search -/

theorem arrLoop_prop (tokens : List jsmntok_t) (count : Nat)
    (recur : Nat → List Nat → Except Fault (List Nat)) (P : List Nat → List Nat → Prop)
    (hrefl : ∀ u, P u u) (htrans : ∀ a b c, P a b → P b c → P a c)
    (hrec : ∀ i u u', recur i u = .ok u' → P u u') :
    ∀ n c u u', arrLoop tokens count recur n c u = .ok u' → P u u' := by
  intro n
  induction n with
  | zero => intro c u u' h; simp only [arrLoop] at h; injection h with h; subst h; exact hrefl u
  | succ n ih =>
    intro c u u' h
    simp only [arrLoop] at h
    split at h
    · cases h1 : recur c u with
      | error e => simp [h1] at h
      | ok u1 =>
        simp only [h1] at h
        cases h2 : skip_token tokens c count with
        | error e => simp [h2] at h
        | ok c1 =>
          simp only [h2] at h
          exact htrans _ _ _ (hrec c u u1 h1) (ih c1 u1 u' h)
    · injection h with h; subst h; exact hrefl u

theorem objLoop_prop (tokens : List jsmntok_t) (count : Nat)
    (recur : Nat → List Nat → Except Fault (List Nat)) (P : List Nat → List Nat → Prop)
    (hrefl : ∀ u, P u u) (htrans : ∀ a b c, P a b → P b c → P a c)
    (hrec : ∀ i u u', recur i u = .ok u' → P u u') :
    ∀ n c u u', objLoop tokens count recur n c u = .ok u' → P u u' := by
  intro n
  induction n with
  | zero => intro c u u' h; simp only [objLoop] at h; injection h with h; subst h; exact hrefl u
  | succ n ih =>
    intro c u u' h
    simp only [objLoop] at h
    split at h
    · cases h1 : recur c u with
      | error e => simp [h1] at h
      | ok u1 =>
        simp only [h1] at h
        cases h2 : skip_token tokens c count with
        | error e => simp [h2] at h
        | ok c1 =>
          simp only [h2] at h
          cases h3 : readTok tokens c1 with
          | error e => simp [h3] at h
          | ok value_tok =>
            simp only [h3] at h
            by_cases hleaf : value_tok.type = JSMN_STRING ∨ value_tok.type = JSMN_PRIMITIVE
            · simp only [if_pos hleaf] at h
              cases h4 : skip_token tokens c1 count with
              | error e => simp [h4] at h
              | ok c2 =>
                simp only [h4] at h
                exact htrans _ _ _ (hrec c u u1 h1) (ih c2 u1 u' h)
            · simp only [if_neg hleaf] at h
              cases h5 : recur c1 u1 with
              | error e => simp [h5] at h
              | ok u2 =>
                simp only [h5] at h
                cases h4 : skip_token tokens c1 count with
                | error e => simp [h4] at h
                | ok c2 =>
                  simp only [h4] at h
                  exact htrans _ _ _ (hrec c u u1 h1)
                    (htrans _ _ _ (hrec c1 u1 u2 h5) (ih c2 u2 u' h))
    · injection h with h; subst h; exact hrefl u

/-- The traversal without the bound only appends to the list. -/
theorem projectFuel_extends (tokens : List jsmntok_t) (count : Nat) (collapsed : List Int) :
    ∀ fuel i d u u', projectFuel tokens count collapsed fuel i d u = .ok u' →
      ∃ L, u' = u ++ L := by
  intro fuel
  induction fuel with
  | zero => intro i d u u' h; simp [projectFuel] at h
  | succ fuel ih =>
    intro i d u u' h
    have hP1 : ∀ u : List Nat, ∃ L, u = u ++ L := fun u => ⟨[], by simp⟩
    have hP2 : ∀ a b c : List Nat, (∃ L, b = a ++ L) → (∃ L, c = b ++ L) → ∃ L, c = a ++ L := by
      rintro a b c ⟨L1, rfl⟩ ⟨L2, rfl⟩
      exact ⟨L1 ++ L2, by simp⟩
    simp only [projectFuel] at h
    split at h
    · injection h with h; subst h; exact hP1 u
    · cases h1 : readTok tokens i with
      | error e => simp [h1] at h
      | ok tok =>
        simp only [h1] at h
        cases h2 : readInt collapsed i with
        | error e => simp [h2] at h
        | ok c =>
          simp only [h2] at h
          split at h
          · injection h with h; subst h; exact ⟨[i], rfl⟩
          · split at h
            · exact hP2 _ _ _ ⟨[i], rfl⟩
                (objLoop_prop tokens count _ (fun a b => ∃ L, b = a ++ L) hP1 hP2
                  (fun j a b hab => ih j (d + 1) a b hab) _ _ _ _ h)
            · split at h
              · exact hP2 _ _ _ ⟨[i], rfl⟩
                  (arrLoop_prop tokens count _ (fun a b => ∃ L, b = a ++ L) hP1 hP2
                    (fun j a b hab => ih j (d + 1) a b hab) _ _ _ _ h)
              · injection h with h; subst h; exact ⟨[i], rfl⟩

/-- A call of `build_visible_tokens` on a list within the bound leaves a list
within the bound. -/
theorem buildFuel_bounded (tokens : List jsmntok_t) (count : Nat) (collapsed : List Int) :
    ∀ fuel i d u u', buildFuel tokens count collapsed fuel i d u = .ok u' →
      u.length ≤ MAX_TOKENS → u'.length ≤ MAX_TOKENS := by
  intro fuel
  induction fuel with
  | zero => intro i d u u' h; simp [buildFuel] at h
  | succ fuel ih =>
    intro i d u u' h
    have hP1 : ∀ u : List Nat, u.length ≤ MAX_TOKENS → u.length ≤ MAX_TOKENS := fun _ h => h
    have hP2 : ∀ a b c : List Nat, (a.length ≤ MAX_TOKENS → b.length ≤ MAX_TOKENS) →
        (b.length ≤ MAX_TOKENS → c.length ≤ MAX_TOKENS) →
        a.length ≤ MAX_TOKENS → c.length ≤ MAX_TOKENS := fun _ _ _ h1 h2 h => h2 (h1 h)
    simp only [buildFuel] at h
    split at h
    · injection h with h; subst h; exact hP1 u
    · next hcond =>
      have hstep : u.length ≤ MAX_TOKENS → (u ++ [i]).length ≤ MAX_TOKENS := by
        intro _; simp only [List.length_append, List.length_singleton]; omega
      cases h1 : readTok tokens i with
      | error e => simp [h1] at h
      | ok tok =>
        simp only [h1] at h
        cases h2 : readInt collapsed i with
        | error e => simp [h2] at h
        | ok c =>
          simp only [h2] at h
          split at h
          · injection h with h; subst h; exact hstep
          · split at h
            · exact hP2 _ _ _ hstep
                (objLoop_prop tokens count _
                  (fun a b => a.length ≤ MAX_TOKENS → b.length ≤ MAX_TOKENS) hP1 hP2
                  (fun j a b hab => ih j (d + 1) a b hab) _ _ _ _ h)
            · split at h
              · exact hP2 _ _ _ hstep
                  (arrLoop_prop tokens count _
                    (fun a b => a.length ≤ MAX_TOKENS → b.length ≤ MAX_TOKENS) hP1 hP2
                    (fun j a b hab => ih j (d + 1) a b hab) _ _ _ _ h)
              · injection h with h; subst h; exact hstep

/-! ## The traversal without the capacity bound on the flattening of a tree -/

/-- One call of the traversal without the capacity bound on the root of a
tree, given what the two loops do on its children. -/
theorem projectFuel_tree (tokens pre post : List jsmntok_t) (t : jsmntok_t) (k : Forest)
    (collapsed : List Int) (count fuel d : Nat) (vis : List Nat)
    (hts : tokens = pre ++ (t :: k.flatten ++ post)) (hc : count = tokens.length)
    (hcl : collapsed.length = count) (hnode : Forest.nodeOk t k = true)
    (hA : t.type = JSMN_ARRAY → ∀ v : List Nat,
      arrLoop tokens count (fun i v => projectFuel tokens count collapsed fuel i (d + 1) v)
        k.roots (pre.length + 1) v
        = .ok (v ++ treeLines collapsed .elem (pre.length + 1) k))
    (hO : t.type = JSMN_OBJECT → ∀ v : List Nat,
      objLoop tokens count (fun i v => projectFuel tokens count collapsed fuel i (d + 1) v)
        (k.roots / 2) (pre.length + 1) v
        = .ok (v ++ treeLines collapsed .key (pre.length + 1) k)) :
    projectFuel tokens count collapsed (fuel + 1) pre.length d vis
      = .ok (vis ++ pre.length :: (if isCollapsed collapsed pre.length = true then []
          else treeLines collapsed (kidRole t) (pre.length + 1) k)) := by
  have hlt : pre.length < count := by rw [hc, hts]; simp
  have hread : readTok tokens pre.length = .ok t := by
    rw [hts]; simp only [List.cons_append]; exact readTok_append _ _ _
  have hcond : ¬ (pre.length ≥ count) := by omega
  obtain ⟨hobj, harr, hleaf⟩ := Forest.children_of_nodeOk t k hnode
  obtain ⟨c, hrc, hcc⟩ := readInt_collapsed collapsed pre.length (hcl ▸ hlt)
  simp only [projectFuel, if_neg hcond, hread, hrc]
  by_cases hcol : c ≠ 0
  · have hic : isCollapsed collapsed pre.length = true := by rw [hcc]; simpa using hcol
    rw [if_pos hcol, hic]
    simp
  · have hic : isCollapsed collapsed pre.length = false := by rw [hcc]; simpa using hcol
    rw [if_neg hcol, hic]
    simp only [Bool.false_eq_true, if_false]
    cases ht : t.type
    · have h2 : t.size.toNat = k.roots / 2 := by have := (hobj ht).2; omega
      simp only [if_true, h2]
      rw [hO ht _]
      simp [kidRole, ht]
    · simp only [if_true, harr ht]
      rw [if_neg (by simp), hA ht _]
      simp [kidRole, ht]
    · simp [hleaf (Or.inl ht), treeLines]
    · simp [hleaf (Or.inr ht), treeLines]

/-- The two loops of the traversal without the capacity bound over a forest
that sits at index
`pre.length`: the Array loop appends the lines of the forest read as elements,
the Object loop those of the forest read as members. -/
theorem projectLoops_forest (collapsed : List Int) :
    ∀ (n : Nat) (F : Forest), F.size ≤ n →
      ∀ (tokens pre post : List jsmntok_t) (count fuel d : Nat) (vis : List Nat),
        tokens = pre ++ (F.flatten ++ post) → count = tokens.length →
        collapsed.length = count → F.shape = true → F.height ≤ fuel →
        arrLoop tokens count (fun i v => projectFuel tokens count collapsed fuel i (d + 1) v)
            F.roots pre.length vis
          = .ok (vis ++ treeLines collapsed .elem pre.length F) ∧
        (F.isMembers = true →
          objLoop tokens count (fun i v => projectFuel tokens count collapsed fuel i (d + 1) v)
              (F.roots / 2) pre.length vis
            = .ok (vis ++ treeLines collapsed .key pre.length F)) := by
  intro n
  induction n with
  | zero =>
    intro F hF tokens pre post count fuel d vis _ _ _ _ _
    have := Forest.size_eq_zero (Nat.le_zero.mp hF)
    subst this
    simp [Forest.roots, arrLoop, objLoop, treeLines]
  | succ n ih =>
    intro F hF tokens pre post count fuel d vis hts hc hcl hshape hfuel
    cases F with
    | nil => simp [Forest.roots, arrLoop, objLoop, treeLines]
    | cons t k r =>
      obtain ⟨hnode, hk, hr⟩ := Forest.shape_cons hshape
      simp only [Forest.height] at hfuel
      simp only [Forest.size] at hF
      obtain ⟨f, rfl⟩ : ∃ f, fuel = f + 1 := ⟨fuel - 1, by omega⟩
      -- one call on the root of any smaller tree of the array
      have htree : ∀ (t' : jsmntok_t) (k' : Forest) (pre' post' : List jsmntok_t)
          (d' : Nat) (vis' : List Nat),
          tokens = pre' ++ (t' :: k'.flatten ++ post') → Forest.nodeOk t' k' = true →
          k'.shape = true → k'.size ≤ n → k'.height ≤ f →
          projectFuel tokens count collapsed (f + 1) pre'.length d' vis'
            = .ok (vis' ++ pre'.length :: (if isCollapsed collapsed pre'.length = true then []
                else treeLines collapsed (kidRole t') (pre'.length + 1) k')) := by
        intro t' k' pre' post' d' vis' hts' hnode' hk' hsz hh
        apply projectFuel_tree tokens pre' post' t' k' collapsed count f d' vis' hts' hc hcl hnode'
        · intro _ v
          have := (ih k' hsz tokens (pre' ++ [t']) post' count f d' v
            (by rw [hts']; simp) hc hcl hk' hh).1
          simpa using this
        · intro ht v
          have hm : k'.isMembers = true := by
            simp only [Forest.nodeOk, ht, Bool.and_eq_true] at hnode'
            exact hnode'.1
          have := (ih k' hsz tokens (pre' ++ [t']) post' count f d' v
            (by rw [hts']; simp) hc hcl hk' hh).2 hm
          simpa using this
      have hlt : pre.length < count := by rw [hc, hts]; simp [Forest.flatten]
      have hts1 : tokens = pre ++ (t :: k.flatten ++ (r.flatten ++ post)) := by
        rw [hts]; simp [Forest.flatten]
      have hsk1 : skip_token tokens pre.length count = .ok (pre.length + 1 + k.size) := by
        rw [hc]
        exact skip_token_tree t k tokens pre (r.flatten ++ post) hts1
          (by simp [Forest.shape, hnode, hk])
      have hb1 := htree t k pre (r.flatten ++ post) (d + 1) vis hts1 hnode hk (by omega)
        (by omega)
      have hlen1 := treeLines_length_le collapsed k (kidRole t) (pre.length + 1)
      constructor
      · -- the Array loop
        have hrest := (ih r (by omega) tokens (pre ++ t :: k.flatten) post count (f + 1) d
          (vis ++ pre.length :: (if isCollapsed collapsed pre.length = true then []
                else treeLines collapsed (kidRole t) (pre.length + 1) k))
          (by rw [hts]; simp [Forest.flatten]) hc hcl hr (by omega)).1
        simp only [List.length_append, List.length_cons, Forest.length_flatten] at hrest
        simp only [Forest.roots, arrLoop, if_pos hlt, hb1, hsk1]
        rw [show pre.length + 1 + k.size = pre.length + (k.size + 1) by omega, hrest]
        simp [treeLines, Role.next]
        rw [show pre.length + 1 + k.size = pre.length + (k.size + 1) by omega]
      · -- the Object loop
        intro hmem
        cases r with
        | nil => simp [Forest.isMembers] at hmem
        | cons v vk r' =>
          simp only [Forest.isMembers, Bool.and_eq_true, decide_eq_true_eq] at hmem
          obtain ⟨hkey, hmem'⟩ := hmem
          obtain ⟨hnodev, hvk, hr'⟩ := Forest.shape_cons hr
          have hknil : k = .nil := (Forest.children_of_nodeOk t k hnode).2.2 (Or.inl hkey)
          subst hknil
          simp only [Forest.size, Forest.height] at hF hfuel hsk1 hb1
          simp only [treeLines, ite_self] at hb1
          have hts2 : tokens = (pre ++ [t]) ++ (v :: vk.flatten ++ (r'.flatten ++ post)) := by
            rw [hts]; simp [Forest.flatten]
          have hrv : readTok tokens (pre.length + 1) = .ok v := by
            have := readTok_append (pre ++ [t]) v (vk.flatten ++ (r'.flatten ++ post))
            rw [hts2]; simpa using this
          have hsk2 : skip_token tokens (pre.length + 1) count
              = .ok (pre.length + 1 + 1 + vk.size) := by
            have := skip_token_tree v vk tokens (pre ++ [t]) (r'.flatten ++ post) hts2
              (by simp [Forest.shape, hnodev, hvk])
            rw [hc]; simpa using this
          have hb2 := htree v vk (pre ++ [t]) (r'.flatten ++ post) (d + 1)
            (vis ++ [pre.length]) hts2 hnodev hvk (by omega) (by omega)
          simp only [List.length_append, List.length_singleton] at hb2
          have hlen2 := treeLines_length_le collapsed vk (kidRole v) (pre.length + 1 + 1)
          have hroots : (Forest.cons t Forest.nil (Forest.cons v vk r')).roots / 2
              = r'.roots / 2 + 1 := by
            simp only [Forest.roots]; omega
          rw [hroots]
          simp only [objLoop, if_pos hlt, hb1, hsk1, hrv, Nat.add_zero]
          by_cases hleaf : v.type = JSMN_STRING ∨ v.type = JSMN_PRIMITIVE
          · have hvknil : vk = .nil := (Forest.children_of_nodeOk v vk hnodev).2.2 hleaf
            subst hvknil
            simp only [Forest.size, Nat.add_zero] at hsk2 hF
            have hrest := (ih r' (by omega) tokens (pre ++ [t, v]) post count (f + 1) d
              (vis ++ [pre.length])
              (by rw [hts]; simp [Forest.flatten]) hc hcl hr' (by omega)).2 hmem'
            simp only [List.length_append, List.length_cons, List.length_nil] at hrest
            simp only [if_pos hleaf, hsk2]
            rw [hrest]
            simp [treeLines, Role.next, hleaf, Forest.size]
          · have hrest := (ih r' (by omega) tokens (pre ++ t :: v :: vk.flatten) post count
              (f + 1) d
              (vis ++ [pre.length] ++ (pre.length + 1) ::
                (if isCollapsed collapsed (pre.length + 1) = true then []
                  else treeLines collapsed (kidRole v) (pre.length + 1 + 1) vk))
              (by rw [hts]; simp [Forest.flatten]) hc hcl hr' (by omega)).2 hmem'
            simp only [List.length_append, List.length_cons, Forest.length_flatten] at hrest
            simp only [if_neg hleaf, hb2, hsk2]
            rw [show pre.length + 1 + 1 + vk.size = pre.length + (vk.size + 1 + 1) by omega,
              hrest]
            simp [treeLines, Role.next, hleaf, Forest.size]
            rw [show pre.length + 1 + 1 + vk.size = pre.length + (vk.size + 1 + 1) by omega]

theorem project_doc (doc : Forest) (hwf : doc.wellFormed = true) (collapsed : List Int)
    (hcl : collapsed.length = doc.size) (d : Nat) :
    projectFuel doc.flatten doc.size collapsed (doc.size + 1) 0 d []
      = .ok (treeLines collapsed .elem 0 doc) := by
  obtain ⟨t, k, hF, hshape, hspans⟩ := Forest.wellFormed_iff doc hwf
  subst hF
  obtain ⟨hnode, hk, _⟩ := Forest.shape_cons hshape
  have hts : (Forest.cons t k .nil).flatten = [] ++ (t :: k.flatten ++ []) := by
    simp [Forest.flatten]
  have hc : (Forest.cons t k .nil).size = (Forest.cons t k .nil).flatten.length :=
    (Forest.length_flatten _).symm
  have hh := Forest.height_le_size k
  have hsz : (Forest.cons t k .nil).size = k.size + 1 := by simp [Forest.size]
  have hloops := fun v => projectLoops_forest collapsed k.size k (le_refl _)
    (Forest.cons t k .nil).flatten [t] [] (Forest.cons t k .nil).size
    (Forest.cons t k .nil).size d v (by simp [Forest.flatten]) hc hcl hk (by omega)
  have h := projectFuel_tree (Forest.cons t k .nil).flatten [] [] t k collapsed
    (Forest.cons t k .nil).size (Forest.cons t k .nil).size d [] hts hc hcl hnode
    (fun _ v => by simpa using (hloops v).1)
    (fun ht v => by
      have hm : k.isMembers = true := by
        simp only [Forest.nodeOk, ht, Bool.and_eq_true] at hnode
        exact hnode.1
      simpa using (hloops v).2 hm)
  simpa [treeLines] using h

/-! ## A document with more lines than the visible list can hold -/

theorem wideElems_roots : ∀ n pos, (wideElems n pos).roots = n := by
  intro n
  induction n with
  | zero => intro pos; rfl
  | succ n ih => intro pos; simp [wideElems, Forest.roots, ih]

theorem wideElems_size : ∀ n pos, (wideElems n pos).size = n := by
  intro n
  induction n with
  | zero => intro pos; rfl
  | succ n ih => intro pos; simp [wideElems, Forest.size, ih]

theorem wideElems_shape : ∀ n pos, (wideElems n pos).shape = true := by
  intro n
  induction n with
  | zero => intro pos; rfl
  | succ n ih => intro pos; simp [wideElems, Forest.shape, Forest.nodeOk, ih]

theorem wideElems_spans : ∀ (n : Nat) (pos lo hi : Int), lo ≤ pos → pos + 2 * (n : Int) ≤ hi + 1 →
    (wideElems n pos).spans lo hi = true := by
  intro n
  induction n with
  | zero => intro pos lo hi _ _; rfl
  | succ n ih =>
    intro pos lo hi h1 h2
    have h3 := ih (pos + 2) (pos + 1) hi (by omega) (by push_cast at h2 ⊢; omega)
    simp only [wideElems, Forest.spans, h3, Bool.and_true, Bool.and_eq_true, decide_eq_true_eq]
    push_cast at h2
    omega

theorem wideDoc_wellFormed (n : Nat) : (wideDoc n).wellFormed = true := by
  have h1 := wideElems_shape n 1
  have h2 := wideElems_spans n 1 1 (2 * (n : Int)) (le_refl _) (by omega)
  have h3 := wideElems_roots n 1
  simp only [wideDoc, Forest.wellFormed, Forest.shape, Forest.nodeOk, Forest.spans, h1, h3,
    Bool.and_true, Bool.and_eq_true, decide_eq_true_eq]
  refine ⟨trivial, ⟨⟨by omega, by omega⟩, ?_⟩⟩
  rw [show (0 : Int) + 1 = 1 by rfl, show 2 * (n : Int) + 1 - 1 = 2 * (n : Int) by omega]
  exact h2

theorem wideDoc_size (n : Nat) : (wideDoc n).size = n + 1 := by
  simp [wideDoc, Forest.size, wideElems_size]

theorem isCollapsed_zeros (m i : Nat) : isCollapsed (List.replicate m 0) i = false := by
  unfold isCollapsed
  cases h : (List.replicate m (0 : Int))[i]? with
  | none => rfl
  | some c =>
    have := List.getElem?_mem h
    rw [List.mem_replicate] at this
    simp [this.2]

theorem treeLines_wideElems (m : Nat) :
    ∀ n base pos, treeLines (List.replicate m 0) .elem base (wideElems n pos)
      = List.range' base n := by
  intro n
  induction n with
  | zero => intro base pos; rfl
  | succ n ih =>
    intro base pos
    simp [wideElems, treeLines, isCollapsed_zeros, kidRole, Role.next, Forest.size, ih,
      List.range'_succ]

/-- With nothing collapsed every token of the wide array is a line. -/
theorem expectedVisible_wideDoc (n : Nat) :
    expectedVisible (wideDoc n) (List.replicate (wideDoc n).size 0) = List.range (n + 1) := by
  rw [← expectedVisible_eq_treeLines (wideDoc n) (wideDoc_wellFormed n)]
  simp only [wideDoc, treeLines, isCollapsed_zeros, kidRole, Role.next]
  simp [treeLines_wideElems, List.range_eq_range', List.range'_succ]

theorem arrLoop_sim (tokens : List jsmntok_t) (count : Nat)
    (rc ru : Nat → List Nat → Except Fault (List Nat))
    (hsim : ∀ i c u u', c = u.take MAX_TOKENS → ru i u = .ok u' →
      rc i c = .ok (u'.take MAX_TOKENS)) :
    ∀ n ch c u u', c = u.take MAX_TOKENS → arrLoop tokens count ru n ch u = .ok u' →
      arrLoop tokens count rc n ch c = .ok (u'.take MAX_TOKENS) := by
  intro n
  induction n with
  | zero =>
    intro ch c u u' hc h
    simp only [arrLoop] at h ⊢
    injection h with h; subst h; rw [hc]
  | succ n ih =>
    intro ch c u u' hc h
    simp only [arrLoop] at h ⊢
    split at h
    · next hlt =>
      rw [if_pos hlt]
      cases h1 : ru ch u with
      | error e => simp [h1] at h
      | ok u1 =>
        simp only [h1] at h
        rw [hsim ch c u u1 hc h1]
        cases h2 : skip_token tokens ch count with
        | error e => simp [h2] at h
        | ok c1 =>
          simp only [h2] at h ⊢
          exact ih c1 _ u1 u' rfl h
    · next hlt =>
      rw [if_neg hlt]
      injection h with h; subst h; rw [hc]

theorem objLoop_sim (tokens : List jsmntok_t) (count : Nat)
    (rc ru : Nat → List Nat → Except Fault (List Nat))
    (hsim : ∀ i c u u', c = u.take MAX_TOKENS → ru i u = .ok u' →
      rc i c = .ok (u'.take MAX_TOKENS)) :
    ∀ n ch c u u', c = u.take MAX_TOKENS → objLoop tokens count ru n ch u = .ok u' →
      objLoop tokens count rc n ch c = .ok (u'.take MAX_TOKENS) := by
  intro n
  induction n with
  | zero =>
    intro ch c u u' hc h
    simp only [objLoop] at h ⊢
    injection h with h; subst h; rw [hc]
  | succ n ih =>
    intro ch c u u' hc h
    simp only [objLoop] at h ⊢
    split at h
    · next hlt =>
      rw [if_pos hlt]
      cases h1 : ru ch u with
      | error e => simp [h1] at h
      | ok u1 =>
        simp only [h1] at h
        rw [hsim ch c u u1 hc h1]
        cases h2 : skip_token tokens ch count with
        | error e => simp [h2] at h
        | ok c1 =>
          simp only [h2] at h ⊢
          cases h3 : readTok tokens c1 with
          | error e => simp [h3] at h
          | ok value_tok =>
            simp only [h3] at h ⊢
            by_cases hleaf : value_tok.type = JSMN_STRING ∨ value_tok.type = JSMN_PRIMITIVE
            · simp only [if_pos hleaf] at h ⊢
              cases h4 : skip_token tokens c1 count with
              | error e => simp [h4] at h
              | ok c2 =>
                simp only [h4] at h ⊢
                exact ih c2 _ u1 u' rfl h
            · simp only [if_neg hleaf] at h ⊢
              cases h5 : ru c1 u1 with
              | error e => simp [h5] at h
              | ok u2 =>
                simp only [h5] at h
                rw [hsim c1 _ u1 u2 rfl h5]
                cases h4 : skip_token tokens c1 count with
                | error e => simp [h4] at h
                | ok c2 =>
                  simp only [h4] at h ⊢
                  exact ih c2 _ u2 u' rfl h
    · next hlt =>
      rw [if_neg hlt]
      injection h with h; subst h; rw [hc]

/-- When the traversal without the bound returns, `build_visible_tokens`
started on the first `MAX_TOKENS` entries of the same list returns the first
`MAX_TOKENS` entries of its result. -/
theorem buildFuel_sim (tokens : List jsmntok_t) (count : Nat) (collapsed : List Int) :
    ∀ fuel i d c u u', c = u.take MAX_TOKENS →
      projectFuel tokens count collapsed fuel i d u = .ok u' →
      buildFuel tokens count collapsed fuel i d c = .ok (u'.take MAX_TOKENS) := by
  intro fuel
  induction fuel with
  | zero => intro i d c u u' _ h; simp [projectFuel] at h
  | succ fuel ih =>
    intro i d c u u' hc h
    obtain ⟨L, hL⟩ := projectFuel_extends tokens count collapsed (fuel + 1) i d u u' h
    simp only [projectFuel] at h
    simp only [buildFuel]
    by_cases hge : i ≥ count
    · rw [if_pos hge] at h
      rw [if_pos (Or.inl hge)]
      injection h with h; subst h; rw [hc]
    · rw [if_neg hge] at h
      by_cases hfull : c.length ≥ MAX_TOKENS
      · rw [if_pos (Or.inr hfull)]
        have hul : MAX_TOKENS ≤ u.length := by
          rw [hc, List.length_take] at hfull; omega
        rw [hL, List.take_append_of_le_length hul, hc]
      · rw [if_neg (by omega)]
        have hul : u.length < MAX_TOKENS := by
          rw [hc, List.length_take] at hfull; omega
        have hcu : c = u := by rw [hc, List.take_of_length_le (by omega)]
        subst hcu
        have hc1 : c ++ [i] = (c ++ [i]).take MAX_TOKENS := by
          rw [List.take_of_length_le (by simp; omega)]
        cases h1 : readTok tokens i with
        | error e => simp [h1] at h
        | ok tok =>
          simp only [h1] at h ⊢
          cases h2 : readInt collapsed i with
          | error e => simp [h2] at h
          | ok cv =>
            simp only [h2] at h ⊢
            by_cases hcol : cv ≠ 0
            · rw [if_pos hcol] at h ⊢
              injection h with h; subst h; rw [← hc1]
            · rw [if_neg hcol] at h ⊢
              by_cases hobj : tok.type = JSMN_OBJECT
              · rw [if_pos hobj] at h ⊢
                exact objLoop_sim tokens count _ _
                  (fun j a b b' hab hb => ih j (d + 1) a b b' hab hb) _ _ _ _ _ hc1 h
              · rw [if_neg hobj] at h ⊢
                by_cases harr : tok.type = JSMN_ARRAY
                · rw [if_pos harr] at h ⊢
                  exact arrLoop_sim tokens count _ _
                    (fun j a b b' hab hb => ih j (d + 1) a b b' hab hb) _ _ _ _ _ hc1 h
                · rw [if_neg harr] at h ⊢
                  injection h with h; subst h; rw [← hc1]

/-- C20: for every token array and CollapseState, whenever
`build_visible_tokens(viewer, 0, 0)` started with an empty visible list
returns, `visible_count <= MAX_TOKENS`; whenever the traversal without the
capacity bound returns a list of lines, `build_visible_tokens` returns too, and
its visible list is exactly the first `MAX_TOKENS` of those lines, the rest of
the state being as before; and on the token array of a well-formed document of
any size it returns the first `MAX_TOKENS` lines of the projection. -/
theorem build_visible_tokens_capacity (viewer : JsonViewer)
    (hvis : viewer.visible_tokens = []) :
    (∀ v, build_visible_tokens viewer 0 0 = .ok v → v.visible_count ≤ MAX_TOKENS) ∧
    (∀ lines,
      projectFuel viewer.tokens viewer.token_count viewer.collapsed
        (viewer.token_count + 1) 0 0 [] = .ok lines →
      build_visible_tokens viewer 0 0
        = .ok { viewer with visible_tokens := lines.take MAX_TOKENS }) ∧
    (∀ doc : Forest, doc.wellFormed = true → viewer.tokens = doc.flatten →
      viewer.token_count = doc.size → viewer.collapsed.length = doc.size →
      projectFuel viewer.tokens viewer.token_count viewer.collapsed
        (viewer.token_count + 1) 0 0 [] = .ok (expectedVisible doc viewer.collapsed) ∧
      build_visible_tokens viewer 0 0
        = .ok { viewer with
                visible_tokens := (expectedVisible doc viewer.collapsed).take MAX_TOKENS }) := by
  have h2 : ∀ lines,
      projectFuel viewer.tokens viewer.token_count viewer.collapsed
        (viewer.token_count + 1) 0 0 [] = .ok lines →
      build_visible_tokens viewer 0 0
        = .ok { viewer with visible_tokens := lines.take MAX_TOKENS } := by
    intro lines h
    unfold build_visible_tokens
    rw [hvis, buildFuel_sim _ _ _ _ 0 0 [] [] lines (by simp) h]
  refine ⟨?_, h2, ?_⟩
  · intro v h
    unfold build_visible_tokens at h
    cases hb : buildFuel viewer.tokens viewer.token_count viewer.collapsed
        (viewer.token_count + 1) 0 0 viewer.visible_tokens with
    | error e => simp [hb] at h
    | ok vis =>
      simp only [hb] at h
      injection h with h; subst h
      exact buildFuel_bounded _ _ _ _ _ _ _ _ hb (by rw [hvis]; simp)
  · intro doc hwf htok hcount hcl
    have hp : projectFuel viewer.tokens viewer.token_count viewer.collapsed
        (viewer.token_count + 1) 0 0 [] = .ok (expectedVisible doc viewer.collapsed) := by
      rw [htok, hcount, project_doc doc hwf viewer.collapsed hcl 0,
        expectedVisible_eq_treeLines doc hwf]
    exact ⟨hp, h2 _ hp⟩

theorem docViewer_fields (doc : Forest) (json_str : List Nat) :
    (docViewer doc json_str).tokens = doc.flatten ∧
    (docViewer doc json_str).token_count = doc.size ∧
    (docViewer doc json_str).collapsed = List.replicate doc.size 0 ∧
    (docViewer doc json_str).visible_tokens = [] :=
  ⟨rfl, rfl, rfl, rfl⟩

theorem build_visible_tokens_capacity_witness :
    (docViewer (wideDoc 2100) (wideText 2100)).visible_tokens = [] ∧
    (wideDoc 2100).wellFormed = true ∧
    (docViewer (wideDoc 2100) (wideText 2100)).token_count = 2101 ∧
    expectedVisible (wideDoc 2100) (docViewer (wideDoc 2100) (wideText 2100)).collapsed
      = List.range 2101 ∧
    MAX_TOKENS < (expectedVisible (wideDoc 2100)
      (docViewer (wideDoc 2100) (wideText 2100)).collapsed).length ∧
    build_visible_tokens (docViewer (wideDoc 2100) (wideText 2100)) 0 0
      = .ok { docViewer (wideDoc 2100) (wideText 2100) with
              visible_tokens := List.range 2048 } ∧
    (∀ v, build_visible_tokens (docViewer (wideDoc 2100) (wideText 2100)) 0 0 = .ok v →
      v.visible_count ≤ MAX_TOKENS) := by
  obtain ⟨htok, hcount, hcol, hnil⟩ := docViewer_fields (wideDoc 2100) (wideText 2100)
  have hvis : expectedVisible (wideDoc 2100)
      (docViewer (wideDoc 2100) (wideText 2100)).collapsed = List.range 2101 := by
    rw [hcol]; exact expectedVisible_wideDoc 2100
  have h := build_visible_tokens_capacity (docViewer (wideDoc 2100) (wideText 2100)) hnil
  have hb := (h.2.2 (wideDoc 2100) (wideDoc_wellFormed 2100) htok hcount
    (by rw [hcol, List.length_replicate])).2
  rw [hvis, List.take_range] at hb
  refine ⟨hnil, wideDoc_wellFormed 2100, by rw [hcount]; exact wideDoc_size 2100, hvis, ?_,
    hb, h.1⟩
  rw [hvis, List.length_range]
  decide

/-! ## The value of the last member is read without a test of its index -/

theorem skipLoop_at_end (f : Nat → Except Fault Nat) (count n next : Nat) (h : ¬ next < count) :
    skipLoop f count n next = .ok next := by
  cases n with
  | zero => rfl
  | succ n => simp [skipLoop, h]

/-- C21 (divergence): for the tokens of `{"a"}`, an Object of declared size 1
followed by its key and no value token, `viewer_init` gives a session with
`token_count = 2`, and `build_visible_tokens(viewer, 0, 0)` reads `tokens[2]`:
on the two tokens the tokenizer wrote the call is a fault, at the first frame
of the session too, while with any token `t` at index 2 of the buffer it
returns the lines 0 and 1.  The Array loop on an Array of declared size 2 with
one element present returns without such a read. -/
theorem build_visible_tokens_reads_past_count :
    ∃ v0, viewer_init loneKeyText 2 loneKeyTokens = .ok (some v0) ∧
      v0.token_count = 2 ∧ v0.tokens.length = 2 ∧
      readTok v0.tokens 2 = .error .outOfBounds ∧
      build_visible_tokens v0 0 0 = .error .outOfBounds ∧
      refresh_view v0 24 80 = .error .outOfBounds ∧
      (∀ t : jsmntok_t,
        build_visible_tokens { v0 with tokens := v0.tokens ++ [t] } 0 0
          = .ok { v0 with tokens := v0.tokens ++ [t], visible_tokens := [0, 1] }) ∧
      build_visible_tokens { v0 with tokens := shortArrayTokens } 0 0
        = .ok { v0 with tokens := shortArrayTokens, visible_tokens := [0, 1] } := by
  refine ⟨_, rfl, rfl, rfl, rfl, rfl, rfl, ?_, rfl⟩
  intro t
  have hskip : skip_token (loneKeyTokens ++ [t]) 2 2 = .ok 3 := by
    simp only [skip_token, skipFuel, readTok, loneKeyTokens]
    simp only [List.cons_append, List.nil_append, List.getElem?_cons_succ,
      List.getElem?_cons_zero]
    split
    · exact skipLoop_at_end _ _ _ _ (by omega)
    · rfl
  have hkey : skip_token (loneKeyTokens ++ [t]) 1 2 = .ok 2 := rfl
  have hread : readTok (loneKeyTokens ++ [t]) 2 = .ok t := rfl
  have hread0 : readTok (loneKeyTokens ++ [t]) 0 = .ok ⟨JSMN_OBJECT, 0, 5, 1⟩ := rfl
  have hread1 : readTok (loneKeyTokens ++ [t]) 1 = .ok ⟨JSMN_STRING, 2, 3, 0⟩ := rfl
  have hb : buildFuel (loneKeyTokens ++ [t]) 2 [0, 0] (2 + 1) 0 0 [] = .ok [0, 1] := by
    have hrec : ∀ i d v, 2 ≤ i →
        buildFuel (loneKeyTokens ++ [t]) 2 [0, 0] 2 i d v = .ok v := by
      intro i d v hi
      rw [show (2 : Nat) = 1 + 1 from rfl, buildFuel, if_pos (Or.inl hi)]
    have hrec1 : buildFuel (loneKeyTokens ++ [t]) 2 [0, 0] 2 (0 + 1) (0 + 1) [0]
        = .ok [0, 1] := rfl
    rw [buildFuel, if_neg (by simp [MAX_TOKENS]), hread0]
    simp only [readInt, List.getElem?_cons_zero, ne_eq, not_true_eq_false,
      if_false, if_true, List.nil_append]
    rw [show Int.toNat 1 = 0 + 1 from rfl, objLoop, if_pos (by omega), hrec1]
    simp only [Nat.zero_add, hkey, hread, hrec 2 _ _ (le_refl _), ite_self, hskip, objLoop]
  show build_visible_tokens _ 0 0 = _
  unfold build_visible_tokens
  show (match buildFuel (loneKeyTokens ++ [t]) 2 [0, 0] (2 + 1) 0 0 [] with
    | Except.error e => Except.error e
    | Except.ok vis => Except.ok _) = _
  rw [hb]

/-! ## The record of the appends and the depth argument -/

theorem objTrace_erase (tokens : List jsmntok_t) (count : Nat)
    (rt : Nat → List (Nat × Nat) → Except Fault (List (Nat × Nat)))
    (rb : Nat → List Nat → Except Fault (List Nat))
    (hrec : ∀ i log, Except.map (List.map Prod.fst) (rt i log) = rb i (log.map Prod.fst)) :
    ∀ n c log, Except.map (List.map Prod.fst) (objTrace tokens count rt n c log)
      = objLoop tokens count rb n c (log.map Prod.fst) := by
  intro n
  induction n with
  | zero => intro c log; rfl
  | succ n ih =>
    intro c log
    simp only [objTrace, objLoop]
    split
    · rw [← hrec c log]
      cases h1 : rt c log with
      | error e => rfl
      | ok log1 =>
        simp only [Except.map]
        cases h2 : skip_token tokens c count with
        | error e => rfl
        | ok child1 =>
          simp only []
          cases h3 : readTok tokens child1 with
          | error e => rfl
          | ok value_tok =>
            simp only []
            by_cases hv : value_tok.type = JSMN_STRING ∨ value_tok.type = JSMN_PRIMITIVE
            · simp only [if_pos hv]
              cases h4 : skip_token tokens child1 count with
              | error e => rfl
              | ok child2 => exact ih child2 log1
            · simp only [if_neg hv]
              rw [← hrec child1 log1]
              cases h5 : rt child1 log1 with
              | error e => rfl
              | ok log2 =>
                simp only [Except.map]
                cases h4 : skip_token tokens child1 count with
                | error e => rfl
                | ok child2 => exact ih child2 log2
    · rfl

theorem arrTrace_erase (tokens : List jsmntok_t) (count : Nat)
    (rt : Nat → List (Nat × Nat) → Except Fault (List (Nat × Nat)))
    (rb : Nat → List Nat → Except Fault (List Nat))
    (hrec : ∀ i log, Except.map (List.map Prod.fst) (rt i log) = rb i (log.map Prod.fst)) :
    ∀ n c log, Except.map (List.map Prod.fst) (arrTrace tokens count rt n c log)
      = arrLoop tokens count rb n c (log.map Prod.fst) := by
  intro n
  induction n with
  | zero => intro c log; rfl
  | succ n ih =>
    intro c log
    simp only [arrTrace, arrLoop]
    split
    · rw [← hrec c log]
      cases h1 : rt c log with
      | error e => rfl
      | ok log1 =>
        simp only [Except.map]
        cases h2 : skip_token tokens c count with
        | error e => rfl
        | ok child1 => exact ih child1 log1
    · rfl

/-- Forgetting the depths in the record gives the visible list: the recording
traversal makes the same calls and the same appends as
`build_visible_tokens`, on every token array. -/
theorem traceFuel_erase (tokens : List jsmntok_t) (count : Nat) (collapsed : List Int) :
    ∀ fuel i d log, Except.map (List.map Prod.fst) (traceFuel tokens count collapsed fuel i d log)
      = buildFuel tokens count collapsed fuel i d (log.map Prod.fst) := by
  intro fuel
  induction fuel with
  | zero => intro i d log; rfl
  | succ fuel ih =>
    intro i d log
    simp only [traceFuel, buildFuel, List.length_map]
    by_cases hc : i ≥ count ∨ log.length ≥ MAX_TOKENS
    · simp only [if_pos hc]; rfl
    · simp only [if_neg hc]
      cases h1 : readTok tokens i with
      | error e => rfl
      | ok tok =>
        simp only []
        cases h2 : readInt collapsed i with
        | error e => rfl
        | ok c =>
          simp only []
          have hl : (log ++ [(i, d)]).map Prod.fst = log.map Prod.fst ++ [i] := by simp
          by_cases hcz : c ≠ 0
          · simp only [if_pos hcz, Except.map, hl]
          · simp only [if_neg hcz]
            by_cases hobj : tok.type = JSMN_OBJECT
            · simp only [if_pos hobj]
              rw [← hl]
              exact objTrace_erase tokens count _ _ (fun i' log' => ih i' (d + 1) log') _ _ _
            · simp only [if_neg hobj]
              by_cases harr : tok.type = JSMN_ARRAY
              · simp only [if_pos harr]
                rw [← hl]
                exact arrTrace_erase tokens count _ _ (fun i' log' => ih i' (d + 1) log') _ _ _
              · simp only [if_neg harr, Except.map, hl]
theorem treeDepths_length_le (collapsed : List Int) (F : Forest) :
    ∀ role base depth, (treeDepths collapsed role base depth F).length ≤ F.size := by
  induction F with
  | nil => intro _ _ _; simp [treeDepths]
  | cons t k r ihk ihr =>
    intro role base depth
    have h1 := ihk (kidRole t) (base + 1) (depth + 1)
    have h2 := ihr role.next (base + 1 + k.size) depth
    simp only [treeDepths, Forest.size, List.length_append]
    split
    · simp; omega
    · split <;> simp <;> omega

/-- One call of the recording traversal on the root of a tree, given what the
two loops do on its children. -/
theorem traceFuel_tree (tokens pre post : List jsmntok_t) (t : jsmntok_t) (k : Forest)
    (collapsed : List Int) (count fuel d : Nat) (vis : List (Nat × Nat))
    (hts : tokens = pre ++ (t :: k.flatten ++ post)) (hc : count = tokens.length)
    (hcl : collapsed.length = count) (hnode : Forest.nodeOk t k = true)
    (hA : t.type = JSMN_ARRAY → ∀ v : List (Nat × Nat), v.length + k.size ≤ MAX_TOKENS →
      arrTrace tokens count (fun i v => traceFuel tokens count collapsed fuel i (d + 1) v)
        k.roots (pre.length + 1) v
        = .ok (v ++ treeDepths collapsed .elem (pre.length + 1) (d + 1) k))
    (hO : t.type = JSMN_OBJECT → ∀ v : List (Nat × Nat), v.length + k.size ≤ MAX_TOKENS →
      objTrace tokens count (fun i v => traceFuel tokens count collapsed fuel i (d + 1) v)
        (k.roots / 2) (pre.length + 1) v
        = .ok (v ++ treeDepths collapsed .key (pre.length + 1) (d + 1) k))
    (hv : vis.length + (k.size + 1) ≤ MAX_TOKENS) :
    traceFuel tokens count collapsed (fuel + 1) pre.length d vis
      = .ok (vis ++ (pre.length, d) :: (if isCollapsed collapsed pre.length = true then []
          else treeDepths collapsed (kidRole t) (pre.length + 1) (d + 1) k)) := by
  have hlt : pre.length < count := by rw [hc, hts]; simp
  have hread : readTok tokens pre.length = .ok t := by
    rw [hts]; simp only [List.cons_append]; exact readTok_append _ _ _
  have hcond : ¬ (pre.length ≥ count ∨ vis.length ≥ MAX_TOKENS) := by omega
  obtain ⟨hobj, harr, hleaf⟩ := Forest.children_of_nodeOk t k hnode
  obtain ⟨c, hrc, hcc⟩ := readInt_collapsed collapsed pre.length (hcl ▸ hlt)
  simp only [traceFuel, if_neg hcond, hread, hrc]
  by_cases hcol : c ≠ 0
  · have hic : isCollapsed collapsed pre.length = true := by rw [hcc]; simpa using hcol
    rw [if_pos hcol, hic]
    simp
  · have hic : isCollapsed collapsed pre.length = false := by rw [hcc]; simpa using hcol
    rw [if_neg hcol, hic]
    simp only [Bool.false_eq_true, if_false]
    cases ht : t.type
    · have h2 : t.size.toNat = k.roots / 2 := by have := (hobj ht).2; omega
      simp only [if_true, h2]
      rw [hO ht _ (by simp; omega)]
      simp [kidRole, ht]
    · simp only [if_true, harr ht]
      rw [if_neg (by simp), hA ht _ (by simp; omega)]
      simp [kidRole, ht]
    · simp [hleaf (Or.inl ht), treeDepths]
    · simp [hleaf (Or.inr ht), treeDepths]

/-- The two loops of the recording traversal over a forest that sits at index
`pre.length`: the Array loop appends the lines of the forest read as elements,
the Object loop those of the forest read as members. -/
theorem traceLoops_forest (collapsed : List Int) :
    ∀ (n : Nat) (F : Forest), F.size ≤ n →
      ∀ (tokens pre post : List jsmntok_t) (count fuel d : Nat) (vis : List (Nat × Nat)),
        tokens = pre ++ (F.flatten ++ post) → count = tokens.length →
        collapsed.length = count → F.shape = true → F.height ≤ fuel →
        vis.length + F.size ≤ MAX_TOKENS →
        arrTrace tokens count (fun i v => traceFuel tokens count collapsed fuel i (d + 1) v)
            F.roots pre.length vis
          = .ok (vis ++ treeDepths collapsed .elem pre.length (d + 1) F) ∧
        (F.isMembers = true →
          objTrace tokens count (fun i v => traceFuel tokens count collapsed fuel i (d + 1) v)
              (F.roots / 2) pre.length vis
            = .ok (vis ++ treeDepths collapsed .key pre.length (d + 1) F)) := by
  intro n
  induction n with
  | zero =>
    intro F hF tokens pre post count fuel d vis _ _ _ _ _ _
    have := Forest.size_eq_zero (Nat.le_zero.mp hF)
    subst this
    simp [Forest.roots, arrTrace, objTrace, treeDepths]
  | succ n ih =>
    intro F hF tokens pre post count fuel d vis hts hc hcl hshape hfuel hv
    cases F with
    | nil => simp [Forest.roots, arrTrace, objTrace, treeDepths]
    | cons t k r =>
      obtain ⟨hnode, hk, hr⟩ := Forest.shape_cons hshape
      simp only [Forest.height] at hfuel
      simp only [Forest.size] at hF hv
      obtain ⟨f, rfl⟩ : ∃ f, fuel = f + 1 := ⟨fuel - 1, by omega⟩
      -- one call on the root of any smaller tree of the array
      have htree : ∀ (t' : jsmntok_t) (k' : Forest) (pre' post' : List jsmntok_t)
          (d' : Nat) (vis' : List (Nat × Nat)),
          tokens = pre' ++ (t' :: k'.flatten ++ post') → Forest.nodeOk t' k' = true →
          k'.shape = true → k'.size ≤ n → k'.height ≤ f →
          vis'.length + (k'.size + 1) ≤ MAX_TOKENS →
          traceFuel tokens count collapsed (f + 1) pre'.length d' vis'
            = .ok (vis' ++ (pre'.length, d') :: (if isCollapsed collapsed pre'.length = true then []
                else treeDepths collapsed (kidRole t') (pre'.length + 1) (d' + 1) k')) := by
        intro t' k' pre' post' d' vis' hts' hnode' hk' hsz hh hv'
        apply traceFuel_tree tokens pre' post' t' k' collapsed count f d' vis' hts' hc hcl hnode'
        · intro _ v hvv
          have := (ih k' hsz tokens (pre' ++ [t']) post' count f d' v
            (by rw [hts']; simp) hc hcl hk' hh hvv).1
          simpa using this
        · intro ht v hvv
          have hm : k'.isMembers = true := by
            simp only [Forest.nodeOk, ht, Bool.and_eq_true] at hnode'
            exact hnode'.1
          have := (ih k' hsz tokens (pre' ++ [t']) post' count f d' v
            (by rw [hts']; simp) hc hcl hk' hh hvv).2 hm
          simpa using this
        · exact hv'
      have hlt : pre.length < count := by rw [hc, hts]; simp [Forest.flatten]
      have hts1 : tokens = pre ++ (t :: k.flatten ++ (r.flatten ++ post)) := by
        rw [hts]; simp [Forest.flatten]
      have hsk1 : skip_token tokens pre.length count = .ok (pre.length + 1 + k.size) := by
        rw [hc]
        exact skip_token_tree t k tokens pre (r.flatten ++ post) hts1
          (by simp [Forest.shape, hnode, hk])
      have hb1 := htree t k pre (r.flatten ++ post) (d + 1) vis hts1 hnode hk (by omega)
        (by omega) (by omega)
      have hlen1 := treeDepths_length_le collapsed k (kidRole t) (pre.length + 1) (d + 1 + 1)
      constructor
      · -- the Array loop
        have hrest := (ih r (by omega) tokens (pre ++ t :: k.flatten) post count (f + 1) d
          (vis ++ (pre.length, d + 1) :: (if isCollapsed collapsed pre.length = true then []
                else treeDepths collapsed (kidRole t) (pre.length + 1) (d + 1 + 1) k))
          (by rw [hts]; simp [Forest.flatten]) hc hcl hr (by omega)
          (by simp only [List.length_append, List.length_cons]
              split <;> (try simp) <;> omega)).1
        simp only [List.length_append, List.length_cons, Forest.length_flatten] at hrest
        simp only [Forest.roots, arrTrace, if_pos hlt, hb1, hsk1]
        rw [show pre.length + 1 + k.size = pre.length + (k.size + 1) by omega, hrest]
        simp [treeDepths, Role.next]
        rw [show pre.length + 1 + k.size = pre.length + (k.size + 1) by omega]
      · -- the Object loop
        intro hmem
        cases r with
        | nil => simp [Forest.isMembers] at hmem
        | cons v vk r' =>
          simp only [Forest.isMembers, Bool.and_eq_true, decide_eq_true_eq] at hmem
          obtain ⟨hkey, hmem'⟩ := hmem
          obtain ⟨hnodev, hvk, hr'⟩ := Forest.shape_cons hr
          have hknil : k = .nil := (Forest.children_of_nodeOk t k hnode).2.2 (Or.inl hkey)
          subst hknil
          simp only [Forest.size, Forest.height] at hF hv hfuel hsk1 hb1
          simp only [treeDepths, ite_self] at hb1
          have hts2 : tokens = (pre ++ [t]) ++ (v :: vk.flatten ++ (r'.flatten ++ post)) := by
            rw [hts]; simp [Forest.flatten]
          have hrv : readTok tokens (pre.length + 1) = .ok v := by
            have := readTok_append (pre ++ [t]) v (vk.flatten ++ (r'.flatten ++ post))
            rw [hts2]; simpa using this
          have hsk2 : skip_token tokens (pre.length + 1) count
              = .ok (pre.length + 1 + 1 + vk.size) := by
            have := skip_token_tree v vk tokens (pre ++ [t]) (r'.flatten ++ post) hts2
              (by simp [Forest.shape, hnodev, hvk])
            rw [hc]; simpa using this
          have hb2 := htree v vk (pre ++ [t]) (r'.flatten ++ post) (d + 1)
            (vis ++ [(pre.length, d + 1)]) hts2 hnodev hvk (by omega) (by omega)
            (by simp; omega)
          simp only [List.length_append, List.length_singleton] at hb2
          have hlen2 := treeDepths_length_le collapsed vk (kidRole v) (pre.length + 1 + 1) (d + 1 + 1)
          have hroots : (Forest.cons t Forest.nil (Forest.cons v vk r')).roots / 2
              = r'.roots / 2 + 1 := by
            simp only [Forest.roots]; omega
          rw [hroots]
          simp only [objTrace, if_pos hlt, hb1, hsk1, hrv, Nat.add_zero]
          by_cases hleaf : v.type = JSMN_STRING ∨ v.type = JSMN_PRIMITIVE
          · have hvknil : vk = .nil := (Forest.children_of_nodeOk v vk hnodev).2.2 hleaf
            subst hvknil
            simp only [Forest.size, Nat.add_zero] at hsk2 hF hv
            have hrest := (ih r' (by omega) tokens (pre ++ [t, v]) post count (f + 1) d
              (vis ++ [(pre.length, d + 1)])
              (by rw [hts]; simp [Forest.flatten]) hc hcl hr' (by omega)
              (by simp; omega)).2 hmem'
            simp only [List.length_append, List.length_cons, List.length_nil] at hrest
            simp only [if_pos hleaf, hsk2]
            rw [hrest]
            simp [treeDepths, Role.next, hleaf, Forest.size]
          · have hrest := (ih r' (by omega) tokens (pre ++ t :: v :: vk.flatten) post count
              (f + 1) d
              (vis ++ [(pre.length, d + 1)] ++ (pre.length + 1, d + 1) ::
                (if isCollapsed collapsed (pre.length + 1) = true then []
                  else treeDepths collapsed (kidRole v) (pre.length + 1 + 1) (d + 1 + 1) vk))
              (by rw [hts]; simp [Forest.flatten]) hc hcl hr' (by omega)
              (by simp only [List.length_append, List.length_cons, List.length_nil]
                  split <;> (try simp) <;> omega)).2 hmem'
            simp only [List.length_append, List.length_cons, Forest.length_flatten] at hrest
            simp only [if_neg hleaf, hb2, hsk2]
            rw [show pre.length + 1 + 1 + vk.size = pre.length + (vk.size + 1 + 1) by omega,
              hrest]
            simp [treeDepths, Role.next, hleaf, Forest.size]
            rw [show pre.length + 1 + 1 + vk.size = pre.length + (vk.size + 1 + 1) by omega]

theorem trace_doc (doc : Forest) (hwf : doc.wellFormed = true) (collapsed : List Int)
    (hcl : collapsed.length = doc.size) (hmax : doc.size ≤ MAX_TOKENS) (d : Nat) :
    traceFuel doc.flatten doc.size collapsed (doc.size + 1) 0 d []
      = .ok (treeDepths collapsed .elem 0 d doc) := by
  obtain ⟨t, k, hF, hshape, hspans⟩ := Forest.wellFormed_iff doc hwf
  subst hF
  obtain ⟨hnode, hk, _⟩ := Forest.shape_cons hshape
  have hts : (Forest.cons t k .nil).flatten = [] ++ (t :: k.flatten ++ []) := by
    simp [Forest.flatten]
  have hc : (Forest.cons t k .nil).size = (Forest.cons t k .nil).flatten.length :=
    (Forest.length_flatten _).symm
  have hh := Forest.height_le_size k
  have hsz : (Forest.cons t k .nil).size = k.size + 1 := by simp [Forest.size]
  have hloops := fun v hv => traceLoops_forest collapsed k.size k (le_refl _)
    (Forest.cons t k .nil).flatten [t] [] (Forest.cons t k .nil).size
    (Forest.cons t k .nil).size d v (by simp [Forest.flatten]) hc hcl hk (by omega) hv
  have h := traceFuel_tree (Forest.cons t k .nil).flatten [] [] t k collapsed
    (Forest.cons t k .nil).size (Forest.cons t k .nil).size d [] hts hc hcl hnode
    (fun _ v hv => by simpa using (hloops v hv).1)
    (fun ht v hv => by
      have hm : k.isMembers = true := by
        simp only [Forest.nodeOk, ht, Bool.and_eq_true] at hnode
        exact hnode.1
      simpa using (hloops v hv).2 hm)
    (by simp; omega)
  simpa [treeDepths] using h


theorem ancestorsBelow_succ (tokens : List jsmntok_t) (b i : Nat) :
    ancestorsBelow tokens (b + 1) i
      = ancestorsBelow tokens b i + (if isAncestor tokens b i = true then 1 else 0) := by
  unfold ancestorsBelow
  rw [List.range_succ, List.filter_append, List.length_append]
  by_cases h : isAncestor tokens b i = true
  · simp [h]
  · simp [h]

theorem ancestorsBelow_skip (tokens : List jsmntok_t) (b i : Nat) :
    ∀ n, (∀ j, b ≤ j → j < b + n → isAncestor tokens j i = false) →
      ancestorsBelow tokens (b + n) i = ancestorsBelow tokens b i := by
  intro n
  induction n with
  | zero => intro _; rfl
  | succ n ih =>
    intro h
    rw [← Nat.add_assoc, ancestorsBelow_succ, ih (fun j h1 h2 => h j h1 (by omega)),
      h (b + n) (by omega) (by omega)]
    simp

/-- In a forest that sits at index `pre.length` of the token array, with spans
inside `[lo, hi]`, below tokens of which exactly `d` are ancestors of whatever
lies inside `[lo, hi]`, every line is recorded with the number of its
ancestors per I1. -/
theorem treeDepths_ancestors (collapsed : List Int) (tokens : List jsmntok_t) (F : Forest) :
    ∀ (role : Role) (lo hi : Int) (pre post : List jsmntok_t) (d : Nat),
      tokens = pre ++ (F.flatten ++ post) → F.spans lo hi = true →
      (∀ i y, pre.length ≤ i → tokens[i]? = some y → lo ≤ y.start → y.start ≤ y.end_ →
        y.end_ ≤ hi → ancestorsBelow tokens pre.length i = d) →
      ∀ p ∈ treeDepths collapsed role pre.length d F, ancestorCount tokens p.1 = p.2 := by
  induction F with
  | nil => intro _ _ _ _ _ _ _ _ _ p hp; simp [treeDepths] at hp
  | cons t k r ihk ihr =>
    intro role lo hi pre post d hts hspans hctx p hp
    obtain ⟨h1, h2, h3, h4, h5⟩ := Forest.spans_cons hspans
    have hts1 : tokens = pre ++ (t :: k.flatten ++ (r.flatten ++ post)) := by
      rw [hts]; simp [Forest.flatten]
    have htb : tokens[pre.length]? = some t := by rw [hts1]; exact getElem?_here _ _ _
    have hkids : ∀ q ∈ treeDepths collapsed (kidRole t) (pre.length + 1) (d + 1) k,
        ancestorCount tokens q.1 = q.2 := by
      have := ihk (kidRole t) (t.start + 1) (t.end_ - 1) (pre ++ [t]) (r.flatten ++ post) (d + 1)
        (by rw [hts]; simp [Forest.flatten]) h4
        (by
          intro i y hi hy hy1 hy2 hy3
          simp only [List.length_append, List.length_singleton] at hi ⊢
          rw [ancestorsBelow_succ, hctx i y (by omega) hy (by omega) hy2 (by omega)]
          have hanc : isAncestor tokens pre.length i = true := by
            simp only [isAncestor, htb, hy, Bool.and_eq_true, decide_eq_true_eq]
            omega
          simp [hanc])
      simpa using this
    have hrest : ∀ q ∈ treeDepths collapsed role.next (pre.length + 1 + k.size) d r,
        ancestorCount tokens q.1 = q.2 := by
      have := ihr role.next t.end_ hi (pre ++ t :: k.flatten) post d
        (by rw [hts]; simp [Forest.flatten]) h5
        (by
          intro i y hi hy hy1 hy2 hy3
          simp only [List.length_append, List.length_cons, Forest.length_flatten] at hi ⊢
          rw [ancestorsBelow_skip tokens pre.length i (k.size + 1)]
          · exact hctx i y (by omega) hy (by omega) hy2 hy3
          · intro j hj1 hj2
            by_cases hjb : j = pre.length
            · subst hjb
              simp only [isAncestor, htb, hy, Bool.and_eq_false_iff, decide_eq_false_iff_not]
              right; omega
            · obtain ⟨x, hx, hxm⟩ := getElem?_mid pre t k.flatten (r.flatten ++ post) j
                (by omega) (by rw [Forest.length_flatten]; omega)
              rw [← hts1] at hx
              have := Forest.spans_bounds k _ _ h4 x hxm
              simp only [isAncestor, hx, hy, Bool.and_eq_false_iff, decide_eq_false_iff_not]
              right; omega)
      simpa [Forest.length_flatten, Nat.add_assoc, Nat.add_comm] using this
    simp only [treeDepths, List.mem_append] at hp
    rcases hp with hp | hp
    · split at hp
      · simp at hp
      · rw [List.mem_cons] at hp
        rcases hp with hp | hp
        · subst hp
          exact hctx pre.length t (le_refl _) htb h1 h2 h3
        · split at hp
          · simp at hp
          · exact hkids p hp
    · exact hrest p hp

/-- The column at which `display_json` draws the line of a token is
`depths[tok_idx] * INDENT_SIZE`; the line is drawn without a fault. -/
theorem display_line_column (viewer : JsonViewer)
    (hcount : viewer.token_count = viewer.tokens.length)
    (hcl : viewer.collapsed.length = viewer.token_count) (i : Nat)
    (hi : i < viewer.token_count) (depth : Int) (hd : viewer.depths[i]? = some depth) :
    ∃ text, display_line viewer i = .ok (depth * INDENT_SIZE, text) := by
  obtain ⟨tok, htok⟩ : ∃ tok, readTok viewer.tokens i = .ok tok :=
    ⟨_, readTok_of_lt viewer.tokens i (by omega)⟩
  have hdep : readInt viewer.depths i = .ok depth := by simp [readInt, hd]
  obtain ⟨b, hb, _⟩ := is_object_key_spec viewer hcount i hi
  obtain ⟨c, hc, _⟩ := readInt_collapsed viewer.collapsed i (by omega)
  unfold display_line
  simp only [htok, hdep, hb]
  cases b with
  | true =>
    obtain ⟨k, hk, _, _⟩ := skip_token_total viewer.tokens viewer.token_count (by omega) i hi
    simp only [hk]
    by_cases hlt : k < viewer.token_count
    · obtain ⟨vt, hvt⟩ : ∃ vt, readTok viewer.tokens k = .ok vt :=
        ⟨_, readTok_of_lt viewer.tokens k (by omega)⟩
      obtain ⟨c', hc', _⟩ := readInt_collapsed viewer.collapsed k (by omega)
      simp only [if_pos hlt, hvt, hc']
      split
      · exact ⟨_, rfl⟩
      · exact ⟨_, rfl⟩
    · simp only [if_neg hlt]
      exact ⟨_, rfl⟩
  | false =>
    simp only [hc]
    split
    · exact ⟨_, rfl⟩
    · exact ⟨_, rfl⟩

/-- C22: on the token array of a well-formed document of at most `MAX_TOKENS`
tokens and for every CollapseState, the record of
`build_visible_tokens(viewer, 0, 0)` (each appended token with the argument
`depth` of the call that appends it) lists the visible tokens, each with its
level in the tree (the root at 0, keys, values and elements one level below
their container), and that argument equals the entry of `depths` computed by
`calculate_depths`, which is the number of ancestors per I1 and the depth from
which `display_json` takes the column `depths[tok_idx] * INDENT_SIZE`. -/
theorem build_visible_tokens_depth_argument (doc : Forest) (hwf : doc.wellFormed = true)
    (viewer : JsonViewer) (htok : viewer.tokens = doc.flatten)
    (hcount : viewer.token_count = doc.size) (hcl : viewer.collapsed.length = doc.size)
    (hmax : doc.size ≤ MAX_TOKENS) (hvis : viewer.visible_tokens = [])
    (hdepths : calculate_depths viewer.tokens viewer.token_count
      (List.replicate viewer.token_count 0) = .ok viewer.depths) :
    ∃ log, traceFuel viewer.tokens viewer.token_count viewer.collapsed
        (viewer.token_count + 1) 0 0 [] = .ok log ∧
      build_visible_tokens viewer 0 0 = .ok { viewer with visible_tokens := log.map Prod.fst } ∧
      log = treeDepths viewer.collapsed .elem 0 0 doc ∧
      ∀ p ∈ log, viewer.depths[p.1]? = some (p.2 : Int) ∧
        ancestorCount viewer.tokens p.1 = p.2 ∧
        ∃ text, display_line viewer p.1 = .ok ((p.2 : Int) * INDENT_SIZE, text) := by
  have htrace := trace_doc doc hwf viewer.collapsed hcl hmax 0
  have hbuild : build_visible_tokens viewer 0 0
      = .ok { viewer with
              visible_tokens := (treeDepths viewer.collapsed .elem 0 0 doc).map Prod.fst } := by
    have he := traceFuel_erase doc.flatten doc.size viewer.collapsed (doc.size + 1) 0 0 []
    rw [htrace] at he
    unfold build_visible_tokens
    rw [htok, hcount, hvis]
    simp only [List.map_nil] at he
    rw [← he]
    rfl
  refine ⟨_, by rw [htok, hcount]; exact htrace, hbuild, rfl, ?_⟩
  intro p hp
  obtain ⟨t, k, hF, hshape, hspans⟩ := Forest.wellFormed_iff doc hwf
  have hanc : ancestorCount doc.flatten p.1 = p.2 :=
    treeDepths_ancestors viewer.collapsed doc.flatten doc .elem t.start t.end_ [] [] 0
      (by simp) hspans (by intro i y _ _ _ _ _; rfl) p hp
  have hlt : p.1 < doc.size := by
    have hdoc := build_visible_tokens_doc doc hwf viewer htok hcount hcl hmax hvis 0
    rw [hbuild] at hdoc
    injection hdoc with hdoc
    have hv : (treeDepths viewer.collapsed .elem 0 0 doc).map Prod.fst
        = expectedVisible doc viewer.collapsed := congrArg JsonViewer.visible_tokens hdoc
    have hm : p.1 ∈ expectedVisible doc viewer.collapsed := by
      rw [← hv]; exact List.mem_map_of_mem _ hp
    exact ((mem_expectedVisible doc viewer.collapsed p.1).mp hm).1
  obtain ⟨hpw, hbd, hpos⟩ := Forest.wellFormed_flat doc hwf
  obtain ⟨d, hd, _, hall, _⟩ := calculate_depths_eq doc.flatten hpw hbd
    (by rw [Forest.length_flatten]; exact hpos) (List.replicate doc.size 0)
    (by simp [Forest.length_flatten])
  simp only [Forest.length_flatten] at hd hall
  rw [htok, hcount, hd] at hdepths
  injection hdepths with hdepths
  have hdp : viewer.depths[p.1]? = some (p.2 : Int) := by
    rw [← hdepths, hall p.1 hlt, hanc]
  refine ⟨hdp, by rw [htok]; exact hanc, ?_⟩
  exact display_line_column viewer (by rw [hcount, htok, Forest.length_flatten])
    (by rw [hcl, hcount]) p.1 (by rw [hcount]; exact hlt) _ hdp

theorem build_visible_tokens_depth_argument_witness :
    sampleDoc.wellFormed = true ∧
    calculate_depths (sampleViewer [0, 0, 0, 0, 1, 0, 0]).tokens
      (sampleViewer [0, 0, 0, 0, 1, 0, 0]).token_count
      (List.replicate (sampleViewer [0, 0, 0, 0, 1, 0, 0]).token_count 0)
      = .ok (sampleViewer [0, 0, 0, 0, 1, 0, 0]).depths ∧
    ∃ log, traceFuel (sampleViewer [0, 0, 0, 0, 1, 0, 0]).tokens
        (sampleViewer [0, 0, 0, 0, 1, 0, 0]).token_count
        (sampleViewer [0, 0, 0, 0, 1, 0, 0]).collapsed
        ((sampleViewer [0, 0, 0, 0, 1, 0, 0]).token_count + 1) 0 0 [] = .ok log ∧
      build_visible_tokens (sampleViewer [0, 0, 0, 0, 1, 0, 0]) 0 0
        = .ok { sampleViewer [0, 0, 0, 0, 1, 0, 0] with visible_tokens := log.map Prod.fst } ∧
      log = treeDepths (sampleViewer [0, 0, 0, 0, 1, 0, 0]).collapsed .elem 0 0 sampleDoc ∧
      ∀ p ∈ log, (sampleViewer [0, 0, 0, 0, 1, 0, 0]).depths[p.1]? = some (p.2 : Int) ∧
        ancestorCount (sampleViewer [0, 0, 0, 0, 1, 0, 0]).tokens p.1 = p.2 ∧
        ∃ text, display_line (sampleViewer [0, 0, 0, 0, 1, 0, 0]) p.1
          = .ok ((p.2 : Int) * INDENT_SIZE, text) :=
  ⟨by decide, rfl,
    build_visible_tokens_depth_argument sampleDoc (by decide)
      (sampleViewer [0, 0, 0, 0, 1, 0, 0]) rfl rfl rfl (by decide) rfl rfl⟩

end JView
